import Mathlib

/-!
# Go_Blockchain: a verification development

A shallow embedding of the chain store (`blockchain.go`), of the gossip client
(`node.go`) and of the miner loop (`main.go`) of the Go_Blockchain node, followed
by theorems about the embedded functions.

Conventions of the embedding.

* A Go `string` and a Go `[]byte` are both a list of byte values (`List Nat`,
  every element below 256).  `ascii` turns a Lean string literal into such a list.
* Go `int` and `int64` are 64-bit two's complement: values are `Int`, and every
  arithmetic result is passed through `wrap64`.  A `byte` is a `Nat` reduced
  modulo 256.
* A run-time panic (index out of range) is the result `none`.
* The goroutines are run one at a time: no definition models a chain that another
  goroutine changes in the middle of a function.
* What the clock and the random source return is an argument (`now`, `r0`), and
  the unbounded search of `ProofOfWork` runs on fuel.
* The standard library functions the program calls but does not define
  (`sha256` + `hex.EncodeToString`, and `time.Unix(t, 0).Format(time.UnixDate)`,
  which depends on the local time zone) are parameters `sha256hex` and `unixDate`.
-/

namespace GoBlockchain

/-! ## Machine arithmetic and strings -/

/-- Two's complement reduction of an integer to the range of a Go `int64`. -/
def wrap64 (x : Int) : Int := (x + 2 ^ 63) % 2 ^ 64 - 2 ^ 63

/-- The bytes of an ASCII string literal. -/
def ascii (s : String) : List Nat := s.toList.map Char.toNat

/-- The decimal rendering `strconv.Itoa` as bytes. -/
def itoa (n : Int) : List Nat := ascii (toString n)

/-- Go's `strings.Compare`: bytewise lexicographic comparison, giving -1, 0 or +1. -/
def stringsCompare : List Nat → List Nat → Int
  | [], [] => 0
  | [], _ :: _ => -1
  | _ :: _, [] => 1
  | a :: as, b :: bs =>
    if a < b then -1 else if b < a then 1 else stringsCompare as bs

/-! ## Blocks and the chain (`blockchain.go`) -/

/-- The `Block` struct. -/
structure Block where
  Index : Int
  Timestamp : Int
  Proof : Int
  PreviousHash : List Nat
  Difficulty : List Nat
  deriving DecidableEq, Repr

/-- `var BLOCK_TIME int64 = 120`. -/
def BLOCK_TIME : Int := 120

/-- `var BLOCK_ADJUSTMENT int = 720`. -/
def BLOCK_ADJUSTMENT : Nat := 720

/-- `var NUM_OUTLIERS int = 60`. -/
def NUM_OUTLIERS : Nat := 60

/-- `HashBlock`: the digest of the concatenated textual forms of the five fields. -/
def HashBlock (sha256hex : List Nat → List Nat) (unixDate : Int → List Nat)
    (block : Block) : List Nat :=
  sha256hex (itoa block.Index ++ unixDate block.Timestamp ++ itoa block.Proof ++
    block.PreviousHash ++ block.Difficulty)

/-- `ProofOfWorkCalc`: the digest of the decimal text of
`proof*proof - previous_proof*previous_proof - int(Timestamp)` in `int` arithmetic. -/
def ProofOfWorkCalc (sha256hex : List Nat → List Nat)
    (proof previous_proof Timestamp : Int) : List Nat :=
  sha256hex (itoa (wrap64 (wrap64 (wrap64 (proof * proof)
    - wrap64 (previous_proof * previous_proof)) - Timestamp)))

/-- The body of one iteration of the loop of `ValidateChain` once `block` and
`prev_block` have been read: `false` when one of the four `return false` branches
is taken, `true` when the iteration falls through. -/
def validatePair (sha256hex : List Nat → List Nat) (unixDate : Int → List Nat)
    (prev_block block : Block) : Bool :=
  let proof_hash := ProofOfWorkCalc sha256hex block.Proof prev_block.Proof block.Timestamp
  if block.Index ≠ wrap64 (prev_block.Index + 1) then false
  else if block.Timestamp < prev_block.Timestamp then false
  else if stringsCompare proof_hash prev_block.Difficulty ≠ -1 then false
  else if HashBlock sha256hex unixDate prev_block ≠ block.PreviousHash then false
  else true

/-- The reads `bc.Chain[len(bc.Chain) - 1]` and `bc.Chain[len(bc.Chain) - 2]`
of `ValidateChain`, as `(prev_block, block)`; `none` when an index is out of range. -/
def tipPair (chain : List Block) : Option (Block × Block) :=
  match chain[chain.length - 1]? with
  | none => none
  | some block =>
    if chain.length < 2 then none
    else
      match chain[chain.length - 2]? with
      | none => none
      | some prev_block => some (prev_block, block)

/-- The loop `for i := 1; i <= len(bc.Chain); i++` of `ValidateChain`, with the
number of iterations still to run as the recursion argument.  The loop variable
does not occur in the body. -/
def ValidateChainLoop (sha256hex : List Nat → List Nat) (unixDate : Int → List Nat)
    (chain : List Block) : Nat → Option Bool
  | 0 => some true
  | n + 1 =>
    match tipPair chain with
    | none => none
    | some (prev_block, block) =>
      if validatePair sha256hex unixDate prev_block block then
        ValidateChainLoop sha256hex unixDate chain n
      else some false

/-- `ValidateChain`; `none` is the index-out-of-range panic. -/
def ValidateChain (sha256hex : List Nat → List Nat) (unixDate : Int → List Nat)
    (chain : List Block) : Option Bool :=
  ValidateChainLoop sha256hex unixDate chain chain.length

/-- One round of the loop of `AddRemoteBlocks` for the received `newBlock`: the
chain after the round and the value sent on `BlockValidateChannel`. -/
def AddRemoteBlocks (sha256hex : List Nat → List Nat) (unixDate : Int → List Nat)
    (chain : List Block) (newBlock : Block) : Option (List Block × Bool) :=
  let chain1 := chain ++ [newBlock]
  match ValidateChain sha256hex unixDate chain1 with
  | none => none
  | some false => some (chain1.take (chain1.length - 1), false)
  | some true => some (chain1, true)

/-! ## Hex increment and decrement (`blockchain.go`) -/

/-- The conversion of a hex character to its value, as written in `hexInc` and
`hexDec`: `if val > 96 { val -= 96-9 } else { val -= 48 }` on a `byte`. -/
def nibbleOf (val : Nat) : Nat :=
  if val > 96 then (val + 256 - 87) % 256 else (val + 256 - 48) % 256

/-- The conversion of a value back to a character, as written in `hexInc` and
`hexDec`: `if val >= 10 { val+96-9 } else { val+48 }` on a `byte`. -/
def hexCharOf (val : Nat) : Nat :=
  if val ≥ 10 then (val + 96 + 256 - 9) % 256 else (val + 48) % 256

/-- The inner loop `for j := start; j >= 0; j--` of `hexInc`; the recursion
argument is `j + 1`, so it is `0` when the loop is over (or never entered, for
`start = -1`).  Every index read is below `len(hash) - 1`. -/
def hexIncInner (hash : List Nat) (carry : Bool) : Nat → List Nat
  | 0 => hash
  | j + 1 =>
    let val2 := nibbleOf (hash.getD j 0)
    let val2a := if carry then (val2 + 1) % 256 else val2
    let val2b := if val2a = 16 then 0 else val2a
    let carry2 : Bool := if val2a = 16 then true else false
    hexIncInner (hash.set j (hexCharOf val2b)) carry2 j

/-- The outer loop `for i := 0; i < len(hash) - 1; i++` of `hexInc`: the first
argument counts the iterations still to run, the second is `i`.  A `'0'`
continues; any other character runs the inner loop from `i` (from `i - 1` for
an `'f'`) and breaks. -/
def hexIncLoop (hash : List Nat) : Nat → Nat → List Nat
  | 0, _ => hash
  | n + 1, i =>
    let val := hash.getD i 0
    if val = 48 then hexIncLoop hash n (i + 1)
    else hexIncInner hash true (if val = 102 then i else i + 1)

/-- `hexInc`. -/
def hexInc (hash : List Nat) : List Nat :=
  hexIncLoop hash (hash.length - 1) 0

/-- The loop of `hexDec`, which writes `r[i]` from `hash[i]` and the carry. -/
def hexDecLoop : Bool → List Nat → List Nat
  | _, [] => []
  | carry, val :: rest =>
    if val = 48 then val :: hexDecLoop carry rest
    else
      let v0 := nibbleOf val
      let v1 := if carry then (v0 + 255) % 256 else v0
      let v2 := if (v1 + 1) % 256 = 0 then 15 else v1
      let carry2 : Bool := if (v1 + 1) % 256 = 0 then true else false
      hexCharOf v2 :: hexDecLoop carry2 rest

/-- `hexDec`. -/
def hexDec (hash : List Nat) : List Nat :=
  hexDecLoop true hash

/-- A lowercase hexadecimal character: `'0'..'9'` or `'a'..'f'`. -/
def isHexChar (c : Nat) : Prop := (48 ≤ c ∧ c ≤ 57) ∨ (97 ≤ c ∧ c ≤ 102)

instance (c : Nat) : Decidable (isHexChar c) := by unfold isHexChar; infer_instance

/-- A 16-character lowercase hexadecimal string. -/
def isHex16 (x : List Nat) : Prop := x.length = 16 ∧ ∀ c ∈ x, isHexChar c

instance (x : List Nat) : Decidable (isHex16 x) := by unfold isHex16; infer_instance

/-- The number of leading `'0'` characters. -/
def leadingZeros : List Nat → Nat
  | [] => 0
  | c :: rest => if c = 48 then leadingZeros rest + 1 else 0

/-- The character one above `d`, as `hexInc` computes it at the position it increments. -/
def incChar (d : Nat) : Nat := hexCharOf (nibbleOf d + 1)

/-- The character one below `d`, as `hexDec` computes it at the position it decrements. -/
def decChar (d : Nat) : Nat := hexCharOf (nibbleOf d - 1)

/-! ## Sample data -/

/-- A stand-in digest function for instantiating the `sha256hex` parameter in
examples: it keeps the first 64 bytes of its input. -/
def sampleDigest (s : List Nat) : List Nat := s.take 64

/-- A stand-in for the time rendering in examples: the decimal seconds. -/
def sampleDate (t : Int) : List Nat := itoa t

/-- The genesis block of `main`, at time 0. -/
def genesisBlock : Block :=
  { Index := 0, Timestamp := 0, Proof := 69,
    PreviousHash := ascii "this is just a test", Difficulty := ascii "0000007fffffffff" }

/-- A block that extends `genesisBlock` under the stand-in digest and date. -/
def sampleBlock1 : Block :=
  { Index := 1, Timestamp := 0, Proof := 69,
    PreviousHash := HashBlock sampleDigest sampleDate genesisBlock,
    Difficulty := ascii "0000007fffffffff" }

/-! ## The gossip client (`node.go`) -/

/-- The `NodeAddress` struct. -/
structure NodeAddress where
  IpAddr : List Nat
  Port : Int
  LastSeen : Int
  deriving DecidableEq, Repr

/-- What one peer does with the request of `Node.GetBlock`: the encoding of the
index fails, `client.Post` returns an error, or a response arrives with a status
code and a body that decodes to a block (`some`) or does not (`none`). -/
inductive BlockReply where
  | encodeError
  | postError
  | response (StatusCode : Int) (body : Option Block)
  deriving DecidableEq, Repr

/-- The `errBlock` of `GetBlock`: `Index: -2`, every other field zero. -/
def errBlock : Block :=
  { Index := -2, Timestamp := 0, Proof := 0, PreviousHash := [], Difficulty := [] }

/-- The fan-out loop of `GetBlock` over the peers: `Except.error b` is the early
`return errBlock`, `Except.ok list` the collected responses. -/
def collectBlocks : List BlockReply → List Block → Except Block (List Block)
  | [], list => Except.ok list
  | BlockReply.encodeError :: _, _ => Except.error errBlock
  | BlockReply.postError :: rest, list => collectBlocks rest list
  | BlockReply.response StatusCode body :: rest, list =>
    if StatusCode ≠ 200 then collectBlocks rest list
    else
      match body with
      | none => collectBlocks rest (list ++ [errBlock])
      | some block => collectBlocks rest (list ++ [block])

/-- The inner loop of the selection: `tmpCount`, the number of `innerBlock`
equal to `outerBlock`. -/
def tmpCount (outerBlock : Block) (list : List Block) : Nat :=
  list.foldl (fun count innerBlock => if outerBlock = innerBlock then count + 1 else count) 0

/-- One iteration of the outer loop of the selection on the state
`(popularBlock, maxCount)`. -/
def popularStep (list : List Block) (st : Block × Nat) (outerBlock : Block) : Block × Nat :=
  if tmpCount outerBlock list > st.2 then (outerBlock, tmpCount outerBlock list) else st

/-- The block selection of `GetBlock` (from `popularBlock := list[0]` to the
`return`); `none` is the index-out-of-range panic of `list[0]`. -/
def selectPopular (list : List Block) : Option Block :=
  match list[0]? with
  | none => none
  | some first => some (list.foldl (popularStep list) (first, 0)).1

/-- `Node.GetBlock` on the replies of the peers of `NodeList`, in order. -/
def Node.GetBlock (replies : List BlockReply) : Option Block :=
  match collectBlocks replies [] with
  | Except.error b => some b
  | Except.ok list => selectPopular list

/-- A peer that contributes no entry to the response list of `GetBlock`:
unreachable, or answering with a status other than 200. -/
def noBlockResponse : BlockReply → Bool
  | BlockReply.encodeError => false
  | BlockReply.postError => true
  | BlockReply.response StatusCode _ => StatusCode ≠ 200

/-- What one peer does with the request of `Node.GetHeight`: `client.Get` returns
an error, the body does not decode, or it decodes to a height. -/
inductive HeightReply where
  | getError
  | undecodable
  | height (h : Int)
  deriving DecidableEq, Repr

/-- The entry `GetHeight` appends to its list for one peer. -/
def heightEntry : HeightReply → Int
  | HeightReply.getError => -1
  | HeightReply.undecodable => -2
  | HeightReply.height h => h

/-- `Node.GetHeight`: the list of entries, then the maximum search from `max := -1`. -/
def Node.GetHeight (replies : List HeightReply) : Int :=
  (replies.map heightEntry).foldl (fun max heights => if heights > max then heights else max) (-1)

/-- A peer that reports no height. -/
def noHeight : HeightReply → Bool
  | HeightReply.height _ => false
  | _ => true

/-- What one peer does with the broadcast of `Node.AddBlock`: the encoding of the
block fails, `client.Post` returns an error, or a response arrives with a status. -/
inductive PostReply where
  | encodeError
  | postError
  | response (StatusCode : Int)
  deriving DecidableEq, Repr

/-- The loop of `Node.AddBlock` that builds `rejectList`. -/
def rejectListOf : List (NodeAddress × PostReply) → List NodeAddress
  | [] => []
  | (_, PostReply.encodeError) :: rest => rejectListOf rest
  | (_, PostReply.postError) :: rest => rejectListOf rest
  | (node, PostReply.response StatusCode) :: rest =>
    if StatusCode = 406 then node :: rejectListOf rest else rejectListOf rest

/-- `Node.AddBlock` on the node list paired with what each peer answers. -/
def Node.AddBlock (peers : List (NodeAddress × PostReply)) : Bool :=
  if (rejectListOf peers).length > peers.length / 2 then false else true

/-- The peer returned a response (it is reachable). -/
def isReachable : PostReply → Bool
  | PostReply.response _ => true
  | _ => false

/-- The peer answered with the reject status 406. -/
def isReject : PostReply → Bool
  | PostReply.response StatusCode => StatusCode = 406
  | _ => false

/-- The first loop of `RemoveOfflineNodes`, `for i := 0; i < len(NodeList); i++`,
which re-reads the length at every test: the second argument is `i`, the last
the number of iterations allowed (the initial length is enough, since `i` grows
and the list never does). -/
def removeStaleLoop (now : Int) (list : List NodeAddress) (i : Nat) : Nat → List NodeAddress
  | 0 => list
  | fuel + 1 =>
    match list[i]? with
    | none => list
    | some node =>
      if wrap64 (now - node.LastSeen) > 36000 then
        removeStaleLoop now ((list.set i (list.getLastD node)).dropLast) (i + 1) fuel
      else removeStaleLoop now list (i + 1) fuel

/-- The second loop of `RemoveOfflineNodes`, which drops the node's own address. -/
def removeSelfLoop (my : NodeAddress) (list : List NodeAddress) (j : Nat) :
    Nat → List NodeAddress
  | 0 => list
  | fuel + 1 =>
    match list[j]? with
    | none => list
    | some node =>
      if node.IpAddr = my.IpAddr ∧ node.Port = my.Port then
        removeSelfLoop my ((list.set j (list.getLastD node)).dropLast) (j + 1) fuel
      else removeSelfLoop my list (j + 1) fuel

/-- `Node.RemoveOfflineNodes` at the time `now`, as the node list afterwards. -/
def Node.RemoveOfflineNodes (my : NodeAddress) (now : Int) (list : List NodeAddress) :
    List NodeAddress :=
  let list1 := removeStaleLoop now list 0 list.length
  removeSelfLoop my list1 0 list1.length

/-- The state of the selection loop after the blocks of `seen` have been the
`outerBlock`: nothing seen and `maxCount = 0`, or `popularBlock` is the first
block of `seen` whose count is the largest among `seen`. -/
def popularInv (list seen : List Block) (st : Block × Nat) : Prop :=
  (∀ b ∈ seen, list.count b ≤ st.2) ∧
  (seen = [] → st.2 = 0) ∧
  (seen ≠ [] → ∃ pre mid, seen = pre ++ st.1 :: mid ∧ st.2 = list.count st.1 ∧
    ∀ b ∈ pre, list.count b < st.2)

/-- A sample block, different from `genesisBlock`. -/
def sampleBlock2 : Block :=
  { Index := 1, Timestamp := 5, Proof := 7,
    PreviousHash := ascii "abc", Difficulty := ascii "0000007fffffffff" }

/-- Sample peers. -/
def peerA : NodeAddress := { IpAddr := ascii "192.168.0.251", Port := 8080, LastSeen := 0 }

/-- A second sample peer. -/
def peerB : NodeAddress := { IpAddr := ascii "192.168.0.129", Port := 8080, LastSeen := 0 }

/-- This node's own address in the examples. -/
def myAddr : NodeAddress := { IpAddr := ascii "10.0.0.1", Port := 8080, LastSeen := 0 }

/-! ## The difficulty rule (`blockchain.go`) -/

/-- The first loop of `AdjustDifficulty`,
`for i := len(bc.Chain) - 1; i > len(bc.Chain) - BLOCK_ADJUSTMENT; i--`, with
`lower = len(bc.Chain) - BLOCK_ADJUSTMENT`, the current `i` and the gaps
collected so far. -/
def gapsLoop (chain : List Block) (lower : Nat) : Nat → List Int → Option (List Int)
  | 0, timestamps => some timestamps
  | i + 1, timestamps =>
    if i + 1 > lower then
      if i + 1 > 0 then
        match chain[i + 1]?, chain[i]? with
        | some cur, some prev =>
          gapsLoop chain lower i (timestamps ++ [wrap64 (cur.Timestamp - prev.Timestamp)])
        | _, _ => none
      else gapsLoop chain lower i timestamps
    else some timestamps

/-- The variables `min`, `max`, `max_index`, `min_index` of a trimming round. -/
structure Scan where
  min : Int
  max : Int
  max_index : Int
  min_index : Int
  deriving DecidableEq, Repr

/-- The loop `for j := 0; j < len(timestamps); j++` of a trimming round, from
index `j` on. -/
def scanLoop : List Int → Nat → Scan → Scan
  | [], _, s => s
  | t :: rest, j, s =>
    let s1 : Scan := if t > s.max then { s with max := t, max_index := j } else s
    let s2 : Scan := if t < s1.min then { s1 with min := t, min_index := j } else s1
    scanLoop rest (j + 1) s2

/-- The search of one trimming round, from `min = 99999999`, `max = -1` and
both indices `-1`. -/
def scanMinMax (timestamps : List Int) : Scan :=
  scanLoop timestamps 0 { min := 99999999, max := -1, max_index := -1, min_index := -1 }

/-- One trimming round: the search, the two moves
`timestamps[min_index] = timestamps[len - 1]` and
`timestamps[max_index] = timestamps[len - 2]`, and the truncation by two;
`none` when an index is out of range. -/
def trimRound (timestamps : List Int) : Option (List Int) :=
  let s := scanMinMax timestamps
  if s.min_index < 0 then none
  else
    match timestamps[timestamps.length - 1]? with
    | none => none
    | some last =>
      let ts1 := timestamps.set s.min_index.toNat last
      if s.max_index < 0 ∨ ts1.length < 2 then none
      else
        match ts1[ts1.length - 2]? with
        | none => none
        | some secondLast =>
          let ts2 := ts1.set s.max_index.toNat secondLast
          some (ts2.take (ts2.length - 2))

/-- The loop `for i := 0; i < NUM_OUTLIERS; i++` over the trimming rounds. -/
def trimLoop : Nat → List Int → Option (List Int)
  | 0, timestamps => some timestamps
  | n + 1, timestamps =>
    match trimRound timestamps with
    | none => none
    | some ts => trimLoop n ts

/-- The summation loop, in `int64` arithmetic. -/
def runningTotal (timestamps : List Int) : Int :=
  timestamps.foldl (fun running_total t => wrap64 (running_total + t)) 0

/-- `AdjustDifficulty`; `none` is a panic (index out of range, division by zero). -/
def AdjustDifficulty (chain : List Block) : Option (List Nat) :=
  if chain.length ≤ BLOCK_ADJUSTMENT then
    match chain[0]? with
    | none => none
    | some first => some first.Difficulty
  else
    match gapsLoop chain (chain.length - BLOCK_ADJUSTMENT) (chain.length - 1) [] with
    | none => none
    | some timestamps =>
      match trimLoop NUM_OUTLIERS timestamps with
      | none => none
      | some rest =>
        if rest.length = 0 then none
        else
          let average := wrap64 (Int.tdiv (runningTotal rest) rest.length)
          match chain[chain.length - 1]? with
          | none => none
          | some tip =>
            if average > BLOCK_TIME then some (hexInc tip.Difficulty)
            else some (hexDec tip.Difficulty)

/-- One trimming round removes its smallest and its largest gap: it is not the
case that the first largest gap is in the last slot while the first smallest is
not in the slot before it (then the second move overwrites the last slot, and
the truncation drops the gap of the slot before last instead of the largest). -/
def roundRemovesMax (timestamps : List Int) : Bool :=
  let s := scanMinMax timestamps
  !(s.max_index = (timestamps.length : Int) - 1 && s.min_index ≠ (timestamps.length : Int) - 2)

/-- The first `n` trimming rounds from `timestamps` all remove their smallest and
their largest gap. -/
def noSlip : Nat → List Int → Bool
  | 0, _ => true
  | n + 1, timestamps =>
    roundRemovesMax timestamps &&
      (match trimRound timestamps with
       | none => true
       | some ts => noSlip n ts)

/-- All the inter-block gaps of a chain, oldest first. -/
def allGaps (chain : List Block) : List Int :=
  List.zipWith (fun prev cur => cur.Timestamp - prev.Timestamp) chain chain.tail

/-- The `n` inter-block gaps ending at the tip, newest first (the order in which
`AdjustDifficulty` collects them). -/
def lastGaps (chain : List Block) (n : Nat) : List Int :=
  (allGaps chain).reverse.take n

/-- A list of gaps without its `NUM_OUTLIERS` smallest and its `NUM_OUTLIERS`
largest entries. -/
def trimmedMiddle (gaps : List Int) : List Int :=
  ((gaps.insertionSort (· ≤ ·)).drop NUM_OUTLIERS).take
    (gaps.length - 2 * NUM_OUTLIERS)

/-- The integer-division average of the gaps that remain after the trimming. -/
def trimmedAverage (gaps : List Int) : Int :=
  Int.tdiv (trimmedMiddle gaps).sum (trimmedMiddle gaps).length

/-- The difficulty rule as the specification words it for a chain of more than
720 blocks with tip difficulty `tipDifficulty`: the 720 gaps ending at the tip,
trimmed by 60 at both ends, averaged over the remaining 600, compared with
`BLOCK_TIME`. -/
def specAdjustDifficulty (chain : List Block) (tipDifficulty : List Nat) : List Nat :=
  if trimmedAverage (lastGaps chain 720) > BLOCK_TIME then hexInc tipDifficulty
  else hexDec tipDifficulty

/-- The blocks that follow a block with index `idx` and timestamp `ts`, one per
gap of the list, all with the difficulty `"0000007fffffffff"`. -/
def blocksAfter : Int → Int → List Int → List Block
  | _, _, [] => []
  | idx, ts, g :: gaps =>
    { Index := idx + 1, Timestamp := ts + g, Proof := 0, PreviousHash := [],
      Difficulty := ascii "0000007fffffffff" } :: blocksAfter (idx + 1) (ts + g) gaps

/-- A chain that starts with the genesis block at time 0 and continues with one
block per gap of the list (oldest gap first). -/
def chainOfGaps (gaps : List Int) : List Block :=
  genesisBlock :: blocksAfter 0 0 gaps

/-- The gaps of scenario 3, oldest first: after a first gap of 120 (which lies
outside the last 720 blocks), 599 gaps of 120, 60 gaps of 0 and 60 gaps of
`10^6`. -/
def outlierGaps : List Int :=
  120 :: (List.replicate 599 120 ++ List.replicate 60 0 ++ List.replicate 60 1000000)

/-- Gaps, oldest first, on which the 719 gaps between the last 720 blocks and the
720 gaps ending at the tip give different averages: a first gap of 0, then 598
gaps of 120, 60 gaps of 0 and 61 gaps of 719. -/
def splitGaps : List Int :=
  0 :: (List.replicate 598 120 ++ List.replicate 60 0 ++ List.replicate 61 719)

/-- The working list after one trimming round on `front ++ [a, b]` when the
search found the smallest gap at index `mi` and the largest at index `Mi`: the
first move puts `b` at `mi`, the second puts the gap then in the slot before
last at `Mi`, and the last two slots are cut off. -/
def roundResult (front : List Int) (a b : Int) (mi Mi : Nat) : List Int :=
  let front1 := if mi < front.length then front.set mi b else front
  let a1 := if mi = front.length then b else a
  if Mi < front.length then front1.set Mi a1 else front1

/-- The working list after `k` trimming rounds (for `k ≤ 59`) on the gaps of
`slipGaps`: each round so far has replaced one leading `10^6` and one `0` by a
120 taken from the end. -/
def slipList (k : Nat) : List Int :=
  List.replicate k 120 ++ List.replicate (59 - k) 1000000 ++ List.replicate k 120 ++
    List.replicate (60 - k) 0 ++ List.replicate 481 120 ++ [1000000] ++
    List.replicate (118 - 2 * k) 120

/-- Gaps of scenario 3 in an order on which the last trimming round meets its
largest gap in the last slot; oldest first: 119 gaps of 120, one of `10^6`, 481
of 120, 60 of 0 and 59 of `10^6`. -/
def slipGaps : List Int :=
  120 :: (List.replicate 118 120 ++ [1000000] ++ List.replicate 481 120 ++
    List.replicate 60 0 ++ List.replicate 59 1000000)

/-- Gaps too large for the minimum search of a trimming round: 720 gaps of `10^8`. -/
def hugeGaps : List Int := List.replicate 720 100000000

/-! ## Peer deduplication (`node.go`) -/

/-- The inner loop of `removeDuplicateNodes`: the value of `found` after every
`uniqueNode` of `list` has been compared with `node` on `IpAddr` and `Port`. -/
def foundIn (node : NodeAddress) (list : List NodeAddress) : Bool :=
  list.foldl (fun found uniqueNode =>
    if node.IpAddr = uniqueNode.IpAddr ∧ node.Port = uniqueNode.Port then true else found) false

/-- `removeDuplicateNodes`: a node is appended to `list` when no entry of `list`
has its `IpAddr` and `Port`. -/
def removeDuplicateNodes (nodeList : List NodeAddress) : List NodeAddress :=
  nodeList.foldl (fun list node => if foundIn node list then list else list ++ [node]) []

/-- The key on which peers are deduplicated. -/
def nodeKey (node : NodeAddress) : List Nat × Int := (node.IpAddr, node.Port)

/-- The same peer as `peerA`, seen later. -/
def peerA2 : NodeAddress := { IpAddr := ascii "192.168.0.251", Port := 8080, LastSeen := 77 }

/-! ## Mining (`blockchain.go`, `main.go`) -/

/-- The acceptance test of `ProofOfWork`:
`strings.Compare(result_hash, bc.Chain[len(bc.Chain) - 1].Difficulty) < 1`. -/
def minerAccepts (result_hash difficulty : List Nat) : Bool :=
  decide (stringsCompare result_hash difficulty < 1)

/-- The proof check of `ValidateChain`, whose branch
`strings.Compare(proof_hash, prev_block.Difficulty) != -1` returns false. -/
def validatorAccepts (proof_hash difficulty : List Nat) : Bool :=
  if stringsCompare proof_hash difficulty ≠ -1 then false else true

/-- The loop `for true` of `ProofOfWork`, run for at most `fuel` iterations:
`now k` is what `time.Now().Unix()` returns in iteration `k`, and `r` is the
current candidate.  `none` is the index-out-of-range panic on an empty chain, or
a loop that has not found a proof within `fuel` iterations. -/
def ProofOfWorkLoop (sha256hex : List Nat → List Nat) (chain : List Block)
    (now : Nat → Int) : Nat → Nat → Int → Option (Int × Int)
  | 0, _, _ => none
  | fuel + 1, k, r =>
    let Timestamp := now k
    match chain[chain.length - 1]? with
    | none => none
    | some tip =>
      let result_hash := ProofOfWorkCalc sha256hex r tip.Proof Timestamp
      if minerAccepts result_hash tip.Difficulty then some (r, Timestamp)
      else ProofOfWorkLoop sha256hex chain now fuel (k + 1) (wrap64 (r + 1))

/-- `ProofOfWork`, from the start value `r0` that `rand.Intn(2147483647)` drew. -/
def ProofOfWork (sha256hex : List Nat → List Nat) (chain : List Block)
    (now : Nat → Int) (fuel : Nat) (r0 : Int) : Option (Int × Int) :=
  ProofOfWorkLoop sha256hex chain now fuel 0 r0

/-- `Blockchain.AddBlock`: the chain with the freshly mined block appended. -/
def Blockchain.AddBlock (sha256hex : List Nat → List Nat) (unixDate : Int → List Nat)
    (chain : List Block) (now : Nat → Int) (fuel : Nat) (r0 : Int) : Option (List Block) :=
  match ProofOfWork sha256hex chain now fuel r0 with
  | none => none
  | some (Proof, Timestamp) =>
    match chain[chain.length - 1]? with
    | none => none
    | some tip =>
      match AdjustDifficulty chain with
      | none => none
      | some Difficulty =>
        some (chain ++ [{ Index := (chain.length : Int), Timestamp := Timestamp, Proof := Proof,
                          PreviousHash := HashBlock sha256hex unixDate tip,
                          Difficulty := Difficulty }])

/-- What one iteration of the loop of `mineBlocks` leaves behind: the chain at the
end of the iteration (or on entry to `syncChain`), the block handed to
`nodeInstance.AddBlock`, and whether `syncChain` is entered. -/
structure MineStep where
  chain : List Block
  broadcast : Block
  resync : Bool
  deriving DecidableEq, Repr

/-- One iteration of the loop of `mineBlocks` up to the call of `syncChain`;
`answers block` pairs the node list with what each peer answers to the broadcast
of `block`. -/
def mineBlocksStep (sha256hex : List Nat → List Nat) (unixDate : Int → List Nat)
    (chain : List Block) (now : Nat → Int) (fuel : Nat) (r0 : Int)
    (answers : Block → List (NodeAddress × PostReply)) : Option MineStep :=
  match Blockchain.AddBlock sha256hex unixDate chain now fuel r0 with
  | none => none
  | some chain1 =>
    match ValidateChain sha256hex unixDate chain1 with
    | none => none
    | some valid =>
      let chain2 := if !valid then chain1.take (chain1.length - 1) else chain1
      match chain2[chain2.length - 1]? with
      | none => none
      | some block =>
        if !Node.AddBlock (answers block) then
          some { chain := chain2.take (chain2.length - 1), broadcast := block, resync := true }
        else some { chain := chain2, broadcast := block, resync := false }

/-- The rounds of the loop of `AddRemoteBlocks` for the blocks received in turn:
the chain after the last round. -/
def AddRemoteBlocksRounds (sha256hex : List Nat → List Nat) (unixDate : Int → List Nat) :
    List Block → List Block → Option (List Block)
  | chain, [] => some chain
  | chain, newBlock :: rest =>
    match AddRemoteBlocks sha256hex unixDate chain newBlock with
    | none => none
    | some (chain1, _) => AddRemoteBlocksRounds sha256hex unixDate chain1 rest

/-- Invariants 2 to 4 of the chain for a block `cur` that follows `prev`: the
timestamp does not decrease, `PreviousHash` is the hash of `prev`, and the
proof-of-work hash of `cur` compares less than the difficulty of `prev`. -/
def linkOk (sha256hex : List Nat → List Nat) (unixDate : Int → List Nat)
    (prev cur : Block) : Prop :=
  prev.Timestamp ≤ cur.Timestamp ∧
  cur.PreviousHash = HashBlock sha256hex unixDate prev ∧
  stringsCompare (ProofOfWorkCalc sha256hex cur.Proof prev.Proof cur.Timestamp)
    prev.Difficulty = -1

instance (sha256hex : List Nat → List Nat) (unixDate : Int → List Nat) :
    DecidableRel (linkOk sha256hex unixDate) := fun prev cur =>
  inferInstanceAs (Decidable (prev.Timestamp ≤ cur.Timestamp ∧
    cur.PreviousHash = HashBlock sha256hex unixDate prev ∧
    stringsCompare (ProofOfWorkCalc sha256hex cur.Proof prev.Proof cur.Timestamp)
      prev.Difficulty = -1))

/-- Every block of the chain after the first is linked to the one before it. -/
def chainLinked (sha256hex : List Nat → List Nat) (unixDate : Int → List Nat) :
    List Block → Bool
  | [] => true
  | [_] => true
  | prev :: cur :: rest =>
    decide (linkOk sha256hex unixDate prev cur) && chainLinked sha256hex unixDate (cur :: rest)

/-- Invariants 1 to 4 of the chain: the block at position `i` has `Index = i`, and
every block is linked to the one before it by `linkOk`. -/
def chainInvariants (sha256hex : List Nat → List Nat) (unixDate : Int → List Nat)
    (chain : List Block) : Prop :=
  chain.map Block.Index = (List.range chain.length).map (fun i : Nat => (i : Int)) ∧
  chainLinked sha256hex unixDate chain = true

instance (sha256hex : List Nat → List Nat) (unixDate : Int → List Nat) (chain : List Block) :
    Decidable (chainInvariants sha256hex unixDate chain) :=
  inferInstanceAs (Decidable
    (chain.map Block.Index = (List.range chain.length).map (fun i : Nat => (i : Int)) ∧
      chainLinked sha256hex unixDate chain = true))

/-- A 64-character lowercase hexadecimal string, the shape of a SHA-256 digest
rendered by `hex.EncodeToString`. -/
def isDigest64 (h : List Nat) : Prop := h.length = 64 ∧ ∀ c ∈ h, isHexChar c

instance (h : List Nat) : Decidable (isDigest64 h) :=
  inferInstanceAs (Decidable (h.length = 64 ∧ ∀ c ∈ h, isHexChar c))

/-- A stand-in digest of the shape of a real one, for examples: the low nibble of
each of the first 64 input bytes as a hex character, padded with `'0'`. -/
def sampleHexDigest (s : List Nat) : List Nat :=
  (s.map (fun c => hexCharOf (c % 16)) ++ List.replicate 64 48).take 64

/-- A block that extends `genesisBlock` under the stand-in digest and date, with
a timestamp of 1000 s. -/
def futureBlock : Block :=
  { Index := 1, Timestamp := 1000, Proof := 69,
    PreviousHash := HashBlock sampleDigest sampleDate genesisBlock,
    Difficulty := ascii "0000007fffffffff" }

/-- The block mined on `[genesisBlock, futureBlock]` when the local clock reads
500 s and the search starts at 0. -/
def lateCandidate : Block :=
  { Index := 2, Timestamp := 500, Proof := 0,
    PreviousHash := HashBlock sampleDigest sampleDate futureBlock,
    Difficulty := ascii "0000007fffffffff" }

/-! ## Theorems -/

theorem tipPair_append_two (pre : List Block) (p c : Block) :
    tipPair (pre ++ [p, c]) = some (p, c) := by
  unfold tipPair
  have h1 : (pre ++ [p, c])[(pre ++ [p, c]).length - 1]? = some c := by
    rw [List.getElem?_append_right (by simp)]
    simp
  have h2 : (pre ++ [p, c])[(pre ++ [p, c]).length - 2]? = some p := by
    rw [List.getElem?_append_right (by simp)]
    simp
  rw [h1]
  simp only [h2]
  simp

theorem ValidateChainLoop_of_tipPair (sha256hex : List Nat → List Nat)
    (unixDate : Int → List Nat) (chain : List Block) (p c : Block)
    (h : tipPair chain = some (p, c)) (n : Nat) :
    ValidateChainLoop sha256hex unixDate chain (n + 1)
      = some (validatePair sha256hex unixDate p c) := by
  induction n with
  | zero =>
    simp only [ValidateChainLoop, h]
    cases validatePair sha256hex unixDate p c <;> simp
  | succ k ih =>
    rw [ValidateChainLoop]
    simp only [h]
    cases hv : validatePair sha256hex unixDate p c
    · simp
    · simp only [if_true]
      rw [ih, hv]

theorem ValidateChain_append_two (sha256hex : List Nat → List Nat)
    (unixDate : Int → List Nat) (pre : List Block) (p c : Block) :
    ValidateChain sha256hex unixDate (pre ++ [p, c])
      = some (validatePair sha256hex unixDate p c) := by
  unfold ValidateChain
  have hl : (pre ++ [p, c]).length = (pre.length + 1) + 1 := by simp
  rw [hl]
  exact ValidateChainLoop_of_tipPair sha256hex unixDate _ p c (tipPair_append_two pre p c) _

/-- C1 (divergence): on a chain `pre ++ [p, c]` of any length, `ValidateChain`
returns exactly the verdict of the four checks on the tip pair `(p, c)`; the
blocks of `pre`, and the pair formed with `p`, are never inspected. -/
theorem ValidateChain_checks_only_tip_pair (sha256hex : List Nat → List Nat)
    (unixDate : Int → List Nat) (pre : List Block) (p c : Block) :
    ValidateChain sha256hex unixDate (pre ++ [p, c])
      = some (validatePair sha256hex unixDate p c) :=
  ValidateChain_append_two sha256hex unixDate pre p c

/-- C2: for a non-empty chain `c` and a candidate `b`, one round of
`AddRemoteBlocks` ends with the chain `c ++ [b]` and the result `true` when
`ValidateChain` accepts `c ++ [b]`, and otherwise with the chain `c` and the
result `false`; the round never panics. -/
theorem AddRemoteBlocks_round (sha256hex : List Nat → List Nat)
    (unixDate : Int → List Nat) (c : List Block) (b : Block) (hc : c ≠ []) :
    (ValidateChain sha256hex unixDate (c ++ [b]) = some true →
      AddRemoteBlocks sha256hex unixDate c b = some (c ++ [b], true)) ∧
    (ValidateChain sha256hex unixDate (c ++ [b]) ≠ some true →
      AddRemoteBlocks sha256hex unixDate c b = some (c, false)) := by
  obtain ⟨pre, p, rfl⟩ : ∃ pre p, c = pre ++ [p] := by
    refine ⟨c.dropLast, c.getLast hc, ?_⟩
    exact (List.dropLast_append_getLast hc).symm
  have hv : ValidateChain sha256hex unixDate (pre ++ [p] ++ [b])
      = some (validatePair sha256hex unixDate p b) := by
    have := ValidateChain_append_two sha256hex unixDate pre p b
    simpa using this
  unfold AddRemoteBlocks
  simp only [hv]
  cases validatePair sha256hex unixDate p b
  · have ht : (pre ++ [p] ++ [b]).take ((pre ++ [p] ++ [b]).length - 1) = pre ++ [p] := by
      rw [List.length_append, List.length_singleton, Nat.add_sub_cancel]
      exact List.take_left' rfl
    rw [ht]
    exact ⟨fun h => absurd h (by decide), fun _ => rfl⟩
  · simp

/-- A chain of two blocks accepted under the stand-in digest. -/
theorem AddRemoteBlocks_round_witness :
    AddRemoteBlocks sampleDigest sampleDate [genesisBlock] sampleBlock1
      = some ([genesisBlock] ++ [sampleBlock1], true) :=
  (AddRemoteBlocks_round sampleDigest sampleDate [genesisBlock] sampleBlock1
    (by decide)).1 (by decide)

/-! ### Hex increment and decrement -/

theorem hexCharOf_nibbleOf (c : Nat) (h : isHexChar c) : hexCharOf (nibbleOf c) = c := by
  unfold isHexChar at h
  rcases h with ⟨h1, h2⟩ | ⟨h1, h2⟩ <;> interval_cases c <;> rfl

theorem nibbleOf_le (c : Nat) (h : isHexChar c) : nibbleOf c ≤ 15 := by
  unfold isHexChar at h
  rcases h with ⟨h1, h2⟩ | ⟨h1, h2⟩ <;> interval_cases c <;> decide

theorem nibbleOf_pos (c : Nat) (h : isHexChar c) (h0 : c ≠ 48) : 1 ≤ nibbleOf c := by
  unfold isHexChar at h
  rcases h with ⟨h1, h2⟩ | ⟨h1, h2⟩ <;> interval_cases c <;> first | decide | exact absurd rfl h0

theorem nibbleOf_lt (c : Nat) (h : isHexChar c) (hf : c ≠ 102) : nibbleOf c ≤ 14 := by
  unfold isHexChar at h
  rcases h with ⟨h1, h2⟩ | ⟨h1, h2⟩ <;> interval_cases c <;> first | decide | exact absurd rfl hf

theorem incChar_spec (d : Nat) (h : isHexChar d) (hf : d ≠ 102) :
    isHexChar (incChar d) ∧ incChar d ≠ 48 ∧ decChar (incChar d) = d := by
  unfold isHexChar at h
  rcases h with ⟨h1, h2⟩ | ⟨h1, h2⟩ <;> interval_cases d <;> first | decide | exact absurd rfl hf

theorem decChar_spec (d : Nat) (h : isHexChar d) (h0 : d ≠ 48) :
    isHexChar (decChar d) ∧ decChar d ≠ 102 ∧ incChar (decChar d) = d ∧
      (d ≠ 49 → decChar d ≠ 48) := by
  unfold isHexChar at h
  rcases h with ⟨h1, h2⟩ | ⟨h1, h2⟩ <;> interval_cases d <;> first | decide | exact absurd rfl h0

theorem hexDecLoop_false (l : List Nat) (h : ∀ c ∈ l, isHexChar c) :
    hexDecLoop false l = l := by
  induction l with
  | nil => rfl
  | cons val rest ih =>
    have hr : ∀ c ∈ rest, isHexChar c := fun c hc => h c (List.mem_cons_of_mem _ hc)
    have hv : isHexChar val := h val (List.mem_cons_self _ _)
    unfold hexDecLoop
    by_cases h48 : val = 48
    · simp only [h48, if_true]
      rw [ih hr]
    · have hle := nibbleOf_le val hv
      have h1 : ¬ ((nibbleOf val + 1) % 256 = 0) := by omega
      simp only [h48, if_false, h1, Bool.false_eq_true]
      rw [ih hr, hexCharOf_nibbleOf val hv]

theorem hexDecLoop_true_cons (d : Nat) (rest : List Nat) (hd : isHexChar d) (h0 : d ≠ 48)
    (h : ∀ c ∈ rest, isHexChar c) :
    hexDecLoop true (d :: rest) = decChar d :: rest := by
  have hle := nibbleOf_le d hd
  have hpos := nibbleOf_pos d hd h0
  have h1 : (nibbleOf d + 255) % 256 = nibbleOf d - 1 := by omega
  have h2 : ¬ ((nibbleOf d - 1 + 1) % 256 = 0) := by omega
  unfold hexDecLoop
  simp only [h0, if_false, if_true, h1, h2]
  rw [hexDecLoop_false rest h]
  rfl

theorem hexDecLoop_replicate_append (carry : Bool) (k : Nat) (l : List Nat) :
    hexDecLoop carry (List.replicate k 48 ++ l) = List.replicate k 48 ++ hexDecLoop carry l := by
  induction k with
  | zero => simp
  | succ n ih =>
    rw [List.replicate_succ, List.cons_append, hexDecLoop]
    simp only [if_true]
    rw [ih]
    rfl

theorem hexDec_zeros_cons (k d : Nat) (rest : List Nat) (hd : isHexChar d) (h0 : d ≠ 48)
    (h : ∀ c ∈ rest, isHexChar c) :
    hexDec (List.replicate k 48 ++ d :: rest) = List.replicate k 48 ++ decChar d :: rest := by
  unfold hexDec
  rw [hexDecLoop_replicate_append, hexDecLoop_true_cons d rest hd h0 h]

theorem set_getD_self (l : List Nat) (j : Nat) : l.set j (l.getD j 0) = l := by
  induction l generalizing j with
  | nil => rfl
  | cons a t ih =>
    cases j with
    | zero => rfl
    | succ n =>
      simp only [List.set_cons_succ, List.getD_cons_succ]
      rw [ih]

theorem isHexChar_getD (l : List Nat) (h : ∀ c ∈ l, isHexChar c) (j : Nat) (hj : j < l.length) :
    isHexChar (l.getD j 0) := by
  rw [List.getD_eq_getElem _ _ hj]
  exact h _ (List.getElem_mem _)

theorem hexIncInner_false (hash : List Nat) (h : ∀ c ∈ hash, isHexChar c) (j : Nat)
    (hj : j ≤ hash.length) : hexIncInner hash false j = hash := by
  induction j with
  | zero => rfl
  | succ n ih =>
    have hc := isHexChar_getD hash h n (by omega)
    have hle := nibbleOf_le _ hc
    have h16 : ¬ (nibbleOf (hash.getD n 0) = 16) := by omega
    unfold hexIncInner
    simp only [Bool.false_eq_true, if_false, h16]
    rw [hexCharOf_nibbleOf _ hc, set_getD_self]
    exact ih (by omega)

theorem hexIncInner_true (hash : List Nat) (h : ∀ c ∈ hash, isHexChar c) (j : Nat)
    (hj : j < hash.length) (hf : hash.getD j 0 ≠ 102) :
    hexIncInner hash true (j + 1) = hash.set j (incChar (hash.getD j 0)) := by
  have hc := isHexChar_getD hash h j hj
  have hle := nibbleOf_lt _ hc hf
  have h1 : (nibbleOf (hash.getD j 0) + 1) % 256 = nibbleOf (hash.getD j 0) + 1 := by omega
  have h16 : ¬ (nibbleOf (hash.getD j 0) + 1 = 16) := by omega
  unfold hexIncInner
  simp only [if_true, h1, h16, if_false]
  have hs : ∀ c ∈ hash.set j (hexCharOf (nibbleOf (hash.getD j 0) + 1)), isHexChar c := by
    intro c hcm
    rcases List.mem_or_eq_of_mem_set hcm with hm | he
    · exact h c hm
    · rw [he]; exact (incChar_spec _ hc hf).1
  rw [hexIncInner_false _ hs j (by simp; omega)]
  rfl

theorem getD_replicate_append_lt (k i : Nat) (l : List Nat) (hi : i < k) :
    (List.replicate k 48 ++ l).getD i 0 = 48 := by
  rw [List.getD_eq_getElem _ _ (by simp; omega)]
  rw [List.getElem_append_left (by simpa using hi)]
  simp

theorem getD_replicate_append_eq (k d : Nat) (rest : List Nat) :
    (List.replicate k 48 ++ d :: rest).getD k 0 = d := by
  rw [List.getD_eq_getElem _ _ (by simp)]
  rw [List.getElem_append_right (by simp)]
  simp

theorem set_replicate_append (k d e : Nat) (rest : List Nat) :
    (List.replicate k 48 ++ d :: rest).set k e = List.replicate k 48 ++ e :: rest := by
  induction k with
  | zero => rfl
  | succ n ih =>
    rw [List.replicate_succ, List.cons_append, List.set_cons_succ, ih]
    rfl

theorem hexIncLoop_zeros_cons (k d : Nat) (rest : List Nat) (h0 : d ≠ 48) (n i : Nat)
    (hi : i ≤ k) (hk : k < i + n) :
    hexIncLoop (List.replicate k 48 ++ d :: rest) n i
      = hexIncInner (List.replicate k 48 ++ d :: rest) true (if d = 102 then k else k + 1) := by
  induction n generalizing i with
  | zero => omega
  | succ m ih =>
    unfold hexIncLoop
    by_cases hik : i < k
    · simp only [getD_replicate_append_lt k i _ hik, if_true]
      exact ih (i + 1) (by omega) (by omega)
    · have hik2 : i = k := by omega
      subst hik2
      simp only [getD_replicate_append_eq, h0, if_false]

theorem hexIncLoop_short (hash : List Nat) (n i : Nat)
    (h : ∀ j, i ≤ j → j < i + n → hash.getD j 0 = 48) :
    hexIncLoop hash n i = hash := by
  induction n generalizing i with
  | zero => rfl
  | succ m ih =>
    unfold hexIncLoop
    simp only [h i (le_refl _) (by omega), if_true]
    exact ih (i + 1) (fun j h1 h2 => h j (by omega) (by omega))

theorem allHex_zeros_cons (k d : Nat) (rest : List Nat) (hd : isHexChar d)
    (h : ∀ c ∈ rest, isHexChar c) : ∀ c ∈ List.replicate k 48 ++ d :: rest, isHexChar c := by
  intro c hc
  rcases List.mem_append.1 hc with h1 | h1
  · rw [(List.mem_replicate.1 h1).2]; decide
  · rcases List.mem_cons.1 h1 with h2 | h2
    · rw [h2]; exact hd
    · exact h c h2

theorem hexInc_zeros_cons (k d : Nat) (rest : List Nat) (hd : isHexChar d) (h0 : d ≠ 48)
    (hf : d ≠ 102) (h : ∀ c ∈ rest, isHexChar c) (hne : rest ≠ []) :
    hexInc (List.replicate k 48 ++ d :: rest) = List.replicate k 48 ++ incChar d :: rest := by
  have hlen : 0 < rest.length := List.length_pos.2 hne
  unfold hexInc
  rw [hexIncLoop_zeros_cons k d rest h0 _ 0 (Nat.zero_le _) (by simp; omega)]
  simp only [hf, if_false]
  rw [hexIncInner_true _ (allHex_zeros_cons k d rest hd h) k (by simp)
    (by rw [getD_replicate_append_eq]; exact hf)]
  rw [getD_replicate_append_eq, set_replicate_append]

theorem hexInc_zeros_f (k : Nat) (rest : List Nat) (h : ∀ c ∈ rest, isHexChar c)
    (hne : rest ≠ []) :
    hexInc (List.replicate (k + 1) 48 ++ 102 :: rest)
      = List.replicate k 48 ++ 49 :: 102 :: rest := by
  have hlen : 0 < rest.length := List.length_pos.2 hne
  have hsplit : List.replicate (k + 1) 48 ++ 102 :: rest
      = List.replicate k 48 ++ 48 :: 102 :: rest := by
    rw [List.replicate_succ', List.append_assoc]; rfl
  unfold hexInc
  rw [hexIncLoop_zeros_cons (k + 1) 102 rest (by decide) _ 0 (Nat.zero_le _) (by simp; omega)]
  simp only [if_true]
  rw [hsplit]
  have hall : ∀ c ∈ List.replicate k 48 ++ 48 :: 102 :: rest, isHexChar c :=
    allHex_zeros_cons k 48 (102 :: rest) (by decide) (by
      intro c hc
      rcases List.mem_cons.1 hc with h2 | h2
      · rw [h2]; decide
      · exact h c h2)
  rw [hexIncInner_true _ hall k (by simp) (by rw [getD_replicate_append_eq]; decide)]
  rw [getD_replicate_append_eq, set_replicate_append]
  rfl

theorem leadingZeros_decomp (x : List Nat) :
    x = List.replicate (leadingZeros x) 48 ∨
      ∃ d rest, d ≠ 48 ∧ x = List.replicate (leadingZeros x) 48 ++ d :: rest := by
  induction x with
  | nil => left; rfl
  | cons c t ih =>
    by_cases hc : c = 48
    · have hl : leadingZeros (c :: t) = leadingZeros t + 1 := by simp [leadingZeros, hc]
      rw [hl, List.replicate_succ]
      rcases ih with h | ⟨d, rest, hd, h⟩
      · left; rw [← h, hc]
      · right
        refine ⟨d, rest, hd, ?_⟩
        rw [List.cons_append, ← h, hc]
    · right
      have hl : leadingZeros (c :: t) = 0 := by simp [leadingZeros, hc]
      exact ⟨c, t, hc, by rw [hl]; rfl⟩

theorem hex16_decomp (x : List Nat) (hx : isHex16 x) (hz : leadingZeros x < 15) :
    ∃ d rest, d ≠ 48 ∧ isHexChar d ∧ (∀ c ∈ rest, isHexChar c) ∧ rest ≠ [] ∧
      x = List.replicate (leadingZeros x) 48 ++ d :: rest := by
  rcases leadingZeros_decomp x with h | ⟨d, rest, hd, h⟩
  · have hl := congrArg List.length h
    rw [List.length_replicate, hx.1] at hl
    omega
  · have hall : ∀ c ∈ List.replicate (leadingZeros x) 48 ++ d :: rest, isHexChar c := by
      rw [← h]; exact hx.2
    refine ⟨d, rest, hd, ?_, ?_, ?_, h⟩
    · exact hall d (by simp)
    · intro c hc
      exact hall c (by simp [hc])
    · intro hr
      have hl := congrArg List.length h
      rw [hr, hx.1] at hl
      simp at hl
      omega

/-- C4 (amended): for every 16-character lowercase hexadecimal string `x` that
does not begin with `'f'` and has a character other than `'0'` among its first
15 characters, `hexDec (hexInc x) = x`. -/
theorem hexDec_hexInc_roundtrip (x : List Nat) (hx : isHex16 x)
    (hf : x.head? ≠ some 102) (hz : leadingZeros x < 15) :
    hexDec (hexInc x) = x := by
  obtain ⟨d, rest, hd0, hd, hrest, hne, hdec⟩ := hex16_decomp x hx hz
  generalize leadingZeros x = k at hdec
  subst hdec
  by_cases hdf : d = 102
  · subst hdf
    cases k with
    | zero => exact absurd rfl hf
    | succ n =>
      rw [hexInc_zeros_f n rest hrest hne]
      rw [hexDec_zeros_cons n 49 (102 :: rest) (by decide) (by decide) (by
        intro c hc
        rcases List.mem_cons.1 hc with h2 | h2
        · rw [h2]; decide
        · exact hrest c h2)]
      rw [List.replicate_succ', List.append_assoc]
      rfl
  · rw [hexInc_zeros_cons k d rest hd hd0 hdf hrest hne]
    obtain ⟨h1, h2, h3⟩ := incChar_spec d hd hdf
    rw [hexDec_zeros_cons k (incChar d) rest h1 h2 hrest, h3]

/-- C5 (amended): for every 16-character lowercase hexadecimal string `x` whose
first character other than `'0'` lies among the first 15 characters, and is
either not `'1'`, or is a `'1'` among the first 14 characters followed by an
`'f'`, `hexInc (hexDec x) = x`. -/
theorem hexInc_hexDec_roundtrip (x : List Nat) (hx : isHex16 x) (hz : leadingZeros x < 15)
    (h1 : x.getD (leadingZeros x) 0 ≠ 49 ∨
      (leadingZeros x < 14 ∧ x.getD (leadingZeros x + 1) 0 = 102)) :
    hexInc (hexDec x) = x := by
  obtain ⟨d, rest, hd0, hd, hrest, hne, hdec⟩ := hex16_decomp x hx hz
  have hlen := hx.1
  generalize leadingZeros x = k at hdec h1
  subst hdec
  rw [getD_replicate_append_eq] at h1
  rw [hexDec_zeros_cons k d rest hd hd0 hrest]
  obtain ⟨e1, e2, e3, e4⟩ := decChar_spec d hd hd0
  by_cases hd1 : d = 49
  · subst hd1
    rcases h1 with h1 | ⟨hk, h1⟩
    · exact absurd rfl h1
    · cases rest with
      | nil => exact absurd rfl hne
      | cons r rest2 =>
        have hr : r = 102 := by
          have hg : (List.replicate k 48 ++ 49 :: r :: rest2).getD (k + 1) 0 = r := by
            rw [List.getD_eq_getElem _ _ (by simp)]
            rw [List.getElem_append_right (by simp)]
            simp
          rw [hg] at h1
          exact h1
        subst hr
        have hne2 : rest2 ≠ [] := by
          intro hnil
          rw [hnil] at hlen
          simp at hlen
          omega
        have hs : List.replicate k 48 ++ decChar 49 :: 102 :: rest2
            = List.replicate (k + 1) 48 ++ 102 :: rest2 := by
          rw [List.replicate_succ', List.append_assoc]; rfl
        rw [hs, hexInc_zeros_f k rest2 (fun c hc => hrest c (List.mem_cons_of_mem _ hc)) hne2]
  · rw [hexInc_zeros_cons k (decChar d) rest e1 (e4 hd1) e2 hrest hne, e3]

/-- A string that `hexInc` and `hexDec` take through the round trip. -/
theorem hexDec_hexInc_roundtrip_witness :
    hexDec (hexInc (ascii "0000007fffffffff")) = ascii "0000007fffffffff" :=
  hexDec_hexInc_roundtrip (ascii "0000007fffffffff") (by decide) (by decide) (by decide)

/-- C4 (counterexample): `"f000000000000000"` and `"0000000000000001"` are
16-character lowercase hexadecimal strings other than the two boundaries, and
`hexDec (hexInc x)` differs from `x` on both: `hexInc` leaves them unchanged and
`hexDec` then lowers the first character other than `'0'`. -/
theorem hexDec_hexInc_counterexample :
    (isHex16 (ascii "f000000000000000") ∧
      ascii "f000000000000000" ≠ ascii "0000000000000000" ∧
      ascii "f000000000000000" ≠ ascii "ffffffffffffffff" ∧
      hexInc (ascii "f000000000000000") = ascii "f000000000000000" ∧
      hexDec (hexInc (ascii "f000000000000000")) = ascii "e000000000000000" ∧
      hexDec (hexInc (ascii "f000000000000000")) ≠ ascii "f000000000000000") ∧
    (isHex16 (ascii "0000000000000001") ∧
      ascii "0000000000000001" ≠ ascii "0000000000000000" ∧
      ascii "0000000000000001" ≠ ascii "ffffffffffffffff" ∧
      hexDec (hexInc (ascii "0000000000000001")) = ascii "0000000000000000" ∧
      hexDec (hexInc (ascii "0000000000000001")) ≠ ascii "0000000000000001") := by
  decide

/-- Strings that `hexDec` and `hexInc` take through the round trip, one for each
of the two admitted shapes. -/
theorem hexInc_hexDec_roundtrip_witness :
    hexInc (hexDec (ascii "0000007fffffffff")) = ascii "0000007fffffffff" ∧
    hexInc (hexDec (ascii "001f000000000000")) = ascii "001f000000000000" :=
  ⟨hexInc_hexDec_roundtrip (ascii "0000007fffffffff") (by decide) (by decide)
      (Or.inl (by decide)),
    hexInc_hexDec_roundtrip (ascii "001f000000000000") (by decide) (by decide)
      (Or.inr (by decide))⟩

/-- C5 (counterexample): `"1000000000000000"`, `"1200000000000000"` and
`"0000000000000002"` are 16-character lowercase hexadecimal strings other than
the two boundaries, and `hexInc (hexDec x)` differs from `x` on each. -/
theorem hexInc_hexDec_counterexample :
    (isHex16 (ascii "1000000000000000") ∧
      ascii "1000000000000000" ≠ ascii "0000000000000000" ∧
      ascii "1000000000000000" ≠ ascii "ffffffffffffffff" ∧
      hexDec (ascii "1000000000000000") = ascii "0000000000000000" ∧
      hexInc (hexDec (ascii "1000000000000000")) = ascii "0000000000000000" ∧
      hexInc (hexDec (ascii "1000000000000000")) ≠ ascii "1000000000000000") ∧
    (isHex16 (ascii "1200000000000000") ∧
      hexInc (hexDec (ascii "1200000000000000")) = ascii "0300000000000000" ∧
      hexInc (hexDec (ascii "1200000000000000")) ≠ ascii "1200000000000000") ∧
    (isHex16 (ascii "0000000000000002") ∧
      ascii "0000000000000002" ≠ ascii "0000000000000000" ∧
      ascii "0000000000000002" ≠ ascii "ffffffffffffffff" ∧
      hexInc (hexDec (ascii "0000000000000002")) = ascii "0000000000000001" ∧
      hexInc (hexDec (ascii "0000000000000002")) ≠ ascii "0000000000000002") := by
  decide

/-! ### The block selection of `GetBlock` -/

theorem tmpCount_foldl (outerBlock : Block) (list : List Block) (n : Nat) :
    list.foldl (fun count innerBlock => if outerBlock = innerBlock then count + 1 else count) n
      = n + list.count outerBlock := by
  induction list generalizing n with
  | nil => simp
  | cons b t ih =>
    rw [List.foldl_cons, ih, List.count_cons]
    by_cases h : outerBlock = b
    · subst h; simp; omega
    · have h2 : ¬ (b = outerBlock) := fun e => h e.symm
      simp [h, h2]

theorem tmpCount_eq_count (outerBlock : Block) (list : List Block) :
    tmpCount outerBlock list = list.count outerBlock := by
  unfold tmpCount
  rw [tmpCount_foldl]
  omega

theorem popularInv_foldl (list : List Block) (todo seen : List Block) (st : Block × Nat)
    (hsub : ∀ b ∈ todo, b ∈ list) (hinv : popularInv list seen st) :
    popularInv list (seen ++ todo) (todo.foldl (popularStep list) st) := by
  induction todo generalizing seen st with
  | nil => simpa using hinv
  | cons x t ih =>
    rw [List.foldl_cons]
    have hx : x ∈ list := hsub x (List.mem_cons_self _ _)
    have hpos : 0 < list.count x := List.count_pos_iff.2 hx
    have hstep : popularInv list (seen ++ [x]) (popularStep list st x) := by
      obtain ⟨h1, h2, h3⟩ := hinv
      unfold popularStep
      rw [tmpCount_eq_count]
      by_cases hgt : list.count x > st.2
      · simp only [hgt, if_true]
        refine ⟨?_, ?_, ?_⟩
        · intro b hb
          rcases List.mem_append.1 hb with hb1 | hb1
          · exact le_of_lt (lt_of_le_of_lt (h1 b hb1) hgt)
          · rw [List.mem_singleton.1 hb1]
        · intro hnil; simp at hnil
        · intro _
          exact ⟨seen, [], rfl, rfl, fun b hb => lt_of_le_of_lt (h1 b hb) hgt⟩
      · simp only [hgt, if_false]
        have hne : seen ≠ [] := by
          intro hnil
          have := h2 hnil
          omega
        obtain ⟨pre, mid, e1, e2, e3⟩ := h3 hne
        refine ⟨?_, ?_, ?_⟩
        · intro b hb
          rcases List.mem_append.1 hb with hb1 | hb1
          · exact h1 b hb1
          · rw [List.mem_singleton.1 hb1]; omega
        · intro hnil; simp at hnil
        · intro _
          refine ⟨pre, mid ++ [x], ?_, e2, e3⟩
          rw [e1]; simp
    have := ih (seen ++ [x]) (popularStep list st x)
      (fun b hb => hsub b (List.mem_cons_of_mem _ hb)) hstep
    simpa using this

/-- C6: on a non-empty list of responses the selection of `GetBlock` returns a
block of the list whose number of occurrences is maximal, and every block
before its first occurrence has strictly fewer occurrences; on `[B1, B1, B2]`
it returns `B1`. -/
theorem selectPopular_modal_first (list : List Block) (hne : list ≠ []) :
    (∃ r pre post, selectPopular list = some r ∧ list = pre ++ r :: post ∧
      (∀ b ∈ list, list.count b ≤ list.count r) ∧
      (∀ b ∈ pre, list.count b < list.count r)) ∧
    (∀ B1 B2 : Block, selectPopular [B1, B1, B2] = some B1) := by
  constructor
  · cases hl : list with
    | nil => exact absurd hl hne
    | cons first t =>
      rw [← hl]
      have hsel : selectPopular list = some (list.foldl (popularStep list) (first, 0)).1 := by
        unfold selectPopular
        rw [hl]
        simp only [List.getElem?_cons_zero]
      have hinv := popularInv_foldl list list [] (first, 0) (fun b hb => hb)
        ⟨fun b hb => absurd hb (List.not_mem_nil b), fun _ => rfl, fun h => absurd rfl h⟩
      rw [List.nil_append] at hinv
      obtain ⟨h1, _, h3⟩ := hinv
      obtain ⟨pre, mid, e1, e2, e3⟩ := h3 hne
      refine ⟨_, pre, mid, hsel, e1, ?_, ?_⟩
      · intro b hb; rw [← e2]; exact h1 b hb
      · intro b hb; rw [← e2]; exact e3 b hb
  · intro B1 B2
    unfold selectPopular
    simp only [List.getElem?_cons_zero, List.foldl_cons, List.foldl_nil, popularStep,
      tmpCount_eq_count]
    by_cases h : B1 = B2
    · subst h; simp
    · have h2 : ¬ (B2 = B1) := fun e => h e.symm
      simp [List.count_cons, h, h2]

/-- Two peers out of three answer with the same block: it is selected. -/
theorem selectPopular_modal_first_witness :
    selectPopular [genesisBlock, sampleBlock2, sampleBlock2] = some sampleBlock2 := by
  obtain ⟨r, pre, post, h1, h2, h3, h4⟩ :=
    (selectPopular_modal_first [genesisBlock, sampleBlock2, sampleBlock2] (by decide)).1
  rw [h1]
  have hr : r ∈ [genesisBlock, sampleBlock2, sampleBlock2] := by rw [h2]; simp
  have hc := h3 sampleBlock2 (by simp)
  simp only [List.mem_cons, List.mem_singleton, List.not_mem_nil, or_false, or_self] at hr
  rcases hr with hr | hr
  · subst hr
    exact absurd hc (by decide)
  · rw [hr]
/-! ### `GetBlock` without responses -/

theorem collectBlocks_noResponse (replies : List BlockReply) (list : List Block) :
    collectBlocks (replies.filter (fun r => noBlockResponse r)) list = Except.ok list := by
  induction replies with
  | nil => rfl
  | cons r t ih =>
    cases r with
    | encodeError => simpa [List.filter_cons, noBlockResponse] using ih
    | postError =>
      simp only [List.filter_cons, noBlockResponse, if_true]
      rw [collectBlocks]
      exact ih
    | response code body =>
      by_cases hc : code = 200
      · simpa [List.filter_cons, noBlockResponse, hc] using ih
      · simp only [List.filter_cons, noBlockResponse, ne_eq, hc, not_false_eq_true,
          decide_True, if_true]
        simp only [collectBlocks, ne_eq, hc, not_false_eq_true, if_true]
        exact ih

/-- C7 (divergence): when no peer yields a response (no peers at all, or only
peers that are unreachable or answer with a status other than 200) `GetBlock`
reads `list[0]` of the empty response list and panics; no block is returned. -/
theorem GetBlock_without_response_panics :
    Node.GetBlock [] = none ∧
    Node.GetBlock [BlockReply.postError, BlockReply.response 500 none] = none ∧
    ∀ replies : List BlockReply,
      Node.GetBlock (replies.filter (fun r => noBlockResponse r)) = none := by
  refine ⟨rfl, rfl, ?_⟩
  intro replies
  unfold Node.GetBlock
  rw [collectBlocks_noResponse]
  rfl

/-! ### `GetHeight` -/

theorem maxFold_spec (l : List Int) (m : Int) :
    m ≤ l.foldl (fun max heights => if heights > max then heights else max) m ∧
    (∀ h ∈ l, h ≤ l.foldl (fun max heights => if heights > max then heights else max) m) ∧
    (l.foldl (fun max heights => if heights > max then heights else max) m = m ∨
      l.foldl (fun max heights => if heights > max then heights else max) m ∈ l) := by
  induction l generalizing m with
  | nil => simp
  | cons a t ih =>
    rw [List.foldl_cons]
    obtain ⟨h1, h2, h3⟩ := ih (if a > m then a else m)
    refine ⟨?_, ?_, ?_⟩
    · refine le_trans ?_ h1
      split_ifs <;> omega
    · intro h hh
      rcases List.mem_cons.1 hh with e | e
      · rw [e]
        refine le_trans ?_ h1
        split_ifs <;> omega
      · exact h2 h e
    · rcases h3 with e | e
      · rw [e]
        split_ifs
        · right; exact List.mem_cons_self _ _
        · left; rfl
      · right; exact List.mem_cons_of_mem _ e

/-- C8 (amended): `GetHeight` returns the maximum of -1 and the entries of the
peers, where an unreachable peer contributes -1, an undecodable answer -2 and
any other peer the height it reports; when every peer fails, or there is no
peer, it returns -1; for the reported heights 7, 8, 8 and one unreachable peer
it returns 8. -/
theorem GetHeight_max (replies : List HeightReply) :
    -1 ≤ Node.GetHeight replies ∧
    (∀ r ∈ replies, heightEntry r ≤ Node.GetHeight replies) ∧
    (Node.GetHeight replies = -1 ∨ ∃ r ∈ replies, Node.GetHeight replies = heightEntry r) ∧
    ((∀ r ∈ replies, noHeight r = true) → Node.GetHeight replies = -1) ∧
    Node.GetHeight [HeightReply.height 7, HeightReply.height 8, HeightReply.height 8,
      HeightReply.getError] = 8 := by
  obtain ⟨h1, h2, h3⟩ := maxFold_spec (replies.map heightEntry) (-1)
  have h3b : Node.GetHeight replies = -1 ∨
      ∃ r ∈ replies, Node.GetHeight replies = heightEntry r := by
    rcases h3 with e | e
    · left; exact e
    · right
      obtain ⟨r, hr, he⟩ := List.mem_map.1 e
      exact ⟨r, hr, he.symm⟩
  refine ⟨h1, ?_, h3b, ?_, by decide⟩
  · intro r hr
    exact h2 _ (List.mem_map_of_mem _ hr)
  · intro hall
    rcases h3b with e | ⟨r, hr, e⟩
    · exact e
    · have hge : -1 ≤ heightEntry r := by rw [← e]; exact h1
      have hn := hall r hr
      cases r with
      | getError => exact e
      | undecodable => exact absurd hge (by decide)
      | height h => exact absurd hn (by simp [noHeight])

/-- C8 (counterexample): with no peer, or with every peer failing, `GetHeight`
returns -1, which is the length of no chain; it does not return the local
chain height. -/
theorem GetHeight_all_failed_counterexample :
    Node.GetHeight [] = -1 ∧
    Node.GetHeight [HeightReply.getError, HeightReply.undecodable] = -1 ∧
    ¬ ∃ chain : List Block,
      Node.GetHeight [HeightReply.getError, HeightReply.undecodable] = (chain.length : Int) := by
  refine ⟨by decide, by decide, ?_⟩
  rintro ⟨chain, h⟩
  have h1 : Node.GetHeight [HeightReply.getError, HeightReply.undecodable] = -1 := by decide
  rw [h1] at h
  omega

/-! ### `Node.AddBlock` -/

theorem rejectListOf_length (peers : List (NodeAddress × PostReply)) :
    (rejectListOf peers).length = (peers.filter (fun p => isReject p.2)).length := by
  induction peers with
  | nil => rfl
  | cons p t ih =>
    obtain ⟨node, reply⟩ := p
    cases reply with
    | encodeError => simpa [rejectListOf, List.filter_cons, isReject] using ih
    | postError => simpa [rejectListOf, List.filter_cons, isReject] using ih
    | response code =>
      by_cases hc : code = 406
      · simp [rejectListOf, List.filter_cons, isReject, hc, ih]
      · simp [rejectListOf, List.filter_cons, isReject, hc, ih]

/-- C9 (amended): `Node.AddBlock` reports a majority reject (returns `false`) if
and only if strictly more than half of all the peers of the node list,
reachable or not, answered with the reject status 406; with 3 rejects among 4
peers it returns `false`. -/
theorem AddBlock_false_iff (peers : List (NodeAddress × PostReply)) :
    (Node.AddBlock peers = false ↔
      2 * (peers.filter (fun p => isReject p.2)).length > peers.length) ∧
    Node.AddBlock [(peerA, PostReply.response 406), (peerB, PostReply.response 406),
      (peerA, PostReply.response 200), (peerB, PostReply.response 406)] = false := by
  refine ⟨?_, by decide⟩
  unfold Node.AddBlock
  rw [rejectListOf_length]
  by_cases h : (peers.filter (fun p => isReject p.2)).length > peers.length / 2
  · simp only [h, if_true, true_iff]
    omega
  · simp only [h, if_false, Bool.true_eq_false, false_iff]
    omega

/-- C9 (counterexample): of three peers two are unreachable and the third
answers 406, so more than half of the reachable peers (1 of 1) rejected, yet
`Node.AddBlock` returns `true`: it compares with half of all three peers. -/
theorem AddBlock_reachable_counterexample :
    Node.AddBlock [(peerA, PostReply.postError), (peerB, PostReply.postError),
      (myAddr, PostReply.response 406)] = true ∧
    2 * ([(peerA, PostReply.postError), (peerB, PostReply.postError),
        (myAddr, PostReply.response 406)].filter (fun p => isReject p.2)).length >
      ([(peerA, PostReply.postError), (peerB, PostReply.postError),
        (myAddr, PostReply.response 406)].filter (fun p => isReachable p.2)).length := by
  decide

/-! ### `RemoveOfflineNodes` -/

/-- C10 (divergence): with two peers both last seen 100000 s ago, the loop
removes the first by moving the second into its slot and then steps past that
slot, so the second stays in the list although it is as stale as the first. -/
theorem RemoveOfflineNodes_keeps_stale_node :
    Node.RemoveOfflineNodes myAddr 100000 [peerA, peerB] = [peerB] ∧
    100000 - peerB.LastSeen > 36000 := by
  decide

/-! ### The difficulty rule -/

theorem wrap64_of_range (x : Int) (h1 : -(2 ^ 63) ≤ x) (h2 : x < 2 ^ 63) : wrap64 x = x := by
  unfold wrap64
  omega

theorem allGaps_length (chain : List Block) : (allGaps chain).length = chain.length - 1 := by
  unfold allGaps
  rw [List.length_zipWith, List.length_tail]
  omega

theorem allGaps_getElem (chain : List Block) (i : Nat) (cur prev : Block)
    (hc : chain[i + 1]? = some cur) (hp : chain[i]? = some prev) :
    (allGaps chain)[i]? = some (cur.Timestamp - prev.Timestamp) := by
  unfold allGaps
  rw [List.getElem?_zipWith]
  rw [hp, List.getElem?_tail, hc]

theorem gapsLoop_eq (chain : List Block) (lower : Nat)
    (hw : ∀ g ∈ (allGaps chain).drop lower, wrap64 g = g) (i : Nat) (acc : List Int)
    (hi : i < chain.length) (hl : lower ≤ i) :
    gapsLoop chain lower i acc
      = some (acc ++ (((allGaps chain).take i).drop lower).reverse) := by
  induction i generalizing acc with
  | zero => simp [gapsLoop]
  | succ n ih =>
    unfold gapsLoop
    by_cases hgt : n + 1 > lower
    · obtain ⟨cur, hc⟩ : ∃ cur, chain[n + 1]? = some cur :=
        ⟨chain[n + 1], List.getElem?_eq_getElem hi⟩
      obtain ⟨prev, hp⟩ : ∃ prev, chain[n]? = some prev :=
        ⟨chain[n], List.getElem?_eq_getElem (by omega)⟩
      have hg := allGaps_getElem chain n cur prev hc hp
      have hmem : cur.Timestamp - prev.Timestamp ∈ (allGaps chain).drop lower := by
        have h1 : ((allGaps chain).drop lower)[n - lower]?
            = some (cur.Timestamp - prev.Timestamp) := by
          rw [List.getElem?_drop]
          have h2 : lower + (n - lower) = n := by omega
          rw [h2]
          exact hg
        exact List.getElem?_mem h1
      simp only [hgt, if_true, Nat.succ_pos, hc, hp]
      rw [ih _ (by omega) (by omega), hw _ hmem]
      have ht : (allGaps chain).take (n + 1)
          = (allGaps chain).take n ++ [cur.Timestamp - prev.Timestamp] := by
        rw [List.take_succ, hg]
        rfl
      rw [ht, List.drop_append_of_le_length (by rw [List.length_take, allGaps_length]; omega)]
      simp
    · have he : lower = n + 1 := by omega
      simp only [hgt, if_false]
      subst he
      simp

theorem lastGaps_eq_drop (chain : List Block) (n : Nat) :
    lastGaps chain n = ((allGaps chain).drop (chain.length - 1 - n)).reverse := by
  unfold lastGaps
  rw [List.take_reverse, allGaps_length]

theorem gapsLoop_lastGaps_of_wrap (chain : List Block)
    (hlen : BLOCK_ADJUSTMENT < chain.length)
    (hwrap : ∀ g ∈ lastGaps chain 719, wrap64 g = g) :
    gapsLoop chain (chain.length - BLOCK_ADJUSTMENT) (chain.length - 1) []
      = some (lastGaps chain 719) := by
  have hB : BLOCK_ADJUSTMENT = 720 := rfl
  rw [hB] at hlen ⊢
  have hlg := lastGaps_eq_drop chain 719
  have hsub : chain.length - 1 - 719 = chain.length - 720 := by omega
  rw [hsub] at hlg
  have hw : ∀ g ∈ (allGaps chain).drop (chain.length - 720), wrap64 g = g := by
    intro g hg
    exact hwrap g (by rw [hlg]; exact List.mem_reverse.2 hg)
  rw [gapsLoop_eq chain _ hw _ [] (by omega) (by omega)]
  rw [hlg, List.nil_append]
  have ht : (allGaps chain).take (chain.length - 1) = allGaps chain := by
    apply List.take_of_length_le
    rw [allGaps_length]
  rw [ht]

theorem gapsLoop_lastGaps (chain : List Block) (hlen : BLOCK_ADJUSTMENT < chain.length)
    (hgap : ∀ g ∈ lastGaps chain 719, 0 ≤ g ∧ g < 99999999) :
    gapsLoop chain (chain.length - BLOCK_ADJUSTMENT) (chain.length - 1) []
      = some (lastGaps chain 719) := by
  apply gapsLoop_lastGaps_of_wrap chain hlen
  intro g hg
  have := hgap g hg
  exact wrap64_of_range g (by omega) (by omega)

theorem lastGaps_length (chain : List Block) (n : Nat) (hn : n ≤ chain.length - 1) :
    (lastGaps chain n).length = n := by
  unfold lastGaps
  rw [List.length_take, List.length_reverse, allGaps_length]
  omega

theorem scanLoop_spec (ts : List Int) (j : Nat) (s : Scan) :
    (∀ t ∈ ts, t ≤ (scanLoop ts j s).max) ∧ s.max ≤ (scanLoop ts j s).max ∧
    (((scanLoop ts j s).max = s.max ∧ (scanLoop ts j s).max_index = s.max_index) ∨
      ∃ p : Nat, ts[p]? = some (scanLoop ts j s).max ∧
        (scanLoop ts j s).max_index = ((j + p : Nat) : Int) ∧ s.max < (scanLoop ts j s).max) ∧
    (∀ t ∈ ts, (scanLoop ts j s).min ≤ t) ∧ (scanLoop ts j s).min ≤ s.min ∧
    (((scanLoop ts j s).min = s.min ∧ (scanLoop ts j s).min_index = s.min_index) ∨
      ∃ p : Nat, ts[p]? = some (scanLoop ts j s).min ∧
        (scanLoop ts j s).min_index = ((j + p : Nat) : Int) ∧ (scanLoop ts j s).min < s.min) := by
  induction ts generalizing j s with
  | nil => simp [scanLoop]
  | cons t rest ih =>
    obtain ⟨smin, smax, smaxi, smini⟩ := s
    rw [scanLoop]
    generalize hs2 : (if t < (if t > smax then
        ({ min := smin, max := t, max_index := (j : Int), min_index := smini } : Scan)
        else { min := smin, max := smax, max_index := smaxi, min_index := smini }).min then
        ({ (if t > smax then
          ({ min := smin, max := t, max_index := (j : Int), min_index := smini } : Scan)
          else { min := smin, max := smax, max_index := smaxi, min_index := smini }) with
          min := t, min_index := (j : Int) } : Scan)
        else (if t > smax then
          ({ min := smin, max := t, max_index := (j : Int), min_index := smini } : Scan)
          else { min := smin, max := smax, max_index := smaxi, min_index := smini })) = s2
    have hmax : (s2.max = t ∧ s2.max_index = (j : Int) ∧ smax < t) ∨
        (s2.max = smax ∧ s2.max_index = smaxi ∧ t ≤ smax) := by
      by_cases h1 : t > smax <;> by_cases h2 : t < smin <;> simp [h1, h2] at hs2 <;>
        subst hs2 <;> simp <;> omega
    have hmin : (s2.min = t ∧ s2.min_index = (j : Int) ∧ t < smin) ∨
        (s2.min = smin ∧ s2.min_index = smini ∧ smin ≤ t) := by
      by_cases h1 : t > smax <;> by_cases h2 : t < smin <;> simp [h1, h2] at hs2 <;>
        subst hs2 <;> simp <;> omega
    obtain ⟨a1, a2, a3, a4, a5, a6⟩ := ih (j + 1) s2
    simp only
    refine ⟨?_, ?_, ?_, ?_, ?_, ?_⟩
    · intro x hx
      rcases List.mem_cons.1 hx with e | e
      · rw [e]; rcases hmax with ⟨b1, _, _⟩ | ⟨b1, _, b3⟩ <;> omega
      · exact a1 x e
    · rcases hmax with ⟨b1, _, b3⟩ | ⟨b1, _, _⟩ <;> omega
    · rcases a3 with ⟨c1, c2⟩ | ⟨p, c1, c2, c3⟩
      · rcases hmax with ⟨b1, b2, b3⟩ | ⟨b1, b2, _⟩
        · right
          refine ⟨0, ?_, ?_, ?_⟩
          · rw [c1, b1]; exact List.getElem?_cons_zero
          · rw [c2, b2]; rfl
          · rw [c1, b1]; exact b3
        · left
          exact ⟨c1.trans b1, c2.trans b2⟩
      · right
        refine ⟨p + 1, ?_, ?_, ?_⟩
        · rw [List.getElem?_cons_succ]; exact c1
        · rw [c2]; congr 1; omega
        · rcases hmax with ⟨b1, _, b3⟩ | ⟨b1, _, _⟩ <;> omega
    · intro x hx
      rcases List.mem_cons.1 hx with e | e
      · rw [e]; rcases hmin with ⟨b1, _, _⟩ | ⟨b1, _, b3⟩ <;> omega
      · exact a4 x e
    · rcases hmin with ⟨b1, _, b3⟩ | ⟨b1, _, _⟩ <;> omega
    · rcases a6 with ⟨c1, c2⟩ | ⟨p, c1, c2, c3⟩
      · rcases hmin with ⟨b1, b2, b3⟩ | ⟨b1, b2, _⟩
        · right
          refine ⟨0, ?_, ?_, ?_⟩
          · rw [c1, b1]; exact List.getElem?_cons_zero
          · rw [c2, b2]; rfl
          · rw [c1, b1]; exact b3
        · left
          exact ⟨c1.trans b1, c2.trans b2⟩
      · right
        refine ⟨p + 1, ?_, ?_, ?_⟩
        · rw [List.getElem?_cons_succ]; exact c1
        · rw [c2]; congr 1; omega
        · rcases hmin with ⟨b1, _, b3⟩ | ⟨b1, _, _⟩ <;> omega

theorem scanMinMax_spec (ts : List Int) (hne : ts ≠ [])
    (hr : ∀ t ∈ ts, 0 ≤ t ∧ t < 99999999) :
    ∃ (mi Mi : Nat) (m M : Int), (scanMinMax ts).min_index = (mi : Int) ∧
      (scanMinMax ts).max_index = (Mi : Int) ∧ ts[mi]? = some m ∧ ts[Mi]? = some M ∧
      (∀ t ∈ ts, m ≤ t) ∧ (∀ t ∈ ts, t ≤ M) := by
  obtain ⟨a1, _, a3, a4, _, a6⟩ := scanLoop_spec ts 0
    { min := 99999999, max := -1, max_index := -1, min_index := -1 }
  obtain ⟨x, hx⟩ := List.exists_mem_of_ne_nil ts hne
  have hx1 := a1 x hx
  have hx4 := a4 x hx
  have hxr := hr x hx
  unfold scanMinMax
  rcases a3 with ⟨c1, _⟩ | ⟨p, c1, c2, _⟩
  · simp only at c1; omega
  · rcases a6 with ⟨d1, _⟩ | ⟨q, d1, d2, _⟩
    · simp only at d1; omega
    · refine ⟨q, p, _, _, ?_, ?_, d1, c1, a4, a1⟩
      · rw [d2]; simp
      · rw [c2]; simp

theorem set_append_pair (front : List Int) (a b v : Int) (i : Nat) :
    (front ++ [a, b]).set i v
      = (if i < front.length then front.set i v else front) ++
        [if i = front.length then v else a, if i = front.length + 1 then v else b] := by
  rw [List.set_append]
  by_cases h1 : i < front.length
  · have h2 : ¬ (i = front.length) := by omega
    have h3 : ¬ (i = front.length + 1) := by omega
    simp [h1, h2, h3]
  · by_cases h2 : i = front.length
    · subst h2; simp
    · by_cases h3 : i = front.length + 1
      · subst h3; simp
      · have h4 : i - front.length = (i - front.length - 2) + 2 := by omega
        simp only [h1, h2, h3, if_false]
        rw [h4]
        rfl

theorem trimRound_eq (front : List Int) (a b : Int) (mi Mi : Nat)
    (h1 : (scanMinMax (front ++ [a, b])).min_index = (mi : Int))
    (h2 : (scanMinMax (front ++ [a, b])).max_index = (Mi : Int)) :
    trimRound (front ++ [a, b]) = some (roundResult front a b mi Mi) := by
  unfold trimRound
  have hlast : (front ++ [a, b])[(front ++ [a, b]).length - 1]? = some b := by
    rw [List.getElem?_append_right (by simp)]
    simp
  simp only [h1, h2, hlast, Int.toNat_ofNat]
  have hn1 : ¬ ((mi : Int) < 0) := by omega
  have hn2 : ¬ ((Mi : Int) < 0) := by omega
  rw [set_append_pair]
  have hlen : ((if mi < front.length then front.set mi b else front) ++
      [if mi = front.length then b else a, if mi = front.length + 1 then b else b]).length
        = front.length + 2 := by
    split_ifs <;> simp
  have hf1 : (if mi < front.length then front.set mi b else front).length = front.length := by
    split_ifs <;> simp
  have hsl : ((if mi < front.length then front.set mi b else front) ++
      [if mi = front.length then b else a, if mi = front.length + 1 then b else b])[
        front.length + 2 - 2]? = some (if mi = front.length then b else a) := by
    rw [List.getElem?_append_right (by rw [hf1]; omega), hf1]
    simp
  simp only [hn1, if_false, hlen, hn2, false_or, hsl]
  have hn3 : ¬ (front.length + 2 < 2) := by omega
  simp only [hn3, if_false]
  rw [set_append_pair, hf1]
  unfold roundResult
  simp only
  have hf2 : (if Mi < front.length then
      (if mi < front.length then front.set mi b else front).set Mi
        (if mi = front.length then b else a)
      else (if mi < front.length then front.set mi b else front)).length = front.length := by
    split_ifs <;> simp
  rw [List.length_append, hf2]
  congr 1
  have ht : (front.length + [if Mi = front.length then if mi = front.length then b else a
        else if mi = front.length then b else a,
      if Mi = front.length + 1 then if mi = front.length then b else a
        else if mi = front.length + 1 then b else b].length - 2)
      = (if Mi < front.length then
        (if mi < front.length then front.set mi b else front).set Mi
          (if mi = front.length then b else a)
        else (if mi < front.length then front.set mi b else front)).length := by
    rw [hf2]; simp
  rw [ht]
  exact List.take_left' rfl

theorem set_perm (l : List Int) (i : Nat) (v w : Int) (h : l[i]? = some w) :
    (v :: l).Perm (w :: l.set i v) := by
  induction l generalizing i with
  | nil => simp at h
  | cons c t ih =>
    cases i with
    | zero =>
      simp only [List.getElem?_cons_zero, Option.some.injEq] at h
      subst h
      exact List.Perm.swap _ _ _
    | succ k =>
      rw [List.getElem?_cons_succ] at h
      rw [List.set_cons_succ]
      exact (List.Perm.swap c v t).trans
        (((ih k h).cons c).trans (List.Perm.swap w c _))

theorem getElem?_append_pair (front : List Int) (a b v : Int) (i : Nat)
    (h : (front ++ [a, b])[i]? = some v) :
    (i < front.length ∧ front[i]? = some v) ∨ (i = front.length ∧ v = a) ∨
      (i = front.length + 1 ∧ v = b) := by
  by_cases h1 : i < front.length
  · left
    rw [List.getElem?_append_left h1] at h
    exact ⟨h1, h⟩
  · rw [List.getElem?_append_right (by omega)] at h
    by_cases h2 : i = front.length
    · right; left
      subst h2
      simp at h
      exact ⟨rfl, h.symm⟩
    · by_cases h3 : i = front.length + 1
      · right; right
        subst h3
        simp at h
        exact ⟨rfl, h.symm⟩
      · exfalso
        have h4 : i - front.length = (i - front.length - 2) + 2 := by omega
        rw [h4] at h
        simp at h

theorem pair_perm (front : List Int) (a b : Int) :
    (front ++ [a, b]).Perm (a :: b :: front) :=
  List.perm_append_comm

theorem roundResult_perm (front : List Int) (a b : Int) (mi Mi : Nat) (m M : Int)
    (hmi : (front ++ [a, b])[mi]? = some m) (hMi : (front ++ [a, b])[Mi]? = some M)
    (hmin : ∀ t ∈ front ++ [a, b], m ≤ t) (hmax : ∀ t ∈ front ++ [a, b], t ≤ M)
    (hslip : ¬ (Mi = front.length + 1 ∧ mi ≠ front.length)) :
    ∃ x y, (front ++ [a, b]).Perm (x :: y :: roundResult front a b mi Mi) ∧
      (∀ t ∈ front ++ [a, b], x ≤ t) ∧ (∀ t ∈ front ++ [a, b], t ≤ y) := by
  have ha : a ∈ front ++ [a, b] := by simp
  have hb : b ∈ front ++ [a, b] := by simp
  have hmM : m ≤ M := le_trans (hmin a ha) (hmax a ha)
  unfold roundResult
  rcases getElem?_append_pair front a b m mi hmi with ⟨c1, c2⟩ | ⟨c1, c2⟩ | ⟨c1, c2⟩
  · -- the smallest gap is in the front part
    have hne : ¬ (mi = front.length) := by omega
    simp only [c1, if_true, hne, if_false]
    have p1 : (b :: front).Perm (m :: front.set mi b) := set_perm front mi b m c2
    rcases getElem?_append_pair front a b M Mi hMi with ⟨e1, e2⟩ | ⟨e1, e2⟩ | ⟨e1, e2⟩
    · simp only [e1, if_true]
      by_cases hsame : Mi = mi
      · subst hsame
        have hMm : M = m := by rw [c2] at e2; exact (Option.some.inj e2).symm
        have p2 : (a :: front.set Mi b).Perm (b :: (front.set Mi b).set Mi a) :=
          set_perm _ Mi a b (by rw [List.getElem?_set_self e1])
        refine ⟨m, b, ?_, hmin, ?_⟩
        · exact (pair_perm front a b).trans (((p1.cons a).trans (List.Perm.swap m a _)).trans
            (p2.cons m))
        · intro t ht
          have := hmax t ht
          have := hmin b hb
          omega
      · have hget : (front.set mi b)[Mi]? = some M := by
          rw [List.getElem?_set_ne (fun h => hsame h.symm)]
          exact e2
        have p2 : (a :: front.set mi b).Perm (M :: (front.set mi b).set Mi a) :=
          set_perm _ Mi a M hget
        refine ⟨m, M, ?_, hmin, hmax⟩
        exact (pair_perm front a b).trans (((p1.cons a).trans (List.Perm.swap m a _)).trans
          (p2.cons m))
    · have hn : ¬ (Mi < front.length) := by omega
      simp only [hn, if_false]
      refine ⟨m, M, ?_, hmin, hmax⟩
      rw [e2]
      exact (pair_perm front a b).trans ((p1.cons a).trans (List.Perm.swap m a _))
    · exact absurd ⟨e1, hne⟩ hslip
  · -- the smallest gap is in the slot before last
    subst c1
    subst c2
    simp only [lt_irrefl, if_false, if_true]
    rcases getElem?_append_pair front m b M Mi hMi with ⟨e1, e2⟩ | ⟨e1, e2⟩ | ⟨e1, e2⟩
    · simp only [e1, if_true]
      have p2 : (b :: front).Perm (M :: front.set Mi b) := set_perm front Mi b M e2
      exact ⟨m, M, (pair_perm front m b).trans (p2.cons m), hmin, hmax⟩
    · have hn2 : ¬ (Mi < front.length) := by omega
      simp only [hn2, if_false]
      refine ⟨m, b, pair_perm front m b, hmin, ?_⟩
      intro t ht
      have := hmax t ht
      have := hmin b hb
      omega
    · have hn2 : ¬ (Mi < front.length) := by omega
      simp only [hn2, if_false]
      subst e2
      exact ⟨m, M, pair_perm front m M, hmin, hmax⟩
  · -- the smallest gap is in the last slot
    have hn : ¬ (mi < front.length) := by omega
    have hne : ¬ (mi = front.length) := by omega
    simp only [hn, if_false, hne]
    rcases getElem?_append_pair front a b M Mi hMi with ⟨e1, e2⟩ | ⟨e1, e2⟩ | ⟨e1, e2⟩
    · simp only [e1, if_true]
      have p2 : (a :: front).Perm (M :: front.set Mi a) := set_perm front Mi a M e2
      refine ⟨m, M, ?_, hmin, hmax⟩
      rw [c2]
      exact (pair_perm front a b).trans ((List.Perm.swap b a front).trans (p2.cons b))
    · have hn2 : ¬ (Mi < front.length) := by omega
      simp only [hn2, if_false]
      refine ⟨m, M, ?_, hmin, hmax⟩
      rw [c2, e2]
      exact (pair_perm front a b).trans (List.Perm.swap b a front)
    · exact absurd ⟨e1, hne⟩ hslip

theorem exists_front_pair (ts : List Int) (hlen : 2 ≤ ts.length) :
    ∃ front a b, ts = front ++ [a, b] := by
  have h1 : ts ≠ [] := by intro h; rw [h] at hlen; simp at hlen
  have h2 : ts.dropLast ≠ [] := by
    intro h
    have := congrArg List.length h
    rw [List.length_dropLast] at this
    simp at this
    omega
  refine ⟨ts.dropLast.dropLast, ts.dropLast.getLast h2, ts.getLast h1, ?_⟩
  have e1 := List.dropLast_append_getLast h1
  have e2 := List.dropLast_append_getLast h2
  calc ts = ts.dropLast ++ [ts.getLast h1] := e1.symm
    _ = (ts.dropLast.dropLast ++ [ts.dropLast.getLast h2]) ++ [ts.getLast h1] := by rw [e2]
    _ = ts.dropLast.dropLast ++ [ts.dropLast.getLast h2, ts.getLast h1] := by simp

theorem trimRound_spec (ts : List Int) (hlen : 2 ≤ ts.length)
    (hr : ∀ t ∈ ts, 0 ≤ t ∧ t < 99999999) (hs : roundRemovesMax ts = true) :
    ∃ r x y, trimRound ts = some r ∧ ts.Perm (x :: y :: r) ∧
      (∀ t ∈ ts, x ≤ t) ∧ (∀ t ∈ ts, t ≤ y) := by
  obtain ⟨front, a, b, rfl⟩ := exists_front_pair ts hlen
  obtain ⟨mi, Mi, m, M, h1, h2, h3, h4, h5, h6⟩ :=
    scanMinMax_spec (front ++ [a, b]) (by simp) hr
  have hslip : ¬ (Mi = front.length + 1 ∧ mi ≠ front.length) := by
    rintro ⟨e1, e2⟩
    unfold roundRemovesMax at hs
    simp only [h1, h2, List.length_append, List.length_cons, List.length_nil] at hs
    have c1 : ((Mi : Int) = ((front.length + (0 + 1 + 1) : Nat) : Int) - 1) := by
      rw [e1]; push_cast; ring
    have c2 : ((mi : Int) ≠ ((front.length + (0 + 1 + 1) : Nat) : Int) - 2) := by
      intro h
      apply e2
      push_cast at h
      omega
    simp [c1, c2] at hs
    exact e2 hs
  obtain ⟨x, y, p, hx, hy⟩ := roundResult_perm front a b mi Mi m M h3 h4 h5 h6 hslip
  exact ⟨_, x, y, trimRound_eq front a b mi Mi h1 h2, p, hx, hy⟩

theorem trimLoop_spec (k : Nat) (ts : List Int) (hlen : 2 * k ≤ ts.length)
    (hr : ∀ t ∈ ts, 0 ≤ t ∧ t < 99999999) (hs : noSlip k ts = true) :
    ∃ r lo hi, trimLoop k ts = some r ∧ lo.length = k ∧ hi.length = k ∧
      ts.Perm (lo ++ r ++ hi) ∧ (∀ a ∈ lo, ∀ t ∈ r, a ≤ t) ∧
      (∀ t ∈ r, ∀ c ∈ hi, t ≤ c) ∧ (∀ a ∈ lo, ∀ c ∈ hi, a ≤ c) := by
  induction k generalizing ts with
  | zero =>
    refine ⟨ts, [], [], rfl, rfl, rfl, by simp, ?_, ?_, ?_⟩ <;> simp
  | succ n ih =>
    rw [noSlip, Bool.and_eq_true] at hs
    obtain ⟨r1, x, y, e1, p1, hx, hy⟩ := trimRound_spec ts (by omega) hr hs.1
    have hs2 : noSlip n r1 = true := by
      have := hs.2
      rw [e1] at this
      exact this
    have hsub : ∀ t ∈ r1, t ∈ ts := by
      intro t ht
      exact p1.symm.subset (List.mem_cons_of_mem _ (List.mem_cons_of_mem _ ht))
    have hl1 : ts.length = r1.length + 2 := by
      have := p1.length_eq
      simpa using this
    obtain ⟨r, lo, hi, e2, l1, l2, p2, o1, o2, o3⟩ :=
      ih r1 (by omega) (fun t ht => hr t (hsub t ht)) hs2
    have hmem : ∀ t, t ∈ lo ++ r ++ hi → t ∈ ts := fun t ht => hsub t (p2.symm.subset ht)
    refine ⟨r, x :: lo, y :: hi, ?_, by simp [l1], by simp [l2], ?_, ?_, ?_, ?_⟩
    · rw [trimLoop, e1]
      exact e2
    · have q1 : (x :: y :: r1).Perm (x :: y :: (lo ++ r ++ hi)) := (p2.cons y).cons x
      have q2 : (y :: (lo ++ r ++ hi)).Perm (lo ++ r ++ y :: hi) :=
        (@List.perm_middle Int y (lo ++ r) hi).symm
      exact p1.trans (q1.trans (by simpa using q2.cons x))
    · intro a ha t ht
      rcases List.mem_cons.1 ha with e | e
      · rw [e]; exact hx t (hmem t (by simp [ht]))
      · exact o1 a e t ht
    · intro t ht c hc
      rcases List.mem_cons.1 hc with e | e
      · rw [e]; exact hy t (hmem t (by simp [ht]))
      · exact o2 t ht c e
    · intro a ha c hc
      rcases List.mem_cons.1 ha with e | e
      · rw [e]
        rcases List.mem_cons.1 hc with e3 | e3
        · rw [e3]
          have hxm : x ∈ ts := p1.symm.subset (by simp)
          exact hy x hxm
        · exact hx c (hmem c (by simp [e3]))
      · rcases List.mem_cons.1 hc with e3 | e3
        · rw [e3]; exact hy a (hmem a (by simp [e]))
        · exact o3 a e c e3

theorem sorted_three (lo r hi : List Int) (o1 : ∀ a ∈ lo, ∀ t ∈ r, a ≤ t)
    (o2 : ∀ t ∈ r, ∀ c ∈ hi, t ≤ c) (o3 : ∀ a ∈ lo, ∀ c ∈ hi, a ≤ c) :
    List.Sorted (· ≤ ·) (lo.insertionSort (· ≤ ·) ++ r.insertionSort (· ≤ ·) ++
      hi.insertionSort (· ≤ ·)) := by
  have m : ∀ (l : List Int) (x : Int), x ∈ l.insertionSort (· ≤ ·) ↔ x ∈ l :=
    fun l x => (List.perm_insertionSort (· ≤ ·) l).mem_iff
  unfold List.Sorted
  rw [List.pairwise_append, List.pairwise_append]
  refine ⟨⟨List.sorted_insertionSort _ lo, List.sorted_insertionSort _ r, ?_⟩,
    List.sorted_insertionSort _ hi, ?_⟩
  · intro a ha t ht
    exact o1 a ((m lo a).1 ha) t ((m r t).1 ht)
  · intro a ha c hc
    rcases List.mem_append.1 ha with h | h
    · exact o3 a ((m lo a).1 h) c ((m hi c).1 hc)
    · exact o2 a ((m r a).1 h) c ((m hi c).1 hc)

theorem insertionSort_decomp (ts lo r hi : List Int) (p : ts.Perm (lo ++ r ++ hi))
    (o1 : ∀ a ∈ lo, ∀ t ∈ r, a ≤ t) (o2 : ∀ t ∈ r, ∀ c ∈ hi, t ≤ c)
    (o3 : ∀ a ∈ lo, ∀ c ∈ hi, a ≤ c) :
    ts.insertionSort (· ≤ ·) = lo.insertionSort (· ≤ ·) ++ r.insertionSort (· ≤ ·) ++
      hi.insertionSort (· ≤ ·) := by
  apply List.eq_of_perm_of_sorted _ (List.sorted_insertionSort _ ts) (sorted_three lo r hi o1 o2 o3)
  have q : (lo ++ r ++ hi).Perm (lo.insertionSort (· ≤ ·) ++ r.insertionSort (· ≤ ·) ++
      hi.insertionSort (· ≤ ·)) :=
    ((List.perm_insertionSort _ lo).symm.append (List.perm_insertionSort _ r).symm).append
      (List.perm_insertionSort _ hi).symm
  exact (List.perm_insertionSort _ ts).trans (p.trans q)

theorem trimmedMiddle_of_decomp (ts lo r hi : List Int) (hlo : lo.length = NUM_OUTLIERS)
    (hhi : hi.length = NUM_OUTLIERS) (p : ts.Perm (lo ++ r ++ hi))
    (o1 : ∀ a ∈ lo, ∀ t ∈ r, a ≤ t) (o2 : ∀ t ∈ r, ∀ c ∈ hi, t ≤ c)
    (o3 : ∀ a ∈ lo, ∀ c ∈ hi, a ≤ c) :
    trimmedMiddle ts = r.insertionSort (· ≤ ·) := by
  unfold trimmedMiddle
  rw [insertionSort_decomp ts lo r hi p o1 o2 o3]
  have hl : ts.length = NUM_OUTLIERS + r.length + NUM_OUTLIERS := by
    have := p.length_eq
    simp only [List.length_append] at this
    omega
  have h1 : (lo.insertionSort (· ≤ ·)).length = NUM_OUTLIERS := by
    rw [List.length_insertionSort]; exact hlo
  rw [List.append_assoc, List.drop_left' h1]
  have h2 : ts.length - 2 * NUM_OUTLIERS = (r.insertionSort (· ≤ ·)).length := by
    rw [List.length_insertionSort]; omega
  rw [h2]
  exact List.take_left' rfl

theorem trimmedAverage_of_decomp (ts lo r hi : List Int) (hlo : lo.length = NUM_OUTLIERS)
    (hhi : hi.length = NUM_OUTLIERS) (p : ts.Perm (lo ++ r ++ hi))
    (o1 : ∀ a ∈ lo, ∀ t ∈ r, a ≤ t) (o2 : ∀ t ∈ r, ∀ c ∈ hi, t ≤ c)
    (o3 : ∀ a ∈ lo, ∀ c ∈ hi, a ≤ c) :
    trimmedAverage ts = Int.tdiv r.sum r.length := by
  unfold trimmedAverage
  rw [trimmedMiddle_of_decomp ts lo r hi hlo hhi p o1 o2 o3]
  rw [(List.perm_insertionSort (· ≤ ·) r).sum_eq, List.length_insertionSort]

theorem runningTotal_foldl (r : List Int) (acc : Int) (hr : ∀ t ∈ r, 0 ≤ t ∧ t < 99999999)
    (h0 : 0 ≤ acc) (hb : acc + r.length * 99999999 < 2 ^ 63) :
    r.foldl (fun running_total t => wrap64 (running_total + t)) acc = acc + r.sum := by
  induction r generalizing acc with
  | nil => simp
  | cons t rest ih =>
    have ht := hr t (List.mem_cons_self _ _)
    have hlen : ((t :: rest).length : Int) = rest.length + 1 := by simp
    rw [hlen] at hb
    have hnn : (0 : Int) ≤ (rest.length : Int) * 99999999 := by positivity
    rw [List.foldl_cons, wrap64_of_range (acc + t) (by omega) (by omega)]
    rw [ih (acc + t) (fun x hx => hr x (List.mem_cons_of_mem _ hx)) (by omega) (by linarith)]
    rw [List.sum_cons]
    ring

theorem sum_bounds (r : List Int) (hr : ∀ t ∈ r, 0 ≤ t ∧ t < 99999999) :
    0 ≤ r.sum ∧ r.sum ≤ r.length * 99999999 := by
  induction r with
  | nil => simp
  | cons t rest ih =>
    have ht := hr t (List.mem_cons_self _ _)
    have := ih (fun x hx => hr x (List.mem_cons_of_mem _ hx))
    rw [List.sum_cons]
    have hlen : ((t :: rest).length : Int) = rest.length + 1 := by simp
    rw [hlen]
    constructor
    · omega
    · linarith

theorem AdjustDifficulty_core (pre : List Block) (tip : Block) (hlen : 720 ≤ pre.length)
    (hgap : ∀ g ∈ lastGaps (pre ++ [tip]) 719, 0 ≤ g ∧ g < 99999999)
    (hs : noSlip NUM_OUTLIERS (lastGaps (pre ++ [tip]) 719) = true) :
    AdjustDifficulty (pre ++ [tip])
      = some (if trimmedAverage (lastGaps (pre ++ [tip]) 719) > BLOCK_TIME
          then hexInc tip.Difficulty else hexDec tip.Difficulty) := by
  have hB : BLOCK_ADJUSTMENT = 720 := rfl
  have hN : NUM_OUTLIERS = 60 := rfl
  have hcl : (pre ++ [tip]).length = pre.length + 1 := by simp
  have hlg : (lastGaps (pre ++ [tip]) 719).length = 719 :=
    lastGaps_length _ 719 (by rw [hcl]; omega)
  obtain ⟨r, lo, hi, e, l1, l2, p, o1, o2, o3⟩ :=
    trimLoop_spec NUM_OUTLIERS (lastGaps (pre ++ [tip]) 719) (by rw [hlg, hN]; norm_num) hgap hs
  have hrl : r.length = 599 := by
    have := p.length_eq
    simp only [List.length_append] at this
    omega
  have hrr : ∀ t ∈ r, 0 ≤ t ∧ t < 99999999 := by
    intro t ht
    exact hgap t (p.symm.subset (by simp [ht]))
  have hsum := sum_bounds r hrr
  rw [hrl] at hsum
  have hrt : runningTotal r = r.sum := by
    unfold runningTotal
    rw [runningTotal_foldl r 0 hrr (le_refl _) (by rw [hrl]; norm_num)]
    simp
  have htip : (pre ++ [tip])[(pre ++ [tip]).length - 1]? = some tip := by
    rw [List.getElem?_append_right (by simp)]
    simp
  have hq : 0 ≤ Int.tdiv r.sum 599 ∧ Int.tdiv r.sum 599 ≤ r.sum := by
    rw [Int.tdiv_eq_ediv hsum.1 (by norm_num)]
    omega
  unfold AdjustDifficulty
  have hnle : ¬ ((pre ++ [tip]).length ≤ BLOCK_ADJUSTMENT) := by rw [hcl, hB]; omega
  simp only [hnle, if_false]
  rw [gapsLoop_lastGaps _ (by rw [hcl, hB]; omega) hgap]
  simp only [e, hrl, htip, hrt]
  rw [trimmedAverage_of_decomp _ lo r hi l1 l2 p o1 o2 o3, hrl]
  have hw : wrap64 (Int.tdiv r.sum ((599 : Nat) : Int)) = Int.tdiv r.sum ((599 : Nat) : Int) := by
    exact wrap64_of_range _ (by norm_num; omega) (by norm_num; omega)
  have h599 : ¬ ((599 : Nat) = 0) := by decide
  simp only [h599, if_false, hw]
  by_cases hc : Int.tdiv r.sum ((599 : Nat) : Int) > BLOCK_TIME
  · simp only [hc, if_true]
  · simp only [hc, if_false]

theorem roundResult_length (front : List Int) (a b : Int) (mi Mi : Nat) :
    (roundResult front a b mi Mi).length = front.length := by
  unfold roundResult
  simp only
  split_ifs <;> simp

theorem roundResult_getElem_le (front : List Int) (a b : Int) (mi Mi : Nat) (B : Int)
    (ha : a ≤ B) (hb : b ≤ B) (p : Nat) (v : Int) (hfp : ∀ w, front[p]? = some w → w ≤ B)
    (hv : (roundResult front a b mi Mi)[p]? = some v) : v ≤ B := by
  have hset : ∀ (l : List Int) (i : Nat) (c : Int), c ≤ B → (∀ w, l[p]? = some w → w ≤ B) →
      ∀ w, (l.set i c)[p]? = some w → w ≤ B := by
    intro l i c hc hl w hw
    by_cases hip : i = p
    · subst hip
      by_cases hlt : i < l.length
      · rw [List.getElem?_set_self hlt] at hw
        rw [← Option.some.inj hw]; exact hc
      · rw [List.getElem?_eq_none (by rw [List.length_set]; omega)] at hw
        exact absurd hw (by simp)
    · rw [List.getElem?_set_ne hip] at hw
      exact hl w hw
  have ha1 : (if mi = front.length then b else a) ≤ B := by split_ifs <;> assumption
  have hf1 : ∀ w, (if mi < front.length then front.set mi b else front)[p]? = some w → w ≤ B := by
    split_ifs
    · exact hset front mi b hb hfp
    · exact hfp
  unfold roundResult at hv
  simp only at hv
  by_cases hM : Mi < front.length
  · simp only [hM, if_true] at hv
    exact hset _ Mi _ ha1 hf1 v hv
  · simp only [hM, if_false] at hv
    exact hf1 v hv

theorem noSlip_of_small_tail (B : Int) (k : Nat) (ts : List Int) (hlen : 2 * k ≤ ts.length)
    (hr : ∀ t ∈ ts, 0 ≤ t ∧ t < 99999999)
    (htail : ∀ p v, ts.length - 2 * k ≤ p → ts[p]? = some v → v ≤ B)
    (hbig : k ≤ ts.countP (fun t => decide (B < t))) :
    noSlip k ts = true := by
  induction k generalizing ts with
  | zero => rfl
  | succ n ih =>
    obtain ⟨front, a, b, rfl⟩ := exists_front_pair ts (by omega)
    have hl : (front ++ [a, b]).length = front.length + 2 := by simp
    rw [hl] at htail hlen
    obtain ⟨mi, Mi, m, M, h1, h2, h3, h4, h5, h6⟩ :=
      scanMinMax_spec (front ++ [a, b]) (by simp) hr
    have haB : a ≤ B := htail front.length a (by omega) (by
      rw [List.getElem?_append_right (le_refl _)]; simp)
    have hbB : b ≤ B := htail (front.length + 1) b (by omega) (by
      rw [List.getElem?_append_right (by omega)]; simp)
    -- some gap exceeds `B`, so the largest does, and it is not in the tail
    have hMB : B < M := by
      have hpos : 0 < (front ++ [a, b]).countP (fun t => decide (B < t)) := by omega
      obtain ⟨t, ht, hd⟩ := List.countP_pos_iff.1 hpos
      have := h6 t ht
      have hd2 : B < t := by simpa using hd
      omega
    have hMi : Mi < front.length + 2 - 2 * (n + 1) := by
      by_contra hcon
      have := htail Mi M (by omega) h4
      omega
    have hslip : ¬ (Mi = front.length + 1 ∧ mi ≠ front.length) := by omega
    rw [noSlip, Bool.and_eq_true]
    constructor
    · unfold roundRemovesMax
      simp only [h1, h2, hl]
      have c1 : ¬ ((Mi : Int) = ((front.length + 2 : Nat) : Int) - 1) := by
        push_cast; omega
      have c2 : ¬ ((Mi : Int) = (front.length : Int) + 2 - 1) := by
        push_cast at c1; exact c1
      simp [c2]
    · rw [trimRound_eq front a b mi Mi h1 h2]
      simp only
      obtain ⟨x, y, p, hx, hy⟩ := roundResult_perm front a b mi Mi m M h3 h4 h5 h6 hslip
      have hxB : x ≤ B := le_trans (hx a (by simp)) haB
      apply ih
      · rw [roundResult_length]; omega
      · intro t ht
        exact hr t (p.symm.subset (List.mem_cons_of_mem _ (List.mem_cons_of_mem _ ht)))
      · intro q v hq hv
        rw [roundResult_length] at hq
        refine roundResult_getElem_le front a b mi Mi B haB hbB q v ?_ hv
        intro w hw
        refine htail q w (by omega) ?_
        have hql : q < front.length := by
          by_contra hcon
          rw [List.getElem?_eq_none (by omega)] at hw
          exact absurd hw (by simp)
        rw [List.getElem?_append_left hql]
        exact hw
      · have hc := p.countP_eq (fun t => decide (B < t))
        rw [List.countP_cons, List.countP_cons] at hc
        have hxn : ¬ (B < x) := by omega
        simp only [hxn, decide_False, Bool.false_eq_true, if_false, Nat.add_zero] at hc
        have : (if decide (B < y) = true then 1 else 0) ≤ 1 := by split_ifs <;> omega
        omega

theorem allGaps_cons_blocksAfter (b0 : Block) (idx : Int) (gaps : List Int) :
    allGaps (b0 :: blocksAfter idx b0.Timestamp gaps) = gaps := by
  induction gaps generalizing b0 idx with
  | nil => rfl
  | cons g rest ih =>
    have h := ih ⟨idx + 1, b0.Timestamp + g, 0, [], ascii "0000007fffffffff"⟩ (idx + 1)
    unfold allGaps at h ⊢
    simp only [blocksAfter, List.tail_cons, List.zipWith_cons_cons] at h ⊢
    rw [h]
    congr 1
    ring

theorem allGaps_chainOfGaps (gaps : List Int) : allGaps (chainOfGaps gaps) = gaps :=
  allGaps_cons_blocksAfter genesisBlock 0 gaps

theorem blocksAfter_length (idx ts : Int) (gaps : List Int) :
    (blocksAfter idx ts gaps).length = gaps.length := by
  induction gaps generalizing idx ts with
  | nil => rfl
  | cons g rest ih => simp [blocksAfter, ih]

theorem chainOfGaps_length (gaps : List Int) :
    (chainOfGaps gaps).length = gaps.length + 1 := by
  simp [chainOfGaps, blocksAfter_length]

theorem blocksAfter_difficulty (idx ts : Int) (gaps : List Int) :
    ∀ b ∈ blocksAfter idx ts gaps, b.Difficulty = ascii "0000007fffffffff" := by
  induction gaps generalizing idx ts with
  | nil => intro b hb; simp [blocksAfter] at hb
  | cons g rest ih =>
    intro b hb
    rw [blocksAfter] at hb
    rcases List.mem_cons.1 hb with e | e
    · rw [e]
    · exact ih _ _ b e

theorem chainOfGaps_tip_difficulty (gaps : List Int) (tip : Block)
    (h : (chainOfGaps gaps).getLast? = some tip) :
    tip.Difficulty = ascii "0000007fffffffff" := by
  have hm : tip ∈ chainOfGaps gaps := List.mem_of_mem_getLast? (Option.mem_def.2 h)
  unfold chainOfGaps at hm
  rcases List.mem_cons.1 hm with e | e
  · rw [e]; rfl
  · exact blocksAfter_difficulty 0 0 gaps tip e

theorem lastGaps_chainOfGaps (gaps : List Int) (n : Nat) :
    lastGaps (chainOfGaps gaps) n = gaps.reverse.take n := by
  unfold lastGaps
  rw [allGaps_chainOfGaps]

theorem AdjustDifficulty_of_getLast (chain : List Block) (tip : Block)
    (htip : chain.getLast? = some tip) (hlen : 720 < chain.length)
    (hgap : ∀ g ∈ lastGaps chain 719, 0 ≤ g ∧ g < 99999999)
    (hs : noSlip NUM_OUTLIERS (lastGaps chain 719) = true) :
    AdjustDifficulty chain
      = some (if trimmedAverage (lastGaps chain 719) > BLOCK_TIME
          then hexInc tip.Difficulty else hexDec tip.Difficulty) := by
  have hne : chain ≠ [] := by intro h; rw [h] at hlen; simp at hlen
  have hsplit : chain = chain.dropLast ++ [tip] := by
    have h1 := List.dropLast_append_getLast hne
    rw [List.getLast?_eq_getLast _ hne] at htip
    rw [Option.some.inj htip] at h1
    exact h1.symm
  have hpl : 720 ≤ chain.dropLast.length := by
    rw [List.length_dropLast]; omega
  have := AdjustDifficulty_core chain.dropLast tip hpl (by rw [← hsplit]; exact hgap)
    (by rw [← hsplit]; exact hs)
  rw [← hsplit] at this
  exact this

theorem outlierGaps_last :
    outlierGaps.reverse.take 719
      = List.replicate 60 1000000 ++ List.replicate 60 0 ++ List.replicate 599 120 := by
  decide!

theorem splitGaps_last :
    splitGaps.reverse.take 719
      = List.replicate 61 719 ++ List.replicate 60 0 ++ List.replicate 598 120 := by
  decide!

theorem splitGaps_all :
    splitGaps.reverse.take 720
      = List.replicate 61 719 ++ List.replicate 60 0 ++ (List.replicate 598 120 ++ [0]) := by
  decide!

theorem small_tail_replicate (A : List Int) (c : Nat) (v B : Int) (hc : 2 * NUM_OUTLIERS ≤ c)
    (hv : v ≤ B) (p : Nat) (w : Int)
    (hp : (A ++ List.replicate c v).length - 2 * NUM_OUTLIERS ≤ p)
    (hw : (A ++ List.replicate c v)[p]? = some w) : w ≤ B := by
  rw [List.length_append, List.length_replicate] at hp
  rw [List.getElem?_append_right (by omega)] at hw
  have := List.getElem?_mem hw
  rw [(List.mem_replicate.1 this).2]
  exact hv

theorem trimmedMiddle_length (ts : List Int) (h : ts.length = 719) :
    (trimmedMiddle ts).length = 599 := by
  unfold trimmedMiddle
  have hN : NUM_OUTLIERS = 60 := rfl
  rw [List.length_take, List.length_drop, List.length_insertionSort, h, hN]
  decide

theorem trimmedAverage_outliers (ts : List Int)
    (p : ts.Perm (List.replicate 60 1000000 ++ List.replicate 60 0 ++ List.replicate 599 120)) :
    trimmedAverage ts = 120 := by
  have q : ts.Perm (List.replicate 60 0 ++ List.replicate 599 120 ++ List.replicate 60 1000000) := by
    refine p.trans ?_
    rw [List.append_assoc]
    exact List.perm_append_comm
  rw [trimmedAverage_of_decomp ts _ _ _ (by simp [NUM_OUTLIERS]) (by simp [NUM_OUTLIERS]) q
    (by intro a ha t ht; simp only [List.mem_replicate] at ha ht; omega)
    (by intro a ha t ht; simp only [List.mem_replicate] at ha ht; omega)
    (by intro a ha t ht; simp only [List.mem_replicate] at ha ht; omega)]
  simp only [List.sum_replicate, List.length_replicate]
  decide

/-- C3 (amended): for a chain of more than 720 blocks whose last 720 blocks have
non-decreasing timestamps with gaps below 99999999, and on which every trimming
round removes its largest gap (none finds the first largest gap in the last
slot while the first smallest is elsewhere than the slot before), the rule
takes the 719 gaps between the last 720 blocks, removes the 60 largest and the
60 smallest, averages the remaining 599 by integer division, and returns
`hexInc` of the tip difficulty if the average exceeds 120 and `hexDec` of it
otherwise; in particular, for 719 gaps made of 60 gaps of `10^6`, 60 gaps of 0
and 599 gaps of 120 the average is 120 and the result is `hexDec`. -/
theorem AdjustDifficulty_trimmed_average (chain : List Block) (tip : Block)
    (htip : chain.getLast? = some tip) (hlen : 720 < chain.length)
    (hgap : ∀ g ∈ lastGaps chain 719, 0 ≤ g ∧ g < 99999999)
    (hs : noSlip NUM_OUTLIERS (lastGaps chain 719) = true) :
    (lastGaps chain 719).length = 719 ∧
    (trimmedMiddle (lastGaps chain 719)).length = 599 ∧
    AdjustDifficulty chain
      = some (if trimmedAverage (lastGaps chain 719) > BLOCK_TIME
          then hexInc tip.Difficulty else hexDec tip.Difficulty) ∧
    ((lastGaps chain 719).Perm
        (List.replicate 60 1000000 ++ List.replicate 60 0 ++ List.replicate 599 120) →
      trimmedAverage (lastGaps chain 719) = 120 ∧
      AdjustDifficulty chain = some (hexDec tip.Difficulty)) := by
  have hl := lastGaps_length chain 719 (by omega)
  have hcore := AdjustDifficulty_of_getLast chain tip htip hlen hgap hs
  refine ⟨hl, trimmedMiddle_length _ hl, hcore, ?_⟩
  intro p
  have ha := trimmedAverage_outliers _ p
  refine ⟨ha, ?_⟩
  rw [hcore, ha]
  rfl

theorem outlier_chain_facts :
    (chainOfGaps outlierGaps).getLast? ≠ none ∧
    720 < (chainOfGaps outlierGaps).length ∧
    (∀ g ∈ lastGaps (chainOfGaps outlierGaps) 719, 0 ≤ g ∧ g < 99999999) ∧
    noSlip NUM_OUTLIERS (lastGaps (chainOfGaps outlierGaps) 719) = true := by
  have hN : NUM_OUTLIERS = 60 := rfl
  rw [lastGaps_chainOfGaps, outlierGaps_last, chainOfGaps_length]
  refine ⟨by simp [chainOfGaps], by decide!, by decide!, ?_⟩
  apply noSlip_of_small_tail 120
  · rw [hN]; decide!
  · decide!
  · intro p v hp hv
    exact small_tail_replicate _ 599 120 120 (by rw [hN]; decide) (le_refl _) p v hp hv
  · decide!

/-- The chain of scenario 3: 721 blocks whose 719 most recent gaps are 60 gaps of
`10^6`, 60 gaps of 0 and 599 gaps of 120; the rule returns `hexDec` of the tip
difficulty `"0000007fffffffff"`. -/
theorem AdjustDifficulty_trimmed_average_witness :
    AdjustDifficulty (chainOfGaps outlierGaps) = some (ascii "0000006fffffffff") := by
  obtain ⟨h0, h1, h2, h3⟩ := outlier_chain_facts
  obtain ⟨tip, htip⟩ := Option.ne_none_iff_exists.1 h0
  have hd := chainOfGaps_tip_difficulty outlierGaps tip htip.symm
  have hp : (lastGaps (chainOfGaps outlierGaps) 719).Perm
      (List.replicate 60 1000000 ++ List.replicate 60 0 ++ List.replicate 599 120) := by
    rw [lastGaps_chainOfGaps, outlierGaps_last]
  have := ((AdjustDifficulty_trimmed_average (chainOfGaps outlierGaps) tip htip.symm
    h1 h2 h3).2.2.2 hp).2
  rw [this, hd]
  decide

theorem split_perm_last :
    (List.replicate 61 719 ++ List.replicate 60 0 ++ List.replicate 598 120 : List Int).Perm
      (List.replicate 60 0 ++ (List.replicate 598 120 ++ [719]) ++ List.replicate 60 719) := by
  rw [List.perm_iff_count]
  intro x
  simp only [List.count_append, List.count_replicate, List.count_cons, List.count_nil]
  split_ifs <;> simp_all

theorem split_perm_all :
    (List.replicate 61 719 ++ List.replicate 60 0 ++ (List.replicate 598 120 ++ [0]) :
        List Int).Perm
      (List.replicate 60 0 ++ (0 :: List.replicate 598 120 ++ [719]) ++ List.replicate 60 719) := by
  rw [List.perm_iff_count]
  intro x
  simp only [List.count_append, List.count_replicate, List.count_cons, List.count_nil,
    List.cons_append]
  split_ifs <;> simp_all

theorem split_chain_facts :
    (chainOfGaps splitGaps).getLast? ≠ none ∧
    720 < (chainOfGaps splitGaps).length ∧
    (∀ g ∈ lastGaps (chainOfGaps splitGaps) 719, 0 ≤ g ∧ g < 99999999) ∧
    noSlip NUM_OUTLIERS (lastGaps (chainOfGaps splitGaps) 719) = true := by
  have hN : NUM_OUTLIERS = 60 := rfl
  rw [lastGaps_chainOfGaps, splitGaps_last, chainOfGaps_length]
  refine ⟨by simp [chainOfGaps], by decide!, by decide!, ?_⟩
  apply noSlip_of_small_tail 120
  · rw [hN]; decide!
  · decide!
  · intro p v hp hv
    exact small_tail_replicate _ 598 120 120 (by rw [hN]; decide) (le_refl _) p v hp hv
  · decide!

theorem split_average_last :
    trimmedAverage (lastGaps (chainOfGaps splitGaps) 719) = 121 := by
  rw [lastGaps_chainOfGaps, splitGaps_last]
  rw [trimmedAverage_of_decomp _ _ _ _ (by simp [NUM_OUTLIERS]) (by simp [NUM_OUTLIERS])
    split_perm_last
    (by intro a ha t ht
        simp only [List.mem_append, List.mem_replicate, List.mem_singleton] at ha ht; omega)
    (by intro a ha t ht
        simp only [List.mem_append, List.mem_replicate, List.mem_singleton] at ha ht; omega)
    (by intro a ha t ht; simp only [List.mem_replicate] at ha ht; omega)]
  simp only [List.sum_append, List.sum_replicate, List.length_append, List.length_replicate,
    List.sum_cons, List.sum_nil, List.length_cons, List.length_nil]
  decide

theorem split_average_all :
    trimmedAverage (lastGaps (chainOfGaps splitGaps) 720) = 120 := by
  rw [lastGaps_chainOfGaps, splitGaps_all]
  rw [trimmedAverage_of_decomp _ _ _ _ (by simp [NUM_OUTLIERS]) (by simp [NUM_OUTLIERS])
    split_perm_all
    (by intro a ha t ht
        simp only [List.cons_append, List.mem_append, List.mem_replicate, List.mem_singleton,
          List.mem_cons, List.not_mem_nil, or_false] at ha ht
        omega)
    (by intro a ha t ht
        simp only [List.cons_append, List.mem_append, List.mem_replicate, List.mem_singleton,
          List.mem_cons, List.not_mem_nil, or_false] at ha ht
        omega)
    (by intro a ha t ht; simp only [List.mem_replicate] at ha ht; omega)]
  simp only [List.sum_append, List.sum_replicate, List.length_append, List.length_replicate,
    List.sum_cons, List.sum_nil, List.length_cons, List.length_nil, List.cons_append]
  decide

theorem split_chain_diverges :
    720 < (chainOfGaps splitGaps).length ∧
    (∀ g ∈ allGaps (chainOfGaps splitGaps), 0 ≤ g) ∧
    (chainOfGaps splitGaps).getLast?.map Block.Difficulty = some (ascii "0000007fffffffff") ∧
    trimmedAverage (lastGaps (chainOfGaps splitGaps) 720) = 120 ∧
    specAdjustDifficulty (chainOfGaps splitGaps) (ascii "0000007fffffffff")
      = hexDec (ascii "0000007fffffffff") ∧
    trimmedAverage (lastGaps (chainOfGaps splitGaps) 719) = 121 ∧
    AdjustDifficulty (chainOfGaps splitGaps) = some (hexInc (ascii "0000007fffffffff")) := by
  obtain ⟨h0, h1, h2, h3⟩ := split_chain_facts
  obtain ⟨tip, htip⟩ := Option.ne_none_iff_exists.1 h0
  have hd := chainOfGaps_tip_difficulty splitGaps tip htip.symm
  have hcode := AdjustDifficulty_of_getLast (chainOfGaps splitGaps) tip htip.symm h1 h2 h3
  rw [split_average_last, hd] at hcode
  refine ⟨h1, ?_, ?_, split_average_all, ?_, split_average_last, ?_⟩
  · rw [allGaps_chainOfGaps]
    decide!
  · rw [← htip, Option.map_some', hd]
  · unfold specAdjustDifficulty
    rw [split_average_all]
    rfl
  · rw [hcode]
    rfl

/-- On the working list `[5, 1, 7, 9]` the first largest gap is in the last slot,
and the round drops the gaps 1 and 7 and keeps 9. -/
theorem trimRound_keeps_last_max :
    roundRemovesMax [5, 1, 7, 9] = false ∧ trimRound [5, 1, 7, 9] = some [5, 9] := by
  decide

/-! ### Trimming on explicit working lists -/

theorem scanLoop_append (l1 l2 : List Int) (j : Nat) (s : Scan) :
    scanLoop (l1 ++ l2) j s = scanLoop l2 (j + l1.length) (scanLoop l1 j s) := by
  induction l1 generalizing j s with
  | nil => rfl
  | cons t rest ih =>
    rw [List.cons_append, scanLoop, scanLoop, ih]
    congr 1
    simp only [List.length_cons]
    omega

theorem scanLoop_max_stable (ts : List Int) (j : Nat) (s : Scan)
    (h : ∀ t ∈ ts, t ≤ s.max) :
    (scanLoop ts j s).max = s.max ∧ (scanLoop ts j s).max_index = s.max_index := by
  obtain ⟨_, _, a3, _, _, _⟩ := scanLoop_spec ts j s
  rcases a3 with c | ⟨p, c1, _, c3⟩
  · exact c
  · have := h _ (List.getElem?_mem c1)
    omega

theorem scanLoop_min_stable (ts : List Int) (j : Nat) (s : Scan)
    (h : ∀ t ∈ ts, s.min ≤ t) :
    (scanLoop ts j s).min = s.min ∧ (scanLoop ts j s).min_index = s.min_index := by
  obtain ⟨_, _, _, _, _, a6⟩ := scanLoop_spec ts j s
  rcases a6 with c | ⟨p, c1, _, c3⟩
  · exact c
  · have := h _ (List.getElem?_mem c1)
    omega

theorem scanMinMax_max_first (pre post : List Int) (x : Int) (hx : -1 < x)
    (hpre : ∀ t ∈ pre, t < x) (hpost : ∀ t ∈ post, t ≤ x) :
    (scanMinMax (pre ++ x :: post)).max_index = (pre.length : Int) := by
  unfold scanMinMax
  generalize hs0 : ({ min := 99999999, max := -1, max_index := -1, min_index := -1 } : Scan) = s0
  have hm0 : s0.max = -1 := by rw [← hs0]
  have hsplit : pre ++ x :: post = pre ++ ([x] ++ post) := rfl
  rw [hsplit, scanLoop_append, scanLoop_append]
  -- after the part before `x` the maximum is still below `x`
  have h1 : (scanLoop pre 0 s0).max < x := by
    obtain ⟨_, _, a3, _, _, _⟩ := scanLoop_spec pre 0 s0
    rcases a3 with ⟨c, _⟩ | ⟨p, c1, _, _⟩
    · rw [c, hm0]; exact hx
    · exact hpre _ (List.getElem?_mem c1)
  -- at `x` the maximum moves to this index
  have h2 : (scanLoop [x] (0 + pre.length) (scanLoop pre 0 s0)).max = x ∧
      (scanLoop [x] (0 + pre.length) (scanLoop pre 0 s0)).max_index = (pre.length : Int) := by
    obtain ⟨b1, _, b3, _, _, _⟩ := scanLoop_spec [x] (0 + pre.length) (scanLoop pre 0 s0)
    have hxm := b1 x (List.mem_singleton.2 rfl)
    rcases b3 with ⟨c, _⟩ | ⟨p, c1, c2, _⟩
    · omega
    · have hp : p = 0 := by
        cases p with
        | zero => rfl
        | succ q => simp at c1
      subst hp
      simp only [List.getElem?_cons_zero, Option.some.injEq] at c1
      refine ⟨c1.symm, ?_⟩
      rw [c2]
      simp
  obtain ⟨e1, e2⟩ := scanLoop_max_stable post (0 + pre.length + [x].length) _
    (by rw [h2.1]; exact hpost)
  rw [e2, h2.2]

theorem scanMinMax_min_first (pre post : List Int) (y : Int) (hy : y < 99999999)
    (hpre : ∀ t ∈ pre, y < t) (hpost : ∀ t ∈ post, y ≤ t) :
    (scanMinMax (pre ++ y :: post)).min_index = (pre.length : Int) := by
  unfold scanMinMax
  generalize hs0 : ({ min := 99999999, max := -1, max_index := -1, min_index := -1 } : Scan) = s0
  have hm0 : s0.min = 99999999 := by rw [← hs0]
  have hsplit : pre ++ y :: post = pre ++ ([y] ++ post) := rfl
  rw [hsplit, scanLoop_append, scanLoop_append]
  have h1 : y < (scanLoop pre 0 s0).min := by
    obtain ⟨_, _, _, _, _, a6⟩ := scanLoop_spec pre 0 s0
    rcases a6 with ⟨c, _⟩ | ⟨p, c1, _, _⟩
    · rw [c, hm0]; exact hy
    · exact hpre _ (List.getElem?_mem c1)
  have h2 : (scanLoop [y] (0 + pre.length) (scanLoop pre 0 s0)).min = y ∧
      (scanLoop [y] (0 + pre.length) (scanLoop pre 0 s0)).min_index = (pre.length : Int) := by
    obtain ⟨_, _, _, b4, _, b6⟩ := scanLoop_spec [y] (0 + pre.length) (scanLoop pre 0 s0)
    have hym := b4 y (List.mem_singleton.2 rfl)
    rcases b6 with ⟨c, _⟩ | ⟨p, c1, c2, _⟩
    · omega
    · have hp : p = 0 := by
        cases p with
        | zero => rfl
        | succ q => simp at c1
      subst hp
      simp only [List.getElem?_cons_zero, Option.some.injEq] at c1
      refine ⟨c1.symm, ?_⟩
      rw [c2]
      simp
  obtain ⟨e1, e2⟩ := scanLoop_min_stable post (0 + pre.length + [y].length) _
    (by rw [h2.1]; exact hpost)
  rw [e2, h2.2]

theorem trimRound_none_of_large (ts : List Int) (h : ∀ t ∈ ts, 99999999 ≤ t) :
    trimRound ts = none := by
  have hmin : (scanMinMax ts).min_index = -1 := by
    unfold scanMinMax
    exact (scanLoop_min_stable ts 0 _ h).2
  unfold trimRound
  simp [hmin]

theorem set_two (P Q R : List Int) (x y v w : Int) :
    ((P ++ x :: (Q ++ y :: R)).set (P.length + 1 + Q.length) w).set P.length v
      = P ++ v :: (Q ++ w :: R) := by
  have h1 : (P ++ x :: (Q ++ y :: R)).set (P.length + 1 + Q.length) w
      = P ++ x :: (Q ++ w :: R) := by
    rw [List.set_append_right _ _ (by omega)]
    have e : P.length + 1 + Q.length - P.length = Q.length + 1 := by omega
    rw [e, List.set_cons_succ, List.set_append_right _ _ (le_refl _), Nat.sub_self,
      List.set_cons_zero]
  rw [h1, List.set_append_right _ _ (le_refl _), Nat.sub_self, List.set_cons_zero]

theorem replicate_add_two (n : Nat) (a : Int) :
    List.replicate (n + 2) a = List.replicate n a ++ [a, a] := by
  rw [List.replicate_succ', List.replicate_succ', List.append_assoc]
  rfl

theorem slipList_form (k m : Nat) (hkm : k + m = 58) :
    slipList k = List.replicate k 120 ++ 1000000 ::
      ((List.replicate m 1000000 ++ List.replicate k 120) ++ 0 ::
        ((List.replicate (m + 1) 0 ++ List.replicate 481 120 ++ [1000000] ++
          List.replicate (2 * m) 120) ++ [120, 120])) := by
  unfold slipList
  have e1 : 59 - k = m + 1 := by omega
  have e2 : 60 - k = (m + 1) + 1 := by omega
  have e3 : 118 - 2 * k = 2 * m + 2 := by omega
  have r1 : List.replicate (m + 1) (1000000 : Int) = 1000000 :: List.replicate m 1000000 :=
    List.replicate_succ _ _
  have r2 : List.replicate (m + 1 + 1) (0 : Int) = 0 :: List.replicate (m + 1) 0 :=
    List.replicate_succ _ _
  rw [e1, e2, e3, r1, r2, replicate_add_two (2 * m) 120]
  simp only [List.append_assoc, List.cons_append, List.nil_append]

theorem slipList_succ_form (k m : Nat) (hkm : k + m = 58) :
    slipList (k + 1) = List.replicate k 120 ++ 120 ::
      ((List.replicate m 1000000 ++ List.replicate k 120) ++ 120 ::
        (List.replicate (m + 1) 0 ++ List.replicate 481 120 ++ [1000000] ++
          List.replicate (2 * m) 120)) := by
  unfold slipList
  have e1 : 59 - (k + 1) = m := by omega
  have e2 : 60 - (k + 1) = m + 1 := by omega
  have e3 : 118 - 2 * (k + 1) = 2 * m := by omega
  have r1 : List.replicate (k + 1) (120 : Int) = List.replicate k 120 ++ [120] :=
    List.replicate_succ' _ _
  rw [e1, e2, e3, r1]
  simp only [List.append_assoc, List.cons_append, List.nil_append]

theorem slipList_round (k : Nat) (hk : k < 59) :
    roundRemovesMax (slipList k) = true ∧ trimRound (slipList k) = some (slipList (k + 1)) := by
  obtain ⟨m, hkm⟩ : ∃ m, k + m = 58 := ⟨58 - k, by omega⟩
  rw [slipList_succ_form k m hkm, slipList_form k m hkm]
  generalize hR : List.replicate (m + 1) (0 : Int) ++ List.replicate 481 120 ++ [1000000] ++
    List.replicate (2 * m) 120 = R
  generalize hQ : List.replicate m (1000000 : Int) ++ List.replicate k 120 = Q
  generalize hP : List.replicate k (120 : Int) = P
  have hPl : P.length = k := by rw [← hP]; simp
  have hQl : Q.length = m + k := by rw [← hQ]; simp
  have hPm : ∀ t ∈ P, t = 120 := by
    intro t ht; rw [← hP] at ht; exact (List.mem_replicate.1 ht).2
  have hQm : ∀ t ∈ Q, t = 1000000 ∨ t = 120 := by
    intro t ht
    rw [← hQ] at ht
    rcases List.mem_append.1 ht with h | h
    · left; exact (List.mem_replicate.1 h).2
    · right; exact (List.mem_replicate.1 h).2
  have hRm : ∀ t ∈ R, t = 0 ∨ t = 120 ∨ t = 1000000 := by
    intro t ht
    rw [← hR] at ht
    simp only [List.mem_append, List.mem_replicate, List.mem_singleton] at ht
    omega
  -- the first largest gap
  have hmax : (scanMinMax (P ++ 1000000 :: (Q ++ 0 :: (R ++ [120, 120])))).max_index
      = (P.length : Int) := by
    apply scanMinMax_max_first P _ 1000000 (by decide)
    · intro t ht; have := hPm t ht; omega
    · intro t ht
      simp only [List.mem_append, List.mem_cons, List.not_mem_nil, or_false] at ht
      rcases ht with h | h | h | h
      · have := hQm t h; omega
      · omega
      · have := hRm t h; omega
      · omega
  -- the first smallest gap
  have hsplit : P ++ 1000000 :: (Q ++ 0 :: (R ++ [120, 120]))
      = (P ++ 1000000 :: Q) ++ 0 :: (R ++ [120, 120]) := by simp
  have hmin : (scanMinMax (P ++ 1000000 :: (Q ++ 0 :: (R ++ [120, 120])))).min_index
      = ((P.length + 1 + Q.length : Nat) : Int) := by
    rw [hsplit]
    have hl : (P ++ 1000000 :: Q).length = P.length + 1 + Q.length := by
      simp only [List.length_append, List.length_cons]; omega
    rw [← hl]
    apply scanMinMax_min_first (P ++ 1000000 :: Q) _ 0 (by decide)
    · intro t ht
      simp only [List.mem_append, List.mem_cons] at ht
      rcases ht with h | h | h
      · have := hPm t h; omega
      · omega
      · have := hQm t h; omega
    · intro t ht
      simp only [List.mem_append, List.mem_cons, List.not_mem_nil, or_false] at ht
      rcases ht with h | h
      · have := hRm t h; omega
      · omega
  have hfront : P ++ 1000000 :: (Q ++ 0 :: (R ++ [120, 120]))
      = (P ++ 1000000 :: (Q ++ 0 :: R)) ++ [120, 120] := by simp
  have hfl : (P ++ 1000000 :: (Q ++ 0 :: R)).length = P.length + 1 + Q.length + 1 + R.length := by
    simp only [List.length_append, List.length_cons]; omega
  constructor
  · unfold roundRemovesMax
    simp only [hmax, hmin, List.length_append, List.length_cons, List.length_nil,
      Bool.not_eq_true', Bool.and_eq_false_iff, decide_eq_false_iff_not]
    left
    push_cast
    omega
  · rw [hfront] at hmax hmin ⊢
    rw [trimRound_eq _ 120 120 _ _ hmin hmax]
    unfold roundResult
    have h1 : P.length + 1 + Q.length < (P ++ 1000000 :: (Q ++ 0 :: R)).length := by
      rw [hfl]; omega
    have h2 : ¬ (P.length + 1 + Q.length = (P ++ 1000000 :: (Q ++ 0 :: R)).length) := by omega
    have h3 : P.length < (P ++ 1000000 :: (Q ++ 0 :: R)).length := by rw [hfl]; omega
    simp only [h1, if_true, h2, if_false, h3]
    rw [set_two]

theorem trimLoop_chain (f : Nat → List Int) (n j m : Nat)
    (h : ∀ k, j ≤ k → k < j + n → trimRound (f k) = some (f (k + 1))) :
    trimLoop (n + m) (f j) = trimLoop m (f (j + n)) := by
  induction n generalizing j with
  | zero => simp
  | succ i ih =>
    have e : i + 1 + m = (i + m) + 1 := by omega
    rw [e, trimLoop, h j (le_refl _) (by omega)]
    simp only
    rw [ih (j + 1) (fun k h1 h2 => h k (by omega) (by omega))]
    congr 2
    omega

theorem noSlip_chain (f : Nat → List Int) (n j m : Nat)
    (h : ∀ k, j ≤ k → k < j + n →
      roundRemovesMax (f k) = true ∧ trimRound (f k) = some (f (k + 1))) :
    noSlip (n + m) (f j) = noSlip m (f (j + n)) := by
  induction n generalizing j with
  | zero => simp
  | succ i ih =>
    have e : i + 1 + m = (i + m) + 1 := by omega
    obtain ⟨h1, h2⟩ := h j (le_refl _) (by omega)
    rw [e, noSlip, h1, h2]
    simp only [Bool.true_and]
    rw [ih (j + 1) (fun k h1 h2 => h k (by omega) (by omega))]
    congr 2
    omega

theorem trimLoop_one (ts r : List Int) (h : trimRound ts = some r) :
    trimLoop 1 ts = some r := by
  have e : (1 : Nat) = 0 + 1 := rfl
  rw [e, trimLoop, h]
  rfl

theorem noSlip_one_false (ts : List Int) (h : roundRemovesMax ts = false) :
    noSlip 1 ts = false := by
  have e : (1 : Nat) = 0 + 1 := rfl
  rw [e, noSlip, h]
  rfl

theorem slipList_last :
    slipList 59 = (List.replicate 118 120 ++ 0 :: List.replicate 480 120) ++ [120, 1000000] := by
  decide!

theorem slipList_last_round :
    roundRemovesMax (slipList 59) = false ∧
    trimRound (slipList 59)
      = some (List.replicate 118 120 ++ 1000000 :: List.replicate 480 120) := by
  have hmax : (scanMinMax (slipList 59)).max_index = 600 := by
    have e : slipList 59
        = (List.replicate 118 120 ++ 0 :: List.replicate 481 120) ++ 1000000 :: [] := by decide!
    rw [e]
    have := scanMinMax_max_first (List.replicate 118 120 ++ 0 :: List.replicate 481 120) []
      1000000 (by decide)
      (by intro t ht
          simp only [List.mem_append, List.mem_replicate, List.mem_cons] at ht
          omega)
      (by intro t ht; exact absurd ht (List.not_mem_nil t))
    rw [this, List.length_append, List.length_replicate, List.length_cons,
      List.length_replicate]
    rfl
  have hmin : (scanMinMax (slipList 59)).min_index = 118 := by
    have e : slipList 59
        = List.replicate 118 120 ++ 0 :: (List.replicate 481 120 ++ [1000000]) := by decide!
    rw [e]
    have := scanMinMax_min_first (List.replicate 118 120) (List.replicate 481 120 ++ [1000000])
      0 (by decide)
      (by intro t ht
          simp only [List.mem_replicate] at ht
          omega)
      (by intro t ht
          simp only [List.mem_append, List.mem_replicate, List.mem_singleton] at ht
          omega)
    rw [this, List.length_replicate]
    rfl
  constructor
  · unfold roundRemovesMax
    have hl : (slipList 59).length = 601 := by decide!
    simp only [hmax, hmin, hl]
    rfl
  · rw [slipList_last] at hmax hmin ⊢
    rw [trimRound_eq _ 120 1000000 118 600 (by rw [hmin]; rfl) (by rw [hmax]; rfl)]
    exact congrArg some (by decide!)

theorem slipList_trimLoop :
    trimLoop NUM_OUTLIERS (slipList 0)
      = some (List.replicate 118 120 ++ 1000000 :: List.replicate 480 120) := by
  have h := trimLoop_chain slipList 59 0 1
    (fun k _ h2 => (slipList_round k (by omega)).2)
  have hN : NUM_OUTLIERS = 59 + 1 := rfl
  have h59 : (0 : Nat) + 59 = 59 := rfl
  rw [h59] at h
  rw [hN, h]
  exact trimLoop_one _ _ slipList_last_round.2

theorem slipList_noSlip : noSlip NUM_OUTLIERS (slipList 0) = false := by
  have h := noSlip_chain slipList 59 0 1 (fun k _ h2 => slipList_round k (by omega))
  have hN : NUM_OUTLIERS = 59 + 1 := rfl
  have h59 : (0 : Nat) + 59 = 59 := rfl
  rw [h59] at h
  rw [hN, h]
  exact noSlip_one_false _ slipList_last_round.1

theorem AdjustDifficulty_of_trimLoop (chain : List Block) (tip : Block)
    (htip : chain.getLast? = some tip) (hlen : 720 < chain.length)
    (hwrap : ∀ g ∈ lastGaps chain 719, wrap64 g = g) (rest : List Int)
    (htrim : trimLoop NUM_OUTLIERS (lastGaps chain 719) = some rest) (hne : rest.length ≠ 0) :
    AdjustDifficulty chain
      = some (if wrap64 (Int.tdiv (runningTotal rest) rest.length) > BLOCK_TIME
          then hexInc tip.Difficulty else hexDec tip.Difficulty) := by
  have hB : BLOCK_ADJUSTMENT = 720 := rfl
  have htip2 : chain[chain.length - 1]? = some tip := by
    rw [← List.getLast?_eq_getElem?]; exact htip
  unfold AdjustDifficulty
  have hnle : ¬ (chain.length ≤ BLOCK_ADJUSTMENT) := by rw [hB]; omega
  simp only [hnle, if_false]
  rw [gapsLoop_lastGaps_of_wrap chain (by rw [hB]; exact hlen) hwrap]
  simp only [htrim, hne, if_false, htip2]
  by_cases hc : wrap64 (Int.tdiv (runningTotal rest) rest.length) > BLOCK_TIME
  · simp only [hc, if_true]
  · simp only [hc, if_false]

theorem AdjustDifficulty_none_of_trimLoop (chain : List Block) (hlen : 720 < chain.length)
    (hwrap : ∀ g ∈ lastGaps chain 719, wrap64 g = g)
    (htrim : trimLoop NUM_OUTLIERS (lastGaps chain 719) = none) :
    AdjustDifficulty chain = none := by
  have hB : BLOCK_ADJUSTMENT = 720 := rfl
  unfold AdjustDifficulty
  have hnle : ¬ (chain.length ≤ BLOCK_ADJUSTMENT) := by rw [hB]; omega
  simp only [hnle, if_false]
  rw [gapsLoop_lastGaps_of_wrap chain (by rw [hB]; exact hlen) hwrap]
  simp only [htrim]

theorem trimLoop_none (n : Nat) (ts : List Int) (h : trimRound ts = none) :
    trimLoop (n + 1) ts = none := by
  rw [trimLoop, h]

theorem slipGaps_last : slipGaps.reverse.take 719 = slipList 0 := by
  decide!

theorem slipGaps_all : slipGaps.reverse.take 720 = slipList 0 ++ [120] := by
  decide!

theorem slip_perm_all :
    (slipList 0 ++ [120]).Perm
      (List.replicate 60 1000000 ++ List.replicate 60 0 ++ List.replicate 600 120) := by
  unfold slipList
  rw [List.perm_iff_count]
  intro x
  simp only [List.count_append, List.count_replicate, List.count_cons, List.count_nil]
  split_ifs <;> simp_all

theorem trimmedAverage_scenario (ts : List Int)
    (p : ts.Perm (List.replicate 60 1000000 ++ List.replicate 60 0 ++ List.replicate 600 120)) :
    trimmedAverage ts = 120 := by
  have q : ts.Perm (List.replicate 60 0 ++ List.replicate 600 120 ++ List.replicate 60 1000000) := by
    refine p.trans ?_
    rw [List.append_assoc]
    exact List.perm_append_comm
  rw [trimmedAverage_of_decomp ts _ _ _ (by simp [NUM_OUTLIERS]) (by simp [NUM_OUTLIERS]) q
    (by intro a ha t ht; simp only [List.mem_replicate] at ha ht; omega)
    (by intro a ha t ht; simp only [List.mem_replicate] at ha ht; omega)
    (by intro a ha t ht; simp only [List.mem_replicate] at ha ht; omega)]
  simp only [List.sum_replicate, List.length_replicate]
  decide

theorem slip_chain_diverges :
    720 < (chainOfGaps slipGaps).length ∧
    (∀ g ∈ allGaps (chainOfGaps slipGaps), 0 ≤ g) ∧
    (chainOfGaps slipGaps).getLast?.map Block.Difficulty = some (ascii "0000007fffffffff") ∧
    (lastGaps (chainOfGaps slipGaps) 720).Perm
      (List.replicate 60 1000000 ++ List.replicate 60 0 ++ List.replicate 600 120) ∧
    specAdjustDifficulty (chainOfGaps slipGaps) (ascii "0000007fffffffff")
      = hexDec (ascii "0000007fffffffff") ∧
    noSlip NUM_OUTLIERS (lastGaps (chainOfGaps slipGaps) 719) = false ∧
    AdjustDifficulty (chainOfGaps slipGaps) = some (hexInc (ascii "0000007fffffffff")) := by
  have hlen : 720 < (chainOfGaps slipGaps).length := by
    rw [chainOfGaps_length]; decide!
  have hne : (chainOfGaps slipGaps).getLast? ≠ none := by simp [chainOfGaps]
  obtain ⟨tip, htip⟩ := Option.ne_none_iff_exists.1 hne
  have hd := chainOfGaps_tip_difficulty slipGaps tip htip.symm
  have hl719 : lastGaps (chainOfGaps slipGaps) 719 = slipList 0 := by
    rw [lastGaps_chainOfGaps, slipGaps_last]
  have hl720 : lastGaps (chainOfGaps slipGaps) 720 = slipList 0 ++ [120] := by
    rw [lastGaps_chainOfGaps, slipGaps_all]
  have hb : ∀ g ∈ slipList 0, 0 ≤ g ∧ g < 99999999 := by decide!
  have hrest : ∀ t ∈ List.replicate 118 (120 : Int) ++ 1000000 :: List.replicate 480 120,
      0 ≤ t ∧ t < 99999999 := by
    intro t ht
    simp only [List.mem_append, List.mem_replicate, List.mem_cons] at ht
    omega
  have hlr : (List.replicate 118 (120 : Int) ++ 1000000 :: List.replicate 480 120).length
      = 599 := by
    rw [List.length_append, List.length_replicate, List.length_cons, List.length_replicate]
  have hrt : runningTotal (List.replicate 118 (120 : Int) ++ 1000000 :: List.replicate 480 120)
      = 1071760 := by
    unfold runningTotal
    rw [runningTotal_foldl _ 0 hrest (le_refl _) (by rw [hlr]; norm_num)]
    simp only [List.sum_append, List.sum_replicate, List.sum_cons]
    norm_num
  have hcode := AdjustDifficulty_of_trimLoop (chainOfGaps slipGaps) tip htip.symm hlen
    (by rw [hl719]; intro g hg; have := hb g hg
        exact wrap64_of_range g (by omega) (by omega))
    _ (by rw [hl719]; exact slipList_trimLoop) (by rw [hlr]; decide)
  rw [hrt, hlr, hd] at hcode
  refine ⟨hlen, ?_, ?_, ?_, ?_, ?_, ?_⟩
  · rw [allGaps_chainOfGaps]
    decide!
  · rw [← htip, Option.map_some', hd]
  · rw [hl720]; exact slip_perm_all
  · unfold specAdjustDifficulty
    rw [trimmedAverage_scenario _ (by rw [hl720]; exact slip_perm_all)]
    rfl
  · rw [hl719]; exact slipList_noSlip
  · rw [hcode]
    rfl

theorem huge_chain_panics :
    720 < (chainOfGaps hugeGaps).length ∧
    (∀ g ∈ allGaps (chainOfGaps hugeGaps), 0 ≤ g) ∧
    AdjustDifficulty (chainOfGaps hugeGaps) = none := by
  have hlen : 720 < (chainOfGaps hugeGaps).length := by
    rw [chainOfGaps_length]; decide!
  have hl : lastGaps (chainOfGaps hugeGaps) 719 = List.replicate 719 100000000 := by
    rw [lastGaps_chainOfGaps]; decide!
  refine ⟨hlen, ?_, ?_⟩
  · rw [allGaps_chainOfGaps]
    intro g hg
    rw [(List.mem_replicate.1 hg).2]
    decide
  · apply AdjustDifficulty_none_of_trimLoop _ hlen
    · rw [hl]
      intro g hg
      rw [(List.mem_replicate.1 hg).2]
      decide
    · rw [hl]
      have hN : NUM_OUTLIERS = 59 + 1 := rfl
      rw [hN]
      apply trimLoop_none
      apply trimRound_none_of_large
      intro t ht
      rw [(List.mem_replicate.1 ht).2]
      decide

/-- C3 (counterexample): three chains of 721 blocks with non-decreasing
timestamps and tip difficulty `"0000007fffffffff"` on which `AdjustDifficulty`
does not return what the claim states.  On the first (gaps, oldest first: one
of 0, 598 of 120, 60 of 0, 61 of 719) the 720 gaps ending at the tip, trimmed by
60 at both ends, average `72479 / 600 = 120`, which gives `hexDec`; the code
leaves the oldest gap out, averages `72479 / 599 = 121` and returns `hexInc`.
On the second the 720 gaps are 60 gaps of `10^6`, 60 of 0 and 600 of 120, which
gives `hexDec`; the last trimming round finds the only `10^6` left in the last
slot and keeps it, and the code returns `hexInc`.  On the third every gap is
`10^8`, the minimum search finds no index, and the code panics. -/
theorem AdjustDifficulty_trimmed_average_counterexample :
    (720 < (chainOfGaps splitGaps).length ∧
      (∀ g ∈ allGaps (chainOfGaps splitGaps), 0 ≤ g) ∧
      (chainOfGaps splitGaps).getLast?.map Block.Difficulty = some (ascii "0000007fffffffff") ∧
      trimmedAverage (lastGaps (chainOfGaps splitGaps) 720) = 120 ∧
      specAdjustDifficulty (chainOfGaps splitGaps) (ascii "0000007fffffffff")
        = hexDec (ascii "0000007fffffffff") ∧
      trimmedAverage (lastGaps (chainOfGaps splitGaps) 719) = 121 ∧
      AdjustDifficulty (chainOfGaps splitGaps) = some (hexInc (ascii "0000007fffffffff"))) ∧
    (720 < (chainOfGaps slipGaps).length ∧
      (∀ g ∈ allGaps (chainOfGaps slipGaps), 0 ≤ g) ∧
      (chainOfGaps slipGaps).getLast?.map Block.Difficulty = some (ascii "0000007fffffffff") ∧
      (lastGaps (chainOfGaps slipGaps) 720).Perm
        (List.replicate 60 1000000 ++ List.replicate 60 0 ++ List.replicate 600 120) ∧
      specAdjustDifficulty (chainOfGaps slipGaps) (ascii "0000007fffffffff")
        = hexDec (ascii "0000007fffffffff") ∧
      noSlip NUM_OUTLIERS (lastGaps (chainOfGaps slipGaps) 719) = false ∧
      AdjustDifficulty (chainOfGaps slipGaps) = some (hexInc (ascii "0000007fffffffff"))) ∧
    (720 < (chainOfGaps hugeGaps).length ∧
      (∀ g ∈ allGaps (chainOfGaps hugeGaps), 0 ≤ g) ∧
      AdjustDifficulty (chainOfGaps hugeGaps) = none) ∧
    hexInc (ascii "0000007fffffffff") ≠ hexDec (ascii "0000007fffffffff") :=
  ⟨split_chain_diverges, slip_chain_diverges, huge_chain_panics, by decide⟩

/-! ### The bound on the iterations of `RemoveOfflineNodes` -/

theorem removeStaleLoop_fuel (now : Int) (fuel : Nat) (list : List NodeAddress) (i extra : Nat)
    (h : list.length ≤ i + fuel) :
    removeStaleLoop now list i (fuel + extra) = removeStaleLoop now list i fuel := by
  induction fuel generalizing list i with
  | zero =>
    have hnone : list[i]? = none := List.getElem?_eq_none (by omega)
    cases extra with
    | zero => rfl
    | succ e =>
      rw [Nat.zero_add, removeStaleLoop, removeStaleLoop, hnone]
  | succ n ih =>
    have e : n + 1 + extra = (n + extra) + 1 := by omega
    rw [e, removeStaleLoop, removeStaleLoop]
    cases hg : list[i]? with
    | none => rfl
    | some node =>
      simp only
      split_ifs
      · exact ih _ (i + 1) (by
          rw [List.length_dropLast, List.length_set]; omega)
      · exact ih list (i + 1) (by omega)

/-! ### Peer deduplication -/

theorem foundIn_foldl (node : NodeAddress) (list : List NodeAddress) (b : Bool) :
    list.foldl (fun found uniqueNode =>
      if node.IpAddr = uniqueNode.IpAddr ∧ node.Port = uniqueNode.Port then true else found) b
      = (b || decide (nodeKey node ∈ list.map nodeKey)) := by
  induction list generalizing b with
  | nil => simp
  | cons u t ih =>
    rw [List.foldl_cons, ih]
    by_cases h : node.IpAddr = u.IpAddr ∧ node.Port = u.Port
    · have hk : nodeKey node = nodeKey u := by
        unfold nodeKey; rw [h.1, h.2]
      simp [h, hk]
    · have hk : ¬ (nodeKey node = nodeKey u) := by
        intro e
        unfold nodeKey at e
        exact h ⟨(Prod.mk.inj e).1, (Prod.mk.inj e).2⟩
      simp [h, hk]

theorem foundIn_iff (node : NodeAddress) (list : List NodeAddress) :
    foundIn node list = true ↔ nodeKey node ∈ list.map nodeKey := by
  unfold foundIn
  rw [foundIn_foldl]
  simp

theorem removeDuplicateNodes_foldl (l acc : List NodeAddress)
    (hacc : (acc.map nodeKey).Nodup) :
    ((l.foldl (fun list node => if foundIn node list then list else list ++ [node]) acc).map
        nodeKey).Nodup ∧
    ∀ k, k ∈ (l.foldl (fun list node => if foundIn node list then list else list ++ [node])
        acc).map nodeKey ↔ k ∈ acc.map nodeKey ∨ k ∈ l.map nodeKey := by
  induction l generalizing acc with
  | nil => simpa using hacc
  | cons node t ih =>
    rw [List.foldl_cons]
    by_cases hf : foundIn node acc = true
    · have hm := (foundIn_iff node acc).1 hf
      obtain ⟨h1, h2⟩ := ih acc hacc
      simp only [hf, if_true]
      refine ⟨h1, fun k => ?_⟩
      rw [h2 k, List.map_cons, List.mem_cons]
      constructor
      · rintro (h | h)
        · exact Or.inl h
        · exact Or.inr (Or.inr h)
      · rintro (h | h | h)
        · exact Or.inl h
        · exact Or.inl (h ▸ hm)
        · exact Or.inr h
    · have hm : nodeKey node ∉ acc.map nodeKey := fun h => hf ((foundIn_iff node acc).2 h)
      have hnd : ((acc ++ [node]).map nodeKey).Nodup := by
        rw [List.map_append, List.map_singleton]
        exact List.Nodup.append hacc (List.nodup_singleton _) (by
          intro k hk1 hk2
          rw [List.mem_singleton] at hk2
          exact hm (hk2 ▸ hk1))
      obtain ⟨h1, h2⟩ := ih (acc ++ [node]) hnd
      simp only [hf, Bool.false_eq_true, if_false]
      refine ⟨h1, fun k => ?_⟩
      rw [h2 k, List.map_append, List.map_singleton, List.mem_append, List.mem_singleton,
        List.map_cons, List.mem_cons]
      constructor
      · rintro ((h | h) | h)
        · exact Or.inl h
        · exact Or.inr (Or.inl h)
        · exact Or.inr (Or.inr h)
      · rintro (h | h | h)
        · exact Or.inl (Or.inl h)
        · exact Or.inl (Or.inr h)
        · exact Or.inr h

theorem removeDuplicateNodes_keys (l : List NodeAddress) :
    ((removeDuplicateNodes l).map nodeKey).Nodup ∧
    ∀ k, k ∈ (removeDuplicateNodes l).map nodeKey ↔ k ∈ l.map nodeKey := by
  obtain ⟨h1, h2⟩ := removeDuplicateNodes_foldl l [] (by simp)
  refine ⟨h1, fun k => ?_⟩
  unfold removeDuplicateNodes
  rw [h2 k]
  simp

/-- C11: for all peer lists `xs` and `ys`, the key lists of
`removeDuplicateNodes (xs ++ ys)` and of `removeDuplicateNodes (ys ++ xs)` each
hold no key twice and hold exactly the `(IpAddr, Port)` keys of `xs` and `ys`,
so they are permutations of each other. -/
theorem removeDuplicateNodes_union_comm (xs ys : List NodeAddress) :
    (((removeDuplicateNodes (xs ++ ys)).map nodeKey).Nodup ∧
      ∀ k, k ∈ (removeDuplicateNodes (xs ++ ys)).map nodeKey ↔
        k ∈ xs.map nodeKey ∨ k ∈ ys.map nodeKey) ∧
    (((removeDuplicateNodes (ys ++ xs)).map nodeKey).Nodup ∧
      ∀ k, k ∈ (removeDuplicateNodes (ys ++ xs)).map nodeKey ↔
        k ∈ xs.map nodeKey ∨ k ∈ ys.map nodeKey) ∧
    ((removeDuplicateNodes (xs ++ ys)).map nodeKey).Perm
      ((removeDuplicateNodes (ys ++ xs)).map nodeKey) := by
  obtain ⟨a1, a2⟩ := removeDuplicateNodes_keys (xs ++ ys)
  obtain ⟨b1, b2⟩ := removeDuplicateNodes_keys (ys ++ xs)
  have h1 : ∀ k, k ∈ (removeDuplicateNodes (xs ++ ys)).map nodeKey ↔
      k ∈ xs.map nodeKey ∨ k ∈ ys.map nodeKey := by
    intro k
    rw [a2 k, List.map_append, List.mem_append]
  have h2 : ∀ k, k ∈ (removeDuplicateNodes (ys ++ xs)).map nodeKey ↔
      k ∈ xs.map nodeKey ∨ k ∈ ys.map nodeKey := by
    intro k
    rw [b2 k, List.map_append, List.mem_append]
    exact Or.comm
  refine ⟨⟨a1, h1⟩, ⟨b1, h2⟩, ?_⟩
  rw [List.perm_ext_iff_of_nodup a1 b1]
  intro k
  rw [h1 k, h2 k]

/-- The first occurrence of a key wins, whatever its `LastSeen`. -/
theorem removeDuplicateNodes_first_wins :
    removeDuplicateNodes ([peerA, peerB] ++ [peerA2]) = [peerA, peerB] ∧
    removeDuplicateNodes ([peerA2] ++ [peerA, peerB]) = [peerA2, peerB] := by
  decide

/-! ### The direction of `hexInc` and `hexDec` -/

theorem stringsCompare_self (x : List Nat) : stringsCompare x x = 0 := by
  induction x with
  | nil => rfl
  | cons a t ih => simp [stringsCompare, ih]

theorem stringsCompare_append (p l1 l2 : List Nat) :
    stringsCompare (p ++ l1) (p ++ l2) = stringsCompare l1 l2 := by
  induction p with
  | nil => rfl
  | cons a t ih => simp [stringsCompare, ih]

theorem stringsCompare_cons_gt (a b : Nat) (r1 r2 : List Nat) (h : b < a) :
    stringsCompare (a :: r1) (b :: r2) = 1 := by
  have h1 : ¬ (a < b) := by omega
  simp [stringsCompare, h, h1]

theorem stringsCompare_cons_lt (a b : Nat) (r1 r2 : List Nat) (h : a < b) :
    stringsCompare (a :: r1) (b :: r2) = -1 := by
  simp [stringsCompare, h]

theorem incChar_gt (d : Nat) (h : isHexChar d) (hf : d ≠ 102) : d < incChar d := by
  unfold isHexChar at h
  rcases h with ⟨h1, h2⟩ | ⟨h1, h2⟩ <;> interval_cases d <;> decide

theorem decChar_lt (d : Nat) (h : isHexChar d) (h0 : d ≠ 48) : decChar d < d := by
  unfold isHexChar at h
  rcases h with ⟨h1, h2⟩ | ⟨h1, h2⟩ <;> interval_cases d <;>
    first | exact absurd rfl h0 | decide

theorem hexInc_f_head (rest : List Nat) (hne : rest ≠ []) :
    hexInc (102 :: rest) = 102 :: rest := by
  have hlen : 0 < rest.length := List.length_pos.2 hne
  have h := hexIncLoop_zeros_cons 0 102 rest (by decide) (rest.length) 0 (le_refl _) (by omega)
  simp only [List.replicate_zero, List.nil_append, if_true] at h
  unfold hexInc
  simp only [List.length_cons, Nat.add_sub_cancel]
  rw [h]
  rfl

/-- The three things `hexInc` does to a string of hex characters: nothing, raise
the first character other than `'0'`, or turn the `'0'` before a leading `'f'`
into a `'1'`. -/
theorem hexInc_cases (x : List Nat) (hx : ∀ c ∈ x, isHexChar c) :
    hexInc x = x ∨
    (∃ k d rest, x = List.replicate k 48 ++ d :: rest ∧ isHexChar d ∧ d ≠ 102 ∧
      hexInc x = List.replicate k 48 ++ incChar d :: rest) ∨
    (∃ k rest, x = List.replicate (k + 1) 48 ++ 102 :: rest ∧
      hexInc x = List.replicate k 48 ++ 49 :: 102 :: rest) := by
  rcases leadingZeros_decomp x with h | ⟨d, rest, hd0, h⟩
  · left
    unfold hexInc
    apply hexIncLoop_short
    intro j _ hj
    have hl : x.length = leadingZeros x := by
      conv_lhs => rw [h]
      simp
    have e : x = List.replicate (leadingZeros x) 48 ++ [] := by simpa using h
    rw [e]
    exact getD_replicate_append_lt _ j [] (by omega)
  · generalize leadingZeros x = k at h
    subst h
    have hd : isHexChar d := hx d (by simp)
    have hrest : ∀ c ∈ rest, isHexChar c := fun c hc => hx c (by simp [hc])
    by_cases hne : rest = []
    · left
      subst hne
      unfold hexInc
      apply hexIncLoop_short
      intro j _ hj
      simp only [List.length_append, List.length_replicate, List.length_cons, List.length_nil] at hj
      exact getD_replicate_append_lt k j _ (by omega)
    · by_cases hdf : d = 102
      · subst hdf
        cases k with
        | zero =>
          left
          simpa using hexInc_f_head rest hne
        | succ n =>
          right; right
          exact ⟨n, rest, rfl, hexInc_zeros_f n rest hrest hne⟩
      · right; left
        exact ⟨k, d, rest, rfl, hd, hdf, hexInc_zeros_cons k d rest hd hd0 hdf hrest hne⟩

/-- The two things `hexDec` does to a string of hex characters: nothing (all
`'0'`), or lower the first character other than `'0'`. -/
theorem hexDec_cases (x : List Nat) (hx : ∀ c ∈ x, isHexChar c) :
    hexDec x = x ∨
    (∃ k d rest, x = List.replicate k 48 ++ d :: rest ∧ isHexChar d ∧ d ≠ 48 ∧
      hexDec x = List.replicate k 48 ++ decChar d :: rest) := by
  rcases leadingZeros_decomp x with h | ⟨d, rest, hd0, h⟩
  · left
    have e : x = List.replicate (leadingZeros x) 48 ++ [] := by simpa using h
    rw [e]
    unfold hexDec
    rw [hexDecLoop_replicate_append]
    rfl
  · right
    generalize leadingZeros x = k at h
    subst h
    have hd : isHexChar d := hx d (by simp)
    have hrest : ∀ c ∈ rest, isHexChar c := fun c hc => hx c (by simp [hc])
    exact ⟨k, d, rest, rfl, hd, hd0, hexDec_zeros_cons k d rest hd hd0 hrest⟩

/-- C15: for every 16-character lowercase hexadecimal string `x`, `hexInc x` is
such a string and compares greater than or equal to `x`, `hexDec x` is such a
string and compares less than or equal to `x`; `hexInc` leaves
`"ffffffffffffffff"` and `hexDec` leaves `"0000000000000000"` unchanged. -/
theorem hexInc_hexDec_direction (x : List Nat) (hx : isHex16 x) :
    (isHex16 (hexInc x) ∧ 0 ≤ stringsCompare (hexInc x) x) ∧
    (isHex16 (hexDec x) ∧ stringsCompare (hexDec x) x ≤ 0) ∧
    hexInc (ascii "ffffffffffffffff") = ascii "ffffffffffffffff" ∧
    hexDec (ascii "0000000000000000") = ascii "0000000000000000" := by
  refine ⟨?_, ?_, by decide, by decide⟩
  · rcases hexInc_cases x hx.2 with h | ⟨k, d, rest, e, hd, hdf, h⟩ | ⟨k, rest, e, h⟩
    · rw [h, stringsCompare_self]
      exact ⟨hx, le_refl _⟩
    · rw [h]
      subst e
      have hi := incChar_spec d hd hdf
      refine ⟨⟨?_, ?_⟩, ?_⟩
      · have := hx.1
        simpa using this
      · intro c hc
        rcases List.mem_append.1 hc with h1 | h1
        · exact hx.2 c (List.mem_append_left _ h1)
        · rcases List.mem_cons.1 h1 with h2 | h2
          · rw [h2]; exact hi.1
          · exact hx.2 c (List.mem_append_right _ (List.mem_cons_of_mem _ h2))
      · rw [stringsCompare_append, stringsCompare_cons_gt _ _ _ _ (incChar_gt d hd hdf)]
        decide
    · rw [h]
      subst e
      have e2 : List.replicate (k + 1) 48 ++ 102 :: rest
          = List.replicate k 48 ++ 48 :: 102 :: rest := by
        rw [List.replicate_succ', List.append_assoc]; rfl
      refine ⟨⟨?_, ?_⟩, ?_⟩
      · have := hx.1
        simp only [List.length_append, List.length_replicate, List.length_cons] at this ⊢
        omega
      · intro c hc
        rcases List.mem_append.1 hc with h1 | h1
        · rw [(List.mem_replicate.1 h1).2]; decide
        · rcases List.mem_cons.1 h1 with h2 | h2
          · rw [h2]; decide
          · exact hx.2 c (List.mem_append_right _ h2)
      · rw [e2, stringsCompare_append, stringsCompare_cons_gt _ _ _ _ (by decide)]
        decide
  · rcases hexDec_cases x hx.2 with h | ⟨k, d, rest, e, hd, hd0, h⟩
    · rw [h, stringsCompare_self]
      exact ⟨hx, le_refl _⟩
    · rw [h]
      subst e
      have hi := decChar_spec d hd hd0
      refine ⟨⟨?_, ?_⟩, ?_⟩
      · have := hx.1
        simpa using this
      · intro c hc
        rcases List.mem_append.1 hc with h1 | h1
        · exact hx.2 c (List.mem_append_left _ h1)
        · rcases List.mem_cons.1 h1 with h2 | h2
          · rw [h2]; exact hi.1
          · exact hx.2 c (List.mem_append_right _ (List.mem_cons_of_mem _ h2))
      · rw [stringsCompare_append, stringsCompare_cons_lt _ _ _ _ (decChar_lt d hd hd0)]
        decide

/-- The starting difficulty `"0000007fffffffff"` is a 16-character lowercase
hexadecimal string, so both results are such strings on the right side of it. -/
theorem hexInc_hexDec_direction_witness :
    (isHex16 (hexInc (ascii "0000007fffffffff")) ∧
      0 ≤ stringsCompare (hexInc (ascii "0000007fffffffff")) (ascii "0000007fffffffff")) ∧
    (isHex16 (hexDec (ascii "0000007fffffffff")) ∧
      stringsCompare (hexDec (ascii "0000007fffffffff")) (ascii "0000007fffffffff") ≤ 0) ∧
    hexInc (ascii "ffffffffffffffff") = ascii "ffffffffffffffff" ∧
    hexDec (ascii "0000000000000000") = ascii "0000000000000000" :=
  hexInc_hexDec_direction (ascii "0000007fffffffff") (by decide)

/-- On the starting difficulty the two steps are strict: `hexInc` gives
`"0000008fffffffff"` and `hexDec` gives `"0000006fffffffff"`. -/
theorem hexInc_hexDec_starting_difficulty :
    hexInc (ascii "0000007fffffffff") = ascii "0000008fffffffff" ∧
    hexDec (ascii "0000007fffffffff") = ascii "0000006fffffffff" := by
  decide

/-! ### The difficulty rule on equal gaps -/

theorem scanMinMax_replicate (n : Nat) (g : Int) (h0 : 0 ≤ g) (h1 : g < 99999999) :
    (scanMinMax (List.replicate (n + 1) g)).min_index = 0 ∧
    (scanMinMax (List.replicate (n + 1) g)).max_index = 0 := by
  have e : List.replicate (n + 1) g = [] ++ g :: List.replicate n g := by
    rw [List.replicate_succ]; rfl
  have hpost : ∀ t ∈ List.replicate n g, t = g := fun t ht => (List.mem_replicate.1 ht).2
  rw [e]
  constructor
  · have := scanMinMax_min_first [] (List.replicate n g) g h1 (by simp)
      (fun t ht => by rw [hpost t ht])
    simpa using this
  · have := scanMinMax_max_first [] (List.replicate n g) g (by omega) (by simp)
      (fun t ht => by rw [hpost t ht])
    simpa using this

theorem replicate_set_zero (n : Nat) (g : Int) :
    (List.replicate n g).set 0 g = List.replicate n g := by
  cases n with
  | zero => rfl
  | succ m => rw [List.replicate_succ, List.set_cons_zero]

theorem trimRound_replicate (n : Nat) (g : Int) (h0 : 0 ≤ g) (h1 : g < 99999999) :
    trimRound (List.replicate (n + 2) g) = some (List.replicate n g) := by
  obtain ⟨hmin, hmax⟩ := scanMinMax_replicate (n + 1) g h0 h1
  rw [replicate_add_two] at hmin hmax ⊢
  rw [trimRound_eq (List.replicate n g) g g 0 0 (by simpa using hmin) (by simpa using hmax)]
  unfold roundResult
  simp only [List.length_replicate, replicate_set_zero, ite_self]

theorem trimLoop_replicate (k n : Nat) (g : Int) (h0 : 0 ≤ g) (h1 : g < 99999999) :
    trimLoop k (List.replicate (n + 2 * k) g) = some (List.replicate n g) := by
  induction k generalizing n with
  | zero => rfl
  | succ i ih =>
    have e : n + 2 * (i + 1) = (n + 2 * i) + 2 := by omega
    rw [e, trimLoop, trimRound_replicate _ g h0 h1]
    exact ih n

theorem runningTotal_replicate (n : Nat) (g : Int) (h0 : 0 ≤ g) (h1 : g < 99999999)
    (hn : n ≤ 1000) : runningTotal (List.replicate n g) = n * g := by
  unfold runningTotal
  rw [runningTotal_foldl (List.replicate n g) 0
    (fun t ht => by rw [(List.mem_replicate.1 ht).2]; exact ⟨h0, h1⟩) (le_refl _)
    (by rw [List.length_replicate]; have : (n : Int) ≤ 1000 := by exact_mod_cast hn
        omega)]
  simp

/-- C12: for every chain of more than 720 blocks whose 719 gaps between the last
720 blocks (the gaps that `AdjustDifficulty` collects; they are among the last
720 gaps) all equal one value `g` with `0 ≤ g ≤ 120`, `AdjustDifficulty` returns
`hexDec` of the tip difficulty. -/
theorem AdjustDifficulty_equal_gaps (chain : List Block) (tip : Block)
    (htip : chain.getLast? = some tip) (hlen : 720 < chain.length)
    (g : Int) (h0 : 0 ≤ g) (h1 : g ≤ 120)
    (hall : ∀ x ∈ lastGaps chain 719, x = g) :
    AdjustDifficulty chain = some (hexDec tip.Difficulty) := by
  have hN : NUM_OUTLIERS = 60 := rfl
  have hT : BLOCK_TIME = 120 := rfl
  have hl := lastGaps_length chain 719 (by omega)
  have hrep : lastGaps chain 719 = List.replicate 719 g := by
    rw [List.eq_replicate_iff]
    exact ⟨hl, hall⟩
  have hwg : wrap64 g = g := wrap64_of_range g (by omega) (by omega)
  have htrim : trimLoop NUM_OUTLIERS (lastGaps chain 719) = some (List.replicate 599 g) := by
    rw [hrep, hN]
    exact trimLoop_replicate 60 599 g h0 (by omega)
  rw [AdjustDifficulty_of_trimLoop chain tip htip hlen
    (fun x hx => by rw [hall x hx]; exact hwg) (List.replicate 599 g) htrim
    (by rw [List.length_replicate]; decide)]
  rw [runningTotal_replicate 599 g h0 (by omega) (by decide), List.length_replicate]
  have hd : Int.tdiv (((599 : Nat) : Int) * g) ((599 : Nat) : Int) = g := by
    rw [Int.tdiv_eq_ediv (by positivity) (by decide)]
    exact Int.mul_ediv_cancel_left g (by decide)
  rw [hd, hwg, hT, if_neg (by omega)]

theorem chainOfGaps_getLast (gaps : List Int) : (chainOfGaps gaps).getLast? ≠ none := by
  simp [chainOfGaps]

theorem equal_gaps_chain_facts :
    (chainOfGaps (List.replicate 720 10)).getLast? ≠ none ∧
    720 < (chainOfGaps (List.replicate 720 10)).length ∧
    ∀ x ∈ lastGaps (chainOfGaps (List.replicate 720 10)) 719, x = 10 := by
  rw [lastGaps_chainOfGaps, chainOfGaps_length]
  refine ⟨chainOfGaps_getLast _, by rw [List.length_replicate]; decide, ?_⟩
  intro x hx
  have := List.mem_of_mem_take hx
  rw [List.reverse_replicate] at this
  exact (List.mem_replicate.1 this).2

/-- The chain of the difficulty-clamp scenario: 721 blocks, every gap 10 s; the
rule returns `hexDec` of the tip difficulty `"0000007fffffffff"`. -/
theorem AdjustDifficulty_equal_gaps_witness :
    AdjustDifficulty (chainOfGaps (List.replicate 720 10))
      = some (ascii "0000006fffffffff") := by
  obtain ⟨h0, h1, h2⟩ := equal_gaps_chain_facts
  obtain ⟨tip, htip⟩ := Option.ne_none_iff_exists.1 h0
  have hd := chainOfGaps_tip_difficulty (List.replicate 720 10) tip htip.symm
  rw [AdjustDifficulty_equal_gaps (chainOfGaps (List.replicate 720 10)) tip htip.symm h1 10
    (by decide) (by decide) h2, hd]
  decide

/-! ### The miner's test and the validator's test -/

theorem stringsCompare_eq_zero (x y : List Nat) (h : stringsCompare x y = 0) : x = y := by
  induction x generalizing y with
  | nil =>
    cases y with
    | nil => rfl
    | cons b t => simp [stringsCompare] at h
  | cons a s ih =>
    cases y with
    | nil => simp [stringsCompare] at h
    | cons b t =>
      unfold stringsCompare at h
      by_cases h1 : a < b
      · simp [h1] at h
      · by_cases h2 : b < a
        · simp [h1, h2] at h
        · simp only [h1, h2, if_false] at h
          have e : a = b := by omega
          rw [e, ih t h]

theorem stringsCompare_range (x y : List Nat) :
    stringsCompare x y = -1 ∨ stringsCompare x y = 0 ∨ stringsCompare x y = 1 := by
  induction x generalizing y with
  | nil => cases y <;> simp [stringsCompare]
  | cons a s ih =>
    cases y with
    | nil => simp [stringsCompare]
    | cons b t =>
      unfold stringsCompare
      split_ifs
      · simp
      · simp
      · exact ih t

theorem minerAccepts_eq_validatorAccepts (h d : List Nat) (hne : h.length ≠ d.length) :
    minerAccepts h d = validatorAccepts h d := by
  have h0 : stringsCompare h d ≠ 0 := fun e => hne (by rw [stringsCompare_eq_zero h d e])
  unfold minerAccepts validatorAccepts
  rcases stringsCompare_range h d with e | e | e
  · rw [e]; rfl
  · exact absurd e h0
  · rw [e]; rfl

theorem ProofOfWorkLoop_accepts (sha256hex : List Nat → List Nat) (chain : List Block)
    (tip : Block) (htip : chain[chain.length - 1]? = some tip) (now : Nat → Int)
    (fuel k : Nat) (r Proof Timestamp : Int)
    (h : ProofOfWorkLoop sha256hex chain now fuel k r = some (Proof, Timestamp)) :
    minerAccepts (ProofOfWorkCalc sha256hex Proof tip.Proof Timestamp) tip.Difficulty = true := by
  induction fuel generalizing k r with
  | zero => simp [ProofOfWorkLoop] at h
  | succ n ih =>
    rw [ProofOfWorkLoop] at h
    simp only [htip] at h
    split_ifs at h with hc
    · have e := Option.some.inj h
      rw [Prod.mk.injEq] at e
      rw [← e.1, ← e.2]
      exact hc
    · exact ih _ _ h

theorem validatePair_eq (sha256hex : List Nat → List Nat) (unixDate : Int → List Nat)
    (prev_block block : Block) :
    validatePair sha256hex unixDate prev_block block
      = (decide (block.Index = wrap64 (prev_block.Index + 1)) &&
          decide (prev_block.Timestamp ≤ block.Timestamp) &&
          validatorAccepts
            (ProofOfWorkCalc sha256hex block.Proof prev_block.Proof block.Timestamp)
            prev_block.Difficulty &&
          decide (HashBlock sha256hex unixDate prev_block = block.PreviousHash)) := by
  unfold validatePair validatorAccepts
  by_cases h1 : block.Index = wrap64 (prev_block.Index + 1) <;>
  by_cases h2 : block.Timestamp < prev_block.Timestamp <;>
  by_cases h3 : stringsCompare
      (ProofOfWorkCalc sha256hex block.Proof prev_block.Proof block.Timestamp)
      prev_block.Difficulty = -1 <;>
  by_cases h4 : HashBlock sha256hex unixDate prev_block = block.PreviousHash <;>
  simp [h1, h2, h3, h4, not_le.2, not_lt.1]

theorem hexCharOf_isHexChar (v : Nat) (h : v < 16) : isHexChar (hexCharOf v) := by
  interval_cases v <;> decide

theorem sampleHexDigest_isDigest64 (s : List Nat) : isDigest64 (sampleHexDigest s) := by
  unfold sampleHexDigest
  constructor
  · rw [List.length_take, List.length_append, List.length_replicate]
    omega
  · intro c hc
    rcases List.mem_append.1 (List.mem_of_mem_take hc) with h | h
    · obtain ⟨x, _, rfl⟩ := List.mem_map.1 h
      exact hexCharOf_isHexChar _ (Nat.mod_lt _ (by decide))
    · rw [(List.mem_replicate.1 h).2]
      decide

/-- C16: let the digest function return 64-character lowercase hexadecimal
strings and let the tip of the chain carry a 16-character difficulty.  On every
such digest `h` and every 16-character `d` the miner's test
(`strings.Compare(h, d) < 1`) and the validator's test
(`strings.Compare(h, d) == -1`) give the same verdict; so a `(Proof, Timestamp)`
returned by `ProofOfWork` against the tip passes the proof check of
`ValidateChain` against that tip, and a block carrying them is accepted by
`validatePair` exactly when its index, timestamp and previous hash are. -/
theorem ProofOfWork_passes_proof_check (sha256hex : List Nat → List Nat)
    (hsha : ∀ s, isDigest64 (sha256hex s)) (chain : List Block) (tip : Block)
    (htip : chain.getLast? = some tip) (hd : tip.Difficulty.length = 16)
    (now : Nat → Int) (fuel : Nat) (r0 Proof Timestamp : Int)
    (hfound : ProofOfWork sha256hex chain now fuel r0 = some (Proof, Timestamp)) :
    (∀ h d : List Nat, isDigest64 h → d.length = 16 →
      minerAccepts h d = validatorAccepts h d) ∧
    validatorAccepts (ProofOfWorkCalc sha256hex Proof tip.Proof Timestamp) tip.Difficulty
      = true ∧
    stringsCompare (ProofOfWorkCalc sha256hex Proof tip.Proof Timestamp) tip.Difficulty
      = -1 ∧
    ∀ (unixDate : Int → List Nat) (block : Block),
      block.Proof = Proof → block.Timestamp = Timestamp →
      validatePair sha256hex unixDate tip block
        = (decide (block.Index = wrap64 (tip.Index + 1)) &&
            decide (tip.Timestamp ≤ block.Timestamp) &&
            decide (HashBlock sha256hex unixDate tip = block.PreviousHash)) := by
  have hagree : ∀ h d : List Nat, isDigest64 h → d.length = 16 →
      minerAccepts h d = validatorAccepts h d := by
    intro h d hh hdl
    exact minerAccepts_eq_validatorAccepts h d (by rw [hh.1, hdl]; decide)
  have htip2 : chain[chain.length - 1]? = some tip := by
    rw [← List.getLast?_eq_getElem?]; exact htip
  have hm := ProofOfWorkLoop_accepts sha256hex chain tip htip2 now fuel 0 r0 Proof Timestamp hfound
  have hv : validatorAccepts (ProofOfWorkCalc sha256hex Proof tip.Proof Timestamp)
      tip.Difficulty = true := by
    rw [← hagree _ tip.Difficulty (by unfold ProofOfWorkCalc; exact hsha _) hd]; exact hm
  refine ⟨hagree, hv, ?_, ?_⟩
  · unfold validatorAccepts at hv
    by_contra hne
    rw [if_pos hne] at hv
    exact absurd hv (by decide)
  · intro unixDate block hp ht
    rw [validatePair_eq, hp, ht, hv]
    simp

/-- Against the genesis block under the stand-in hex digest, started at 68: the
candidate 68 is refused, and the pair `(69, 0)` that `ProofOfWork` returns
passes the validator's test. -/
theorem ProofOfWork_passes_proof_check_witness :
    ProofOfWork sampleHexDigest [genesisBlock] (fun _ => 0) 2 68 = some (69, 0) ∧
    validatorAccepts (ProofOfWorkCalc sampleHexDigest 69 genesisBlock.Proof 0)
      genesisBlock.Difficulty = true :=
  ⟨by decide!,
   (ProofOfWork_passes_proof_check sampleHexDigest sampleHexDigest_isDigest64 [genesisBlock]
      genesisBlock (by decide) (by decide) (fun _ => 0) 2 68 69 0 (by decide!)).2.1⟩

/-! ### The chain invariants under appends -/

theorem chainInvariants_index (chain : List Block) :
    chain.map Block.Index = (List.range chain.length).map (fun i : Nat => (i : Int)) ↔
      ∀ (i : Nat) (b : Block), chain[i]? = some b → b.Index = (i : Int) := by
  constructor
  · intro h i b hb
    have h1 : (chain.map Block.Index)[i]? = some b.Index := by
      rw [List.getElem?_map, hb]; rfl
    rw [h, List.getElem?_map] at h1
    have hi : i < chain.length := (List.getElem?_eq_some_iff.1 hb).1
    rw [List.getElem?_range hi] at h1
    exact (Option.some.inj h1).symm
  · intro h
    apply List.ext_getElem?
    intro i
    rw [List.getElem?_map, List.getElem?_map]
    by_cases hi : i < chain.length
    · rw [List.getElem?_range hi]
      obtain ⟨b, hb⟩ : ∃ b, chain[i]? = some b := ⟨chain[i], List.getElem?_eq_getElem hi⟩
      rw [hb]
      simp only [Option.map_some']
      rw [h i b hb]
    · have h1 : chain[i]? = none := List.getElem?_eq_none (by omega)
      have h2 : (List.range chain.length)[i]? = none :=
        List.getElem?_eq_none (by rw [List.length_range]; omega)
      rw [h1, h2]
      rfl

theorem chainLinked_iff (sha256hex : List Nat → List Nat) (unixDate : Int → List Nat)
    (chain : List Block) :
    chainLinked sha256hex unixDate chain = true ↔
      ∀ (i : Nat) (prev cur : Block), chain[i]? = some prev → chain[i + 1]? = some cur →
        linkOk sha256hex unixDate prev cur := by
  induction chain with
  | nil => simp [chainLinked]
  | cons a t ih =>
    cases t with
    | nil =>
      simp only [chainLinked, true_iff]
      intro i prev cur _ h2
      simp at h2
    | cons b u =>
      rw [chainLinked, Bool.and_eq_true, decide_eq_true_eq, ih]
      constructor
      · rintro ⟨hab, hrest⟩ i prev cur h1 h2
        cases i with
        | zero =>
          simp only [List.getElem?_cons_zero, List.getElem?_cons_succ, zero_add] at h1 h2
          rw [← Option.some.inj h1, ← Option.some.inj h2]
          exact hab
        | succ j =>
          rw [List.getElem?_cons_succ] at h1 h2
          exact hrest j prev cur h1 h2
      · intro h
        refine ⟨h 0 a b (by simp) (by simp), ?_⟩
        intro i prev cur h1 h2
        exact h (i + 1) prev cur (by rw [List.getElem?_cons_succ]; exact h1)
          (by rw [List.getElem?_cons_succ]; exact h2)

theorem chainLinked_append (sha256hex : List Nat → List Nat) (unixDate : Int → List Nat)
    (pre : List Block) (p b : Block) (h : chainLinked sha256hex unixDate (pre ++ [p]) = true)
    (hl : linkOk sha256hex unixDate p b) :
    chainLinked sha256hex unixDate (pre ++ [p] ++ [b]) = true := by
  induction pre with
  | nil => simp [chainLinked, hl]
  | cons a t ih =>
    cases t with
    | nil =>
      simp only [List.cons_append, List.nil_append, chainLinked, Bool.and_eq_true,
        decide_eq_true_eq, and_true] at h ⊢
      exact ⟨h, hl⟩
    | cons a2 t2 =>
      simp only [List.cons_append, chainLinked, Bool.and_eq_true, decide_eq_true_eq] at h ih ⊢
      exact ⟨h.1, ih h.2⟩

/-- The invariants in indexed form: `chain[i].Index = i` for every `i`, and every
`chain[i + 1]` is linked to `chain[i]`. -/
theorem chainInvariants_iff (sha256hex : List Nat → List Nat) (unixDate : Int → List Nat)
    (chain : List Block) :
    chainInvariants sha256hex unixDate chain ↔
      (∀ (i : Nat) (b : Block), chain[i]? = some b → b.Index = (i : Int)) ∧
      ∀ (i : Nat) (prev cur : Block), chain[i]? = some prev → chain[i + 1]? = some cur →
        prev.Timestamp ≤ cur.Timestamp ∧
        cur.PreviousHash = HashBlock sha256hex unixDate prev ∧
        stringsCompare (ProofOfWorkCalc sha256hex cur.Proof prev.Proof cur.Timestamp)
          prev.Difficulty = -1 := by
  unfold chainInvariants
  rw [chainInvariants_index, chainLinked_iff]
  rfl

theorem validatePair_true (sha256hex : List Nat → List Nat) (unixDate : Int → List Nat)
    (prev_block block : Block) (h : validatePair sha256hex unixDate prev_block block = true) :
    block.Index = wrap64 (prev_block.Index + 1) ∧ linkOk sha256hex unixDate prev_block block := by
  rw [validatePair_eq] at h
  simp only [Bool.and_eq_true, decide_eq_true_eq] at h
  obtain ⟨⟨⟨h1, h2⟩, h3⟩, h4⟩ := h
  refine ⟨h1, h2, h4.symm, ?_⟩
  unfold validatorAccepts at h3
  by_contra hne
  rw [if_pos hne] at h3
  exact absurd h3 (by decide)

theorem chainInvariants_append (sha256hex : List Nat → List Nat) (unixDate : Int → List Nat)
    (pre : List Block) (p b : Block) (hlen : (pre ++ [p] ++ [b]).length < 2 ^ 63)
    (hinv : chainInvariants sha256hex unixDate (pre ++ [p]))
    (hv : validatePair sha256hex unixDate p b = true) :
    chainInvariants sha256hex unixDate (pre ++ [p] ++ [b]) := by
  obtain ⟨hidx, hlink⟩ := validatePair_true sha256hex unixDate p b hv
  obtain ⟨h1, h2⟩ := hinv
  have hl : (pre ++ [p]).length = pre.length + 1 := by simp
  have hp : p.Index = (pre.length : Int) := by
    have := (chainInvariants_index (pre ++ [p])).1 h1 pre.length p
      (by rw [List.getElem?_append_right (le_refl _)]; simp)
    exact this
  have hb : b.Index = ((pre ++ [p]).length : Int) := by
    rw [hidx, hp, hl]
    simp only [List.length_append, List.length_singleton] at hlen
    push_cast
    apply wrap64_of_range
    · have : (0 : Int) ≤ (pre.length : Int) := Int.ofNat_nonneg _
      omega
    · have : ((pre.length + 1 + 1 : Nat) : Int) < 2 ^ 63 := by exact_mod_cast hlen
      push_cast at this
      omega
  constructor
  · have e : (pre ++ [p] ++ [b]).length = (pre ++ [p]).length + 1 := by simp
    rw [e, List.range_succ, List.map_append, h1, List.map_append]
    simp only [List.map_cons, List.map_nil, hb]
  · exact chainLinked_append sha256hex unixDate pre p b h2 hlink

theorem split_last (c : List Block) (hne : c ≠ []) : ∃ pre p, c = pre ++ [p] :=
  ⟨c.dropLast, c.getLast hne, (List.dropLast_append_getLast hne).symm⟩

theorem AddRemoteBlocks_invariants (sha256hex : List Nat → List Nat)
    (unixDate : Int → List Nat) (c : List Block) (b : Block) (hne : c ≠ [])
    (hlen : (c ++ [b]).length < 2 ^ 63) (hinv : chainInvariants sha256hex unixDate c) :
    ∃ c1 ok, AddRemoteBlocks sha256hex unixDate c b = some (c1, ok) ∧ c1 ≠ [] ∧
      c1.length ≤ c.length + 1 ∧ chainInvariants sha256hex unixDate c1 := by
  obtain ⟨pre, p, rfl⟩ := split_last c hne
  have hv : ValidateChain sha256hex unixDate (pre ++ [p] ++ [b])
      = some (validatePair sha256hex unixDate p b) := by
    have := ValidateChain_append_two sha256hex unixDate pre p b
    simpa using this
  unfold AddRemoteBlocks
  simp only [hv]
  cases hvp : validatePair sha256hex unixDate p b
  · have ht : (pre ++ [p] ++ [b]).take ((pre ++ [p] ++ [b]).length - 1) = pre ++ [p] := by
      rw [List.length_append, List.length_singleton, Nat.add_sub_cancel]
      exact List.take_left' rfl
    rw [ht]
    exact ⟨pre ++ [p], false, rfl, hne, by omega, hinv⟩
  · refine ⟨pre ++ [p] ++ [b], true, rfl, by simp, by simp, ?_⟩
    exact chainInvariants_append sha256hex unixDate pre p b hlen hinv hvp

theorem AddRemoteBlocksRounds_invariants (sha256hex : List Nat → List Nat)
    (unixDate : Int → List Nat) (bs c : List Block) (hne : c ≠ [])
    (hlen : c.length + bs.length < 2 ^ 63) (hinv : chainInvariants sha256hex unixDate c) :
    ∃ c1, AddRemoteBlocksRounds sha256hex unixDate c bs = some c1 ∧ c1 ≠ [] ∧
      chainInvariants sha256hex unixDate c1 := by
  induction bs generalizing c with
  | nil => exact ⟨c, rfl, hne, hinv⟩
  | cons b rest ih =>
    rw [List.length_cons] at hlen
    obtain ⟨c1, ok, h1, h2, h3, h4⟩ := AddRemoteBlocks_invariants sha256hex unixDate c b hne
      (by rw [List.length_append, List.length_singleton]; omega) hinv
    rw [AddRemoteBlocksRounds, h1]
    exact ih c1 h2 (by omega) h4

/-- C13: let `c` be a non-empty chain that satisfies invariants 1 to 4, with
`c ++ [b]` within the length a Go slice can have.  If `ValidateChain` accepts
`c ++ [b]`, then `c ++ [b]` satisfies the invariants; and for every sequence
`bs` of received blocks (within the same length bound) the rounds of
`AddRemoteBlocks`, each an accepted or a rolled-back append, do not panic and
end with a chain that satisfies the invariants. -/
theorem chainInvariants_preserved (sha256hex : List Nat → List Nat)
    (unixDate : Int → List Nat) (c : List Block) (b : Block) (hne : c ≠ [])
    (hlen : (c ++ [b]).length < 2 ^ 63) (hinv : chainInvariants sha256hex unixDate c)
    (hacc : ValidateChain sha256hex unixDate (c ++ [b]) = some true) :
    chainInvariants sha256hex unixDate (c ++ [b]) ∧
    ∀ bs : List Block, c.length + bs.length < 2 ^ 63 →
      ∃ c1, AddRemoteBlocksRounds sha256hex unixDate c bs = some c1 ∧ c1 ≠ [] ∧
        chainInvariants sha256hex unixDate c1 := by
  constructor
  · obtain ⟨pre, p, rfl⟩ := split_last c hne
    have hv : ValidateChain sha256hex unixDate (pre ++ [p] ++ [b])
        = some (validatePair sha256hex unixDate p b) := by
      have := ValidateChain_append_two sha256hex unixDate pre p b
      simpa using this
    rw [hv] at hacc
    exact chainInvariants_append sha256hex unixDate pre p b hlen hinv (Option.some.inj hacc)
  · intro bs hbs
    exact AddRemoteBlocksRounds_invariants sha256hex unixDate bs c hne hbs hinv

/-- The genesis chain satisfies the invariants, `ValidateChain` accepts it with
`sampleBlock1` appended, and the two-block chain satisfies the invariants. -/
theorem chainInvariants_preserved_witness :
    chainInvariants sampleDigest sampleDate [genesisBlock] ∧
    ValidateChain sampleDigest sampleDate ([genesisBlock] ++ [sampleBlock1]) = some true ∧
    chainInvariants sampleDigest sampleDate ([genesisBlock] ++ [sampleBlock1]) :=
  ⟨by decide, by decide,
   (chainInvariants_preserved sampleDigest sampleDate [genesisBlock] sampleBlock1 (by decide)
      (by decide) (by decide) (by decide)).1⟩

/-- Three received blocks in turn: `sampleBlock1` is accepted, `errBlock` is
rolled back, and a second copy of `sampleBlock1` is rolled back (wrong index). -/
theorem AddRemoteBlocksRounds_sample :
    AddRemoteBlocksRounds sampleDigest sampleDate [genesisBlock]
      [sampleBlock1, errBlock, sampleBlock1] = some [genesisBlock, sampleBlock1] := by
  decide

/-! ### One iteration of the miner loop -/

theorem take_length_pred_append (chain : List Block) (b : Block) :
    (chain ++ [b]).take ((chain ++ [b]).length - 1) = chain := by
  rw [List.length_append, List.length_singleton, Nat.add_sub_cancel]
  exact List.take_left' rfl

theorem getElem?_length_pred_append (chain : List Block) (b : Block) :
    (chain ++ [b])[(chain ++ [b]).length - 1]? = some b := by
  rw [List.getElem?_append_right (by simp)]
  simp

/-- An iteration whose candidate passes local validation broadcasts the
candidate; the chain keeps it unless the peers reject it. -/
theorem mineBlocksStep_of_passed_validation (sha256hex : List Nat → List Nat)
    (unixDate : Int → List Nat) (chain : List Block) (now : Nat → Int) (fuel : Nat) (r0 : Int)
    (answers : Block → List (NodeAddress × PostReply)) (candidate : Block)
    (hmine : Blockchain.AddBlock sha256hex unixDate chain now fuel r0
      = some (chain ++ [candidate]))
    (hok : ValidateChain sha256hex unixDate (chain ++ [candidate]) = some true) :
    mineBlocksStep sha256hex unixDate chain now fuel r0 answers
      = some { chain := if Node.AddBlock (answers candidate) then chain ++ [candidate]
                        else chain,
               broadcast := candidate,
               resync := !Node.AddBlock (answers candidate) } := by
  unfold mineBlocksStep
  simp only [hmine, hok, Bool.not_true, Bool.false_eq_true, if_false,
    getElem?_length_pred_append, take_length_pred_append]
  cases Node.AddBlock (answers candidate) <;> simp

/-- C14 (divergence): in an iteration of the loop of `mineBlocks` whose freshly
mined candidate fails local validation, the candidate is popped and the tip the
chain had at the start of the iteration is handed to `nodeInstance.AddBlock`;
when the peers reject it, that tip is popped as well before `syncChain`. -/
theorem mineBlocksStep_of_failed_validation (sha256hex : List Nat → List Nat)
    (unixDate : Int → List Nat) (chain : List Block) (tip : Block) (now : Nat → Int)
    (fuel : Nat) (r0 : Int) (answers : Block → List (NodeAddress × PostReply))
    (candidate : Block) (htip : chain.getLast? = some tip)
    (hmine : Blockchain.AddBlock sha256hex unixDate chain now fuel r0
      = some (chain ++ [candidate]))
    (hrej : ValidateChain sha256hex unixDate (chain ++ [candidate]) = some false) :
    mineBlocksStep sha256hex unixDate chain now fuel r0 answers
      = some { chain := if Node.AddBlock (answers tip) then chain else chain.dropLast,
               broadcast := tip,
               resync := !Node.AddBlock (answers tip) } := by
  have htip2 : chain[chain.length - 1]? = some tip := by
    rw [← List.getLast?_eq_getElem?]; exact htip
  unfold mineBlocksStep
  simp only [hmine, hrej, Bool.not_false, if_true, take_length_pred_append, htip2,
    List.dropLast_eq_take]
  cases Node.AddBlock (answers tip) <;> simp

/-- The chain `[genesisBlock, futureBlock]` with the local clock at 500 s and one
peer that answers 406: the mined `lateCandidate` fails the timestamp check, the
accepted tip `futureBlock` is broadcast, and the chain before `syncChain` is
`[genesisBlock]`. -/
theorem mineBlocksStep_of_failed_validation_witness :
    chainInvariants sampleDigest sampleDate [genesisBlock, futureBlock] ∧
    Blockchain.AddBlock sampleDigest sampleDate [genesisBlock, futureBlock] (fun _ => 500) 1 0
      = some ([genesisBlock, futureBlock] ++ [lateCandidate]) ∧
    ValidateChain sampleDigest sampleDate ([genesisBlock, futureBlock] ++ [lateCandidate])
      = some false ∧
    mineBlocksStep sampleDigest sampleDate [genesisBlock, futureBlock] (fun _ => 500) 1 0
        (fun _ => [(peerA, PostReply.response 406)])
      = some { chain := [genesisBlock], broadcast := futureBlock, resync := true } := by
  refine ⟨by decide!, by decide!, by decide!, ?_⟩
  rw [mineBlocksStep_of_failed_validation sampleDigest sampleDate [genesisBlock, futureBlock]
    futureBlock (fun _ => 500) 1 0 (fun _ => [(peerA, PostReply.response 406)]) lateCandidate
    (by decide) (by decide!) (by decide!)]
  decide

end GoBlockchain
